import Mathlib

/-!
Shallow embedding of the deterministic simulation core of `pacman.rs`
(`src/main.rs`): grid primitives, maze generation with connectivity repair,
the BFS path field, the ghost controller, the bonus spawner and the per-tick
orchestrator, together with proofs of the specification's testable
properties.

Conventions of the embedding:
* Rust `usize`/`u32` values are modelled as `Nat`; `saturating_sub` is the
  truncated subtraction of `Nat`; `u32::wrapping_add` keeps its `% 2^32`.
* `Vec<Vec<T>>` grids are `List (List T)`; reads use `getD` with the same
  default the surrounding code guarantees is never observed in-bounds.
* The injected random source (`impl Rng`) is a stream of naturals with a
  cursor; `gen_range(0..n)` reads the next value modulo `n`, and the two
  `f32` probability draws of the braiding pass are modelled as draws of a
  percentage below the constant's percentage value.
* Code that can `panic!`/`expect` returns `Option`.
* The two unbounded `while` loops of the source (frontier growth and the
  search queues) take an explicit fuel that dominates their decreasing
  measure, so that on all inputs the fuel is never exhausted before the
  loop's own exit condition fires; for the search queues this sufficiency
  is proved below.
-/

namespace Pacman

/-- The injectable random source: an infinite stream of naturals and a
read cursor. -/
structure Rng where
  f : Nat → Nat
  i : Nat

/-- `rng.gen_range(0..n)`: next stream value reduced mod `n`. -/
def Rng.genRange0 (r : Rng) (n : Nat) : Nat × Rng :=
  (r.f r.i % n, ⟨r.f, r.i + 1⟩)

/-- `rng.gen_range(a..=b)`. -/
def Rng.genRangeIncl (r : Rng) (a b : Nat) : Nat × Rng :=
  (a + r.f r.i % (b - a + 1), ⟨r.f, r.i + 1⟩)

/-- `rng.gen::<f32>() < c` where `c` is `pct/100`: draw a percentage. -/
def Rng.genBelowPct (r : Rng) (pct : Nat) : Bool × Rng :=
  (decide (r.f r.i % 100 < pct), ⟨r.f, r.i + 1⟩)

/-- `slice.choose(rng)`: uniformly pick an element, `none` on empty. -/
def Rng.choose (r : Rng) (l : List α) : Option α × Rng :=
  if l.isEmpty then (none, r)
  else
    let (k, r') := r.genRange0 l.length
    (l.get? k, r')

def PEN_W : Nat := 9
def PEN_H : Nat := 5
def GHOST_RELEASE_INTERVAL : Nat := 90
def BONUS_MIN_TICKS : Nat := 600
def BONUS_MAX_TICKS : Nat := 1100
def BONUS_LIFETIME_TICKS : Nat := 260
def BONUS_SCORE : Nat := 200
def BONUS_POWER_BOOST : Nat := 40
def POWER_TICKS : Nat := 90
def BRAID_CHANCE_PCT : Nat := 45
def EXTRA_OPENINGS_PCT : Nat := 8
def GHOST_MOVE_INTERVAL : Nat := 2

inductive Tile where
  | Wall
  | Empty
  | Pellet
  | Power
  | Gate
deriving DecidableEq, Repr

structure Pos where
  x : Nat
  y : Nat
deriving DecidableEq, Repr

inductive Dir where
  | Up
  | Down
  | Left
  | Right
deriving DecidableEq, Repr

def Dir.delta : Dir → Int × Int
  | .Up => (0, -1)
  | .Down => (0, 1)
  | .Left => (-1, 0)
  | .Right => (1, 0)

/-- Grid of tiles, row major: `grid[y][x]`. -/
abbrev Grid := List (List Tile)

/-- `grid[y][x]`; out-of-range reads default to `Wall` (the source never
reads out of range thanks to its bounds guards). -/
def tileAt (grid : Grid) (p : Pos) : Tile :=
  (grid.getD p.y []).getD p.x Tile.Wall

/-- `grid[y][x] = t`. -/
def setTile (grid : Grid) (p : Pos) (t : Tile) : Grid :=
  grid.set p.y ((grid.getD p.y []).set p.x t)

structure PenBounds where
  x0 : Nat
  y0 : Nat
  x1 : Nat
  y1 : Nat
deriving DecidableEq, Repr

/-- `step`: move one tile in a direction (`isize`→`usize` casts; every call
site of the source guards non-negativity first). -/
def step (pos : Pos) (dir : Dir) : Pos :=
  ⟨(Int.ofNat pos.x + dir.delta.1).toNat, (Int.ofNat pos.y + dir.delta.2).toNat⟩

/-- `can_move_player`. -/
def can_move_player (grid : Grid) (width height : Nat) (pos : Pos) (dir : Dir) : Bool :=
  let nx := Int.ofNat pos.x + dir.delta.1
  let ny := Int.ofNat pos.y + dir.delta.2
  if nx < 0 || ny < 0 then false
  else
    let nx := nx.toNat
    let ny := ny.toNat
    if nx ≥ width || ny ≥ height then false
    else
      match tileAt grid ⟨nx, ny⟩ with
      | Tile.Wall | Tile.Gate => false
      | _ => true

/-- Ghost passability of a single tile under a gate mode (the `match` of
`can_move_ghost`). -/
def ghostPassable (t : Tile) (gate_open : Bool) : Bool :=
  match t with
  | Tile.Wall => false
  | Tile.Gate => gate_open
  | _ => true

/-- `can_move_ghost`. -/
def can_move_ghost (grid : Grid) (width height : Nat) (pos : Pos) (dir : Dir)
    (gate_open : Bool) : Bool :=
  let nx := Int.ofNat pos.x + dir.delta.1
  let ny := Int.ofNat pos.y + dir.delta.2
  if nx < 0 || ny < 0 then false
  else
    let nx := nx.toNat
    let ny := ny.toNat
    if nx ≥ width || ny ≥ height then false
    else ghostPassable (tileAt grid ⟨nx, ny⟩) gate_open

/-- The four scan directions, in source order. -/
def dirList : List Dir := [Dir.Up, Dir.Down, Dir.Left, Dir.Right]

/-! ## BFS path field (`bfs_distance`) -/

/-- Distance table, row major, `-1` the unreached sentinel. -/
abbrev DistGrid := List (List Int)

def distAt (dist : DistGrid) (p : Pos) : Int :=
  (dist.getD p.y []).getD p.x (-1)

def setDist (dist : DistGrid) (p : Pos) (v : Int) : DistGrid :=
  dist.set p.y ((dist.getD p.y []).set p.x v)

/-- Body of the `for dir in [..]` loop of `bfs_distance`: try to relax one
direction out of `pos`, given the `base` distance read at `pos`. -/
def bfsStepDir (grid : Grid) (width height : Nat) (gate_open : Bool) (pos : Pos)
    (base : Int) (st : DistGrid × List Pos) (dir : Dir) : DistGrid × List Pos :=
  if can_move_ghost grid width height pos dir gate_open then
    let next := step pos dir
    if distAt st.1 next = -1 then
      (setDist st.1 next (base + 1), st.2 ++ [next])
    else st
  else st

/-- Process every direction out of one dequeued position. -/
def bfsStepPos (grid : Grid) (width height : Nat) (gate_open : Bool) (pos : Pos)
    (st : DistGrid × List Pos) : DistGrid × List Pos :=
  dirList.foldl (bfsStepDir grid width height gate_open pos (distAt st.1 pos)) st

/-- The `while let Some(pos) = q.pop_front()` loop of `bfs_distance`,
with fuel dominating `2·(unvisited cells) + queue length`. -/
def bfsLoop (grid : Grid) (width height : Nat) (gate_open : Bool) :
    Nat → DistGrid → List Pos → DistGrid
  | 0, dist, _ => dist
  | _ + 1, dist, [] => dist
  | fuel + 1, dist, pos :: rest =>
    let st := bfsStepPos grid width height gate_open pos (dist, rest)
    bfsLoop grid width height gate_open fuel st.1 st.2

/-- `bfs_distance`. -/
def bfs_distance (grid : Grid) (width height : Nat) (start : Pos)
    (gate_open : Bool) : DistGrid :=
  let dist : DistGrid := List.replicate height (List.replicate width (-1))
  bfsLoop grid width height gate_open (2 * width * height + 1)
    (setDist dist start 0) [start]

/-! ## Ghost controller -/

/-- The option/best accumulation of `ghost_next_dir`'s direction loop. -/
def ghostDirFold (grid : Grid) (width height : Nat) (dist : DistGrid) (pos : Pos)
    (gate_open : Bool) (st : List Dir × Int) (dir : Dir) : List Dir × Int :=
  if can_move_ghost grid width height pos dir gate_open then
    let d := distAt dist (step pos dir)
    if d ≥ 0 && d < st.2 then ([dir], d)
    else if d ≥ 0 && d = st.2 then (st.1 ++ [dir], st.2)
    else st
  else st

/-- `ghost_next_dir`. `i32::MAX` is the initial `best`; distances stay far
below it, all that matters is that it exceeds every distance value. -/
def ghost_next_dir (pos : Pos) (grid : Grid) (width height : Nat)
    (dist : DistGrid) (rng : Rng) (gate_open : Bool) : Option Dir × Rng :=
  let st := dirList.foldl (ghostDirFold grid width height dist pos gate_open)
    ([], (2147483647 : Int))
  if st.1.isEmpty then (none, rng)
  else rng.choose st.1

/-- `in_pen_interior`. -/
def in_pen_interior (pos : Pos) (pen : PenBounds) : Bool :=
  decide (pos.x > pen.x0) && decide (pos.x < pen.x1) &&
  decide (pos.y > pen.y0) && decide (pos.y < pen.y1)

/-- `ghost_next_dir_pen`: caged ghosts wander the pen interior with the
gate closed. -/
def ghost_next_dir_pen (pos : Pos) (grid : Grid) (width height : Nat)
    (pen : PenBounds) (rng : Rng) : Option Dir × Rng :=
  let options := dirList.foldl
    (fun acc dir =>
      if can_move_ghost grid width height pos dir false then
        if in_pen_interior (step pos dir) pen then acc ++ [dir] else acc
      else acc) []
  rng.choose options

/-! ## Maze generation -/

/-- Half-resolution membership grid for the spanning-tree growth. -/
abbrev BoolGrid := List (List Bool)

def boolAt (g : BoolGrid) (x y : Nat) : Bool := (g.getD y []).getD x false

def setBool (g : BoolGrid) (x y : Nat) (v : Bool) : BoolGrid :=
  g.set y ((g.getD y []).set x v)

/-- `carve_cell`. -/
def carve_cell (grid : Grid) (cx cy : Nat) : Grid :=
  setTile grid ⟨cx * 2 + 1, cy * 2 + 1⟩ Tile.Empty

/-- `carve_between`. -/
def carve_between (grid : Grid) (cx cy nx ny : Nat) : Grid :=
  setTile grid ⟨(cx * 2 + 1 + (nx * 2 + 1)) / 2, (cy * 2 + 1 + (ny * 2 + 1)) / 2⟩
    Tile.Empty

/-- `add_frontier`: push the out-of-tree neighbors of a cell. -/
def add_frontier (cx cy cells_w cells_h : Nat) (in_maze : BoolGrid)
    (frontier : List (Nat × Nat)) : List (Nat × Nat) :=
  let f := frontier
  let f := if cy > 0 && !boolAt in_maze cx (cy - 1) then f ++ [(cx, cy - 1)] else f
  let f := if cy + 1 < cells_h && !boolAt in_maze cx (cy + 1) then f ++ [(cx, cy + 1)] else f
  let f := if cx > 0 && !boolAt in_maze (cx - 1) cy then f ++ [(cx - 1, cy)] else f
  let f := if cx + 1 < cells_w && !boolAt in_maze (cx + 1) cy then f ++ [(cx + 1, cy)] else f
  f

/-- `Vec::swap_remove(idx)`: replace slot `idx` by the last element and pop. -/
def swapRemoveAt (l : List α) (idx : Nat) : List α :=
  match l.getLast? with
  | none => l
  | some last => (l.set idx last).dropLast

/-- The in-tree neighbors scanned by the frontier loop, in source order. -/
def treeNeighbors (cx cy cells_w cells_h : Nat) (in_maze : BoolGrid) :
    List (Nat × Nat) :=
  let n := ([] : List (Nat × Nat))
  let n := if cy > 0 && boolAt in_maze cx (cy - 1) then n ++ [(cx, cy - 1)] else n
  let n := if cy + 1 < cells_h && boolAt in_maze cx (cy + 1) then n ++ [(cx, cy + 1)] else n
  let n := if cx > 0 && boolAt in_maze (cx - 1) cy then n ++ [(cx - 1, cy)] else n
  let n := if cx + 1 < cells_w && boolAt in_maze (cx + 1) cy then n ++ [(cx + 1, cy)] else n
  n

/-- The `while !frontier.is_empty()` spanning-tree loop of `generate_maze`.
Fuel dominates `4·(cells not yet in tree) + frontier length`, which every
iteration strictly decreases, so the chosen fuel never runs out. -/
def mazeLoop (cells_w cells_h : Nat) :
    Nat → Grid → BoolGrid → List (Nat × Nat) → Rng → Grid × BoolGrid × Rng
  | 0, grid, in_maze, _, rng => (grid, in_maze, rng)
  | fuel + 1, grid, in_maze, frontier, rng =>
    if frontier.isEmpty then (grid, in_maze, rng)
    else
      let (idx, rng) := rng.genRange0 frontier.length
      let c := frontier.getD idx (0, 0)
      let frontier := swapRemoveAt frontier idx
      if boolAt in_maze c.1 c.2 then
        mazeLoop cells_w cells_h fuel grid in_maze frontier rng
      else
        let neighbors := treeNeighbors c.1 c.2 cells_w cells_h in_maze
        if neighbors.isEmpty then
          mazeLoop cells_w cells_h fuel grid in_maze frontier rng
        else
          let (nOpt, rng) := rng.choose neighbors
          let nb := nOpt.getD (0, 0)
          let in_maze := setBool in_maze c.1 c.2 true
          let grid := carve_between grid c.1 c.2 nb.1 nb.2
          let grid := carve_cell grid c.1 c.2
          let frontier := add_frontier c.1 c.2 cells_w cells_h in_maze frontier
          mazeLoop cells_w cells_h fuel grid in_maze frontier rng

/-- `is_open_between`. -/
def is_open_between (grid : Grid) (cx cy nx ny : Nat) : Bool :=
  tileAt grid ⟨(cx * 2 + 1 + (nx * 2 + 1)) / 2, (cy * 2 + 1 + (ny * 2 + 1)) / 2⟩
    != Tile.Wall

/-- Neighbor cell of a cell in a direction (casts guarded by the caller's
bounds checks, as in the source). -/
def cellStep (cx cy : Nat) (dir : Dir) : Nat × Nat :=
  ((Int.ofNat cx + dir.delta.1).toNat, (Int.ofNat cy + dir.delta.2).toNat)

/-- Shared bounds guard of `cell_open_neighbors`/`cell_closed_neighbors`. -/
def cellDirInBounds (cx cy cells_w cells_h : Nat) (dir : Dir) : Bool :=
  let nx := Int.ofNat cx + dir.delta.1
  let ny := Int.ofNat cy + dir.delta.2
  !(nx < 0 || ny < 0 || nx.toNat ≥ cells_w || ny.toNat ≥ cells_h)

/-- `cell_open_neighbors`. -/
def cell_open_neighbors (grid : Grid) (cx cy cells_w cells_h : Nat) : List Dir :=
  dirList.foldl
    (fun acc dir =>
      if cellDirInBounds cx cy cells_w cells_h dir then
        let nb := cellStep cx cy dir
        if is_open_between grid cx cy nb.1 nb.2 then acc ++ [dir] else acc
      else acc) []

/-- `cell_closed_neighbors`. -/
def cell_closed_neighbors (grid : Grid) (cx cy cells_w cells_h : Nat) : List Dir :=
  dirList.foldl
    (fun acc dir =>
      if cellDirInBounds cx cy cells_w cells_h dir then
        let nb := cellStep cx cy dir
        if is_open_between grid cx cy nb.1 nb.2 then acc else acc ++ [dir]
      else acc) []

/-- `carve_between_dir`. -/
def carve_between_dir (grid : Grid) (cx cy : Nat) (dir : Dir) : Grid :=
  let nb := cellStep cx cy dir
  carve_cell (carve_between grid cx cy nb.1 nb.2) nb.1 nb.2

/-- One cell of the braiding pass. -/
def braidCell (cells_w cells_h : Nat) (st : Grid × Rng) (c : Nat × Nat) :
    Grid × Rng :=
  let (grid, rng) := st
  let openN := cell_open_neighbors grid c.1 c.2 cells_w cells_h
  let closedN := cell_closed_neighbors grid c.1 c.2 cells_w cells_h
  if openN.length = 1 && !closedN.isEmpty then
    let (draw, rng) := rng.genBelowPct BRAID_CHANCE_PCT
    if draw then
      let (dOpt, rng) := rng.choose closedN
      (carve_between_dir grid c.1 c.2 (dOpt.getD Dir.Up), rng)
    else
      -- the `else if` arm re-tests `!closed.is_empty()` (true here) and draws
      let (draw2, rng) := rng.genBelowPct EXTRA_OPENINGS_PCT
      if draw2 then
        let (dOpt, rng) := rng.choose closedN
        (carve_between_dir grid c.1 c.2 (dOpt.getD Dir.Up), rng)
      else (grid, rng)
  else if !closedN.isEmpty then
    let (draw2, rng) := rng.genBelowPct EXTRA_OPENINGS_PCT
    if draw2 then
      let (dOpt, rng) := rng.choose closedN
      (carve_between_dir grid c.1 c.2 (dOpt.getD Dir.Up), rng)
    else (grid, rng)
  else (grid, rng)

/-- `braid_maze`: row-major sweep over the half-resolution cells. -/
def braid_maze (grid : Grid) (cells_w cells_h : Nat) (rng : Rng) : Grid × Rng :=
  ((List.range cells_h).flatMap
    (fun cy => (List.range cells_w).map (fun cx => (cx, cy)))).foldl
    (braidCell cells_w cells_h) (grid, rng)

/-- `pen_bounds`. -/
def pen_bounds (width height : Nat) : Nat × Nat × Nat × Nat :=
  let pen_w := min PEN_W (width - 2)
  let pen_h := min PEN_H (height - 2)
  let pen_w := if pen_w % 2 = 0 then pen_w - 1 else pen_w
  let pen_h := if pen_h % 2 = 0 then pen_h - 1 else pen_h
  let pen_w := max pen_w 3
  let pen_h := max pen_h 3
  let x0 := (width - pen_w) / 2
  let y0 := (height - pen_h) / 2
  (x0, y0, x0 + pen_w - 1, y0 + pen_h - 1)

/-- `is_in_pen`. -/
def is_in_pen (pos : Pos) (width height : Nat) : Bool :=
  let b := pen_bounds width height
  decide (pos.x ≥ b.1) && decide (pos.x ≤ b.2.2.1) &&
  decide (pos.y ≥ b.2.1) && decide (pos.y ≤ b.2.2.2)

/-- The pen rectangle in the scan order of `carve_ghost_pen`'s loops. -/
def penCoords (x0 y0 x1 y1 : Nat) : List Pos :=
  ((List.range (y1 + 1 - y0)).map (· + y0)).flatMap
    (fun y => ((List.range (x1 + 1 - x0)).map (· + x0)).map (fun x => (⟨x, y⟩ : Pos)))

/-- The upward corridor carve of `carve_ghost_pen`: from the given `y` walk
up while the tile is `Wall`, emptying it; stop at the first non-`Wall` tile
or at row 0. -/
def corridorCarve (x : Nat) : Nat → Grid → Grid
  | 0, grid => grid
  | y + 1, grid =>
    if tileAt grid ⟨x, y + 1⟩ != Tile.Wall then grid
    else corridorCarve x y (setTile grid ⟨x, y + 1⟩ Tile.Empty)

/-- The per-coordinate body of `carve_ghost_pen`'s double loop: ring cells
become `Wall`, inner cells become `Empty` and are recorded in `pen_all` and
`pen_spawns`. -/
def penStep (x0 y0 x1 y1 : Nat) (st : Grid × List Pos × List Pos) (p : Pos) :
    Grid × List Pos × List Pos :=
  if p.y = y0 || p.y = y1 || p.x = x0 || p.x = x1 then
    (setTile st.1 p Tile.Wall, st.2)
  else
    (setTile st.1 p Tile.Empty, st.2.1 ++ [p], st.2.2 ++ [p])

/-- `carve_ghost_pen`: returns (grid, pen_all, door, pen_spawns, bounds). -/
def carve_ghost_pen (grid : Grid) (width height : Nat) :
    Grid × List Pos × Pos × List Pos × PenBounds :=
  let b := pen_bounds width height
  let x0 := b.1
  let y0 := b.2.1
  let x1 := b.2.2.1
  let y1 := b.2.2.2
  let st := (penCoords x0 y0 x1 y1).foldl (penStep x0 y0 x1 y1) (grid, [], [])
  let door : Pos := ⟨(x0 + x1) / 2, y0⟩
  let grid := setTile st.1 door Tile.Gate
  let pen_all := st.2.1 ++ [door]
  let grid := corridorCarve door.x (door.y - 1) grid
  (grid, pen_all, door, st.2.2, ⟨x0, y0, x1, y1⟩)

/-- `pick_ghost_spawns`: up to four pen cells, padded by the first. -/
def pick_ghost_spawns (pen_spawns : List Pos) : List Pos :=
  if pen_spawns.isEmpty then []
  else
    let s := pen_spawns.take 4
    s ++ List.replicate (4 - s.length) (pen_spawns.headD ⟨0, 0⟩)

/-! ## Connectivity repair -/

/-- `is_in_pen_bounds`. -/
def is_in_pen_bounds (pos : Pos) (pen : PenBounds) : Bool :=
  decide (pos.x ≥ pen.x0) && decide (pos.x ≤ pen.x1) &&
  decide (pos.y ≥ pen.y0) && decide (pos.y ≤ pen.y1)

/-- `is_walkable_for_player` (the width/height parameters are unused in the
source as well). -/
def is_walkable_for_player (grid : Grid) (pen : PenBounds) (pos : Pos) : Bool :=
  if is_in_pen_bounds pos pen then false
  else
    match tileAt grid pos with
    | Tile.Wall | Tile.Gate => false
    | _ => true

/-- `is_pen_wall`. -/
def is_pen_wall (pos : Pos) (pen : PenBounds) : Bool :=
  (decide (pos.x ≥ pen.x0) && decide (pos.x ≤ pen.x1) &&
    (decide (pos.y = pen.y0) || decide (pos.y = pen.y1))) ||
  (decide (pos.y ≥ pen.y0) && decide (pos.y ≤ pen.y1) &&
    (decide (pos.x = pen.x0) || decide (pos.x = pen.x1)))

/-- Interior coordinates `y in 1..height-1`, `x in 1..width-1`, scan order. -/
def interiorCoords (width height : Nat) : List Pos :=
  ((List.range (height - 1 - 1)).map (· + 1)).flatMap
    (fun y => ((List.range (width - 1 - 1)).map (· + 1)).map (fun x => (⟨x, y⟩ : Pos)))

/-- `find_start`. -/
def find_start (grid : Grid) (width height : Nat) (pen : PenBounds) : Option Pos :=
  (interiorCoords width height).find? (fun p => is_walkable_for_player grid pen p)

def seenAt (seen : BoolGrid) (p : Pos) : Bool := (seen.getD p.y []).getD p.x false

def setSeen (seen : BoolGrid) (p : Pos) (v : Bool) : BoolGrid :=
  seen.set p.y ((seen.getD p.y []).set p.x v)

/-- One neighbor probe of `flood`'s scan: the source skips neighbors with
`nx <= 0 || ny <= 0 || nx >= width-1 || ny >= height-1` (flood stays strictly
inside the border ring). -/
def floodStepDir (grid : Grid) (width height : Nat) (pen : PenBounds) (pos : Pos)
    (st : BoolGrid × List Pos) (dir : Dir) : BoolGrid × List Pos :=
  let nx := Int.ofNat pos.x + dir.delta.1
  let ny := Int.ofNat pos.y + dir.delta.2
  if nx ≤ 0 || ny ≤ 0 || nx ≥ (Int.ofNat width - 1) || ny ≥ (Int.ofNat height - 1) then st
  else
    let npos : Pos := ⟨nx.toNat, ny.toNat⟩
    if seenAt st.1 npos then st
    else if !is_walkable_for_player grid pen npos then st
    else (setSeen st.1 npos true, st.2 ++ [npos])

def floodStepPos (grid : Grid) (width height : Nat) (pen : PenBounds) (pos : Pos)
    (st : BoolGrid × List Pos) : BoolGrid × List Pos :=
  dirList.foldl (floodStepDir grid width height pen pos) st

/-- The queue loop of `flood`; fuel dominates `2·(unseen) + queue length`. -/
def floodLoop (grid : Grid) (width height : Nat) (pen : PenBounds) :
    Nat → BoolGrid → List Pos → BoolGrid
  | 0, seen, _ => seen
  | _ + 1, seen, [] => seen
  | fuel + 1, seen, pos :: rest =>
    let st := floodStepPos grid width height pen pos (seen, rest)
    floodLoop grid width height pen fuel st.1 st.2

/-- `flood`. -/
def flood (grid : Grid) (width height : Nat) (pen : PenBounds) (start : Pos) :
    BoolGrid :=
  let seen : BoolGrid := List.replicate height (List.replicate width false)
  floodLoop grid width height pen (2 * width * height + 1)
    (setSeen seen start true) [start]

/-- `has_unreachable`. -/
def has_unreachable (grid : Grid) (width height : Nat) (pen : PenBounds)
    (reachable : BoolGrid) : Bool :=
  (interiorCoords width height).any
    (fun p => is_walkable_for_player grid pen p && !seenAt reachable p)

/-- The four orthogonal neighbors probed by the repair scan (its coordinates
are ≥ 1 so the unchecked casts cannot underflow). -/
def repairNeighbors (p : Pos) : List Pos :=
  [⟨p.x, p.y - 1⟩, ⟨p.x, p.y + 1⟩, ⟨p.x - 1, p.y⟩, ⟨p.x + 1, p.y⟩]

/-- The carve candidate scan of `ensure_connected`'s repair loop: the first
interior `Wall`, not part of the pen ring, adjacent to both a reachable and
an unreachable walkable tile. -/
def repairScan (grid : Grid) (width height : Nat) (pen : PenBounds)
    (reachable : BoolGrid) : Option Pos :=
  (interiorCoords width height).find?
    (fun p =>
      tileAt grid p = Tile.Wall && !is_pen_wall p pen &&
      (repairNeighbors p).any
        (fun n => is_walkable_for_player grid pen n && seenAt reachable n) &&
      (repairNeighbors p).any
        (fun n => is_walkable_for_player grid pen n && !seenAt reachable n))

/-- The bounded repair loop of `ensure_connected`: fuel is the source's own
`iterations < width * height` cap. -/
def ensureLoop (width height : Nat) (pen : PenBounds) (start : Pos) :
    Nat → Grid → BoolGrid → Grid
  | 0, grid, _ => grid
  | fuel + 1, grid, reachable =>
    if has_unreachable grid width height pen reachable then
      match repairScan grid width height pen reachable with
      | none => grid
      | some p =>
        let grid := setTile grid p Tile.Empty
        ensureLoop width height pen start fuel grid (flood grid width height pen start)
    else grid

/-- `ensure_connected`. -/
def ensure_connected (grid : Grid) (width height : Nat) (pen : PenBounds) : Grid :=
  match find_start grid width height pen with
  | none => grid
  | some s =>
    ensureLoop width height pen s (width * height) grid (flood grid width height pen s)

/-! ## `generate_maze` -/

/-- One interior coordinate of the pellet placement loop. -/
def pelletStep (pen_all : List Pos) (st : Grid × Nat) (p : Pos) : Grid × Nat :=
  if tileAt st.1 p = Tile.Empty && !pen_all.contains p then
    (setTile st.1 p Tile.Pellet, st.2 + 1)
  else st

/-- The pellet placement pass, fused with its counter as in the source. -/
def pelletPass (grid : Grid) (width height : Nat) (pen_all : List Pos) :
    Grid × Nat :=
  (interiorCoords width height).foldl (pelletStep pen_all) (grid, 0)

/-- The four power-pellet corner spots. -/
def powerSpots (width height : Nat) : List Pos :=
  [⟨1, 1⟩, ⟨width - 2, 1⟩, ⟨1, height - 2⟩, ⟨width - 2, height - 2⟩]

/-- One spot of the power-pellet placement loop. -/
def powerStep (g : Grid) (p : Pos) : Grid :=
  if tileAt g p != Tile.Wall then setTile g p Tile.Power else g

/-- One coordinate of the final pen re-clearing loop (keeps the gate). -/
def penClearStep (g : Grid) (p : Pos) : Grid :=
  if tileAt g p = Tile.Gate then g
  else if tileAt g p != Tile.Wall then setTile g p Tile.Empty
  else g

/-- The deterministic tail of `generate_maze` after the braiding pass: pen
carving, connectivity repair, pellet placement, power pellets, pen
re-clearing, ghost spawns. -/
def mazePost (grid0 : Grid) (width height : Nat) :
    Grid × Nat × List Pos × PenBounds :=
  let pc := carve_ghost_pen grid0 width height
  let grid := pc.1
  let pen_all := pc.2.1
  let pen_spawns := pc.2.2.2.1
  let penB := pc.2.2.2.2
  let grid := ensure_connected grid width height penB
  let pp := pelletPass grid width height pen_all
  let grid := pp.1
  let pellets := pp.2
  let grid := (powerSpots width height).foldl powerStep grid
  let grid := pen_all.foldl penClearStep grid
  let ghost_spawns := pick_ghost_spawns pen_spawns
  (grid, pellets, ghost_spawns, penB)

/-- `generate_maze`. -/
def generate_maze (rng : Rng) (width height : Nat) :
    (Grid × Nat × List Pos × PenBounds) × Rng :=
  let grid : Grid := List.replicate height (List.replicate width Tile.Wall)
  let cells_w := (width - 1) / 2
  let cells_h := (height - 1) / 2
  let in_maze : BoolGrid := List.replicate cells_h (List.replicate cells_w false)
  let r1 := rng.genRange0 cells_w
  let sx := r1.1
  let r2 := r1.2.genRange0 cells_h
  let sy := r2.1
  let in_maze := setBool in_maze sx sy true
  let grid := carve_cell grid sx sy
  let frontier := add_frontier sx sy cells_w cells_h in_maze []
  let ml := mazeLoop cells_w cells_h (5 * cells_w * cells_h + frontier.length + 1)
      grid in_maze frontier r2.2
  let bm := braid_maze ml.1 cells_w cells_h ml.2.2
  (mazePost bm.1 width height, bm.2)

/-! ## Game state and its operations -/

structure Game where
  width : Nat
  height : Nat
  grid : Grid
  player : Pos
  player_spawn : Pos
  ghosts : List Pos
  ghost_spawns : List Pos
  score : Nat
  lives : Nat
  level : Nat
  pellets_left : Nat
  power_timer : Nat
  dir : Option Dir
  ghost_tick : Nat
  ghost_release : List Nat
  pen_bounds : PenBounds
  bonus_pos : Option Pos
  bonus_timer : Nat
  bonus_spawn_in : Nat
deriving Repr

/-- The staggered release schedule `i * GHOST_RELEASE_INTERVAL` built by the
push loops of `new_game`, `next_level` and `handle_collisions`. -/
def staggered (n : Nat) : List Nat :=
  (List.range n).map (· * GHOST_RELEASE_INTERVAL)

/-- `empty_cells`: every non-`Wall`, non-`Gate` tile, scan order. -/
def empty_cells (grid : Grid) : List Pos :=
  (List.range grid.length).flatMap
    (fun y =>
      ((List.range (grid.getD y []).length).filter
        (fun x =>
          tileAt grid ⟨x, y⟩ != Tile.Wall && tileAt grid ⟨x, y⟩ != Tile.Gate)).map
        (fun x => (⟨x, y⟩ : Pos)))

/-- Swap two list slots (`<[_]>::swap`). -/
def listSwap (l : List α) (a b : Nat) : List α :=
  match l.get? a, l.get? b with
  | some x, some y => (l.set a y).set b x
  | _, _ => l

/-- Fisher–Yates tail: indices `k+1` down to `1`, each swapped with a
uniformly drawn index `≤` it (`SliceRandom::shuffle`). -/
def shuffleAux : Nat → List α → Rng → List α × Rng
  | 0, l, rng => (l, rng)
  | k + 1, l, rng =>
    let (v, rng) := rng.genRange0 (k + 2)
    shuffleAux k (listSwap l (k + 1) v) rng

/-- `empties.shuffle(rng)`. -/
def shuffle (l : List α) (rng : Rng) : List α × Rng :=
  shuffleAux (l.length - 1) l rng

/-- The player-spawn search of `new_game`/`next_level`. -/
def findPlayerSpawn (empties ghost_spawns : List Pos) (width height : Nat) :
    Option Pos :=
  empties.find? (fun p => !ghost_spawns.contains p && !is_in_pen p width height)

/-- `new_game`; `none` models the `expect("maze has empty cells")` abort. -/
def new_game (rng : Rng) (level width height : Nat) : Option (Game × Rng) :=
  let gm := generate_maze rng width height
  let grid := gm.1.1
  let pellets_left := gm.1.2.1
  let ghost_spawns := gm.1.2.2.1
  let penB := gm.1.2.2.2
  let rng := gm.2
  let (empties, rng) := shuffle (empty_cells grid) rng
  match findPlayerSpawn empties ghost_spawns width height with
  | none => none
  | some player =>
    let (bonus_spawn_in, rng) := rng.genRangeIncl BONUS_MIN_TICKS BONUS_MAX_TICKS
    some
      ({ width, height, grid, player, player_spawn := player,
         ghosts := ghost_spawns, ghost_spawns, score := 0, lives := 3, level,
         pellets_left, power_timer := 0, dir := none, ghost_tick := 0,
         ghost_release := staggered ghost_spawns.length, pen_bounds := penB,
         bonus_pos := none, bonus_timer := 0, bonus_spawn_in }, rng)

/-- `next_level`. -/
def next_level (game : Game) (rng : Rng) : Option (Game × Rng) :=
  let gm := generate_maze rng game.width game.height
  let grid := gm.1.1
  let pellets_left := gm.1.2.1
  let ghost_spawns := gm.1.2.2.1
  let penB := gm.1.2.2.2
  let rng := gm.2
  let (empties, rng) := shuffle (empty_cells grid) rng
  match findPlayerSpawn empties ghost_spawns game.width game.height with
  | none => none
  | some player =>
    let (bonus_spawn_in, rng) := rng.genRangeIncl BONUS_MIN_TICKS BONUS_MAX_TICKS
    some
      ({ game with
          level := game.level + 1, grid := grid,
          pellets_left := pellets_left, player := player,
          player_spawn := player, ghost_spawns := ghost_spawns,
          ghosts := ghost_spawns,
          ghost_release := staggered ghost_spawns.length, pen_bounds := penB,
          power_timer := 0, dir := none, ghost_tick := 0, bonus_pos := none,
          bonus_timer := 0, bonus_spawn_in := bonus_spawn_in }, rng)

/-- `Game::apply_input`. -/
def Game.apply_input (g : Game) (desired_dir : Option Dir) (input_active : Bool) :
    Game :=
  if !input_active then { g with dir := none }
  else
    match desired_dir with
    | some d =>
      if can_move_player g.grid g.width g.height g.player d then
        { g with dir := some d }
      else g
    | none => g

/-- `Game::move_player`. -/
def Game.move_player (g : Game) : Game :=
  match g.dir with
  | some d =>
    if can_move_player g.grid g.width g.height g.player d then
      { g with player := step g.player d }
    else { g with dir := none }
  | none => g

/-- `Game::consume_tile`. -/
def Game.consume_tile (g : Game) : Game :=
  match tileAt g.grid g.player with
  | Tile.Pellet =>
    { g with
       grid := setTile g.grid g.player Tile.Empty,
       score := g.score + 10, pellets_left := g.pellets_left - 1 }
  | Tile.Power =>
    { g with
       grid := setTile g.grid g.player Tile.Empty,
       score := g.score + 50, pellets_left := g.pellets_left - 1,
       power_timer := POWER_TICKS }
  | _ => g

/-- `Game::try_collect_bonus`. -/
def Game.try_collect_bonus (g : Game) (rng : Rng) : Game × Rng :=
  match g.bonus_pos with
  | some pos =>
    if pos = g.player then
      let (v, rng) := rng.genRangeIncl BONUS_MIN_TICKS BONUS_MAX_TICKS
      ({ g with
          score := g.score + BONUS_SCORE,
          power_timer := max (g.power_timer + BONUS_POWER_BOOST) BONUS_POWER_BOOST,
          bonus_pos := none, bonus_timer := 0, bonus_spawn_in := v }, rng)
    else (g, rng)
  | none => (g, rng)

/-- `random_bonus_spawn`. -/
def random_bonus_spawn (g : Game) (rng : Rng) : Option Pos × Rng :=
  let candidates := (interiorCoords g.width g.height).filter
    (fun p =>
      tileAt g.grid p = Tile.Empty && !is_in_pen p g.width g.height &&
      g.player != p && !g.ghosts.contains p)
  rng.choose candidates

/-- `Game::update_bonus`. -/
def Game.update_bonus (g : Game) (rng : Rng) : Game × Rng :=
  match g.bonus_pos with
  | some _ =>
    if g.bonus_timer > 0 then ({ g with bonus_timer := g.bonus_timer - 1 }, rng)
    else
      let (v, rng) := rng.genRangeIncl BONUS_MIN_TICKS BONUS_MAX_TICKS
      ({ g with bonus_pos := none, bonus_spawn_in := v }, rng)
  | none =>
    if g.bonus_spawn_in > 0 then ({ g with bonus_spawn_in := g.bonus_spawn_in - 1 }, rng)
    else
      let (posOpt, rng) := random_bonus_spawn g rng
      let g :=
        match posOpt with
        | some pos => { g with bonus_pos := some pos, bonus_timer := BONUS_LIFETIME_TICKS }
        | none => g
      let (v, rng) := rng.genRangeIncl BONUS_MIN_TICKS BONUS_MAX_TICKS
      ({ g with bonus_spawn_in := v }, rng)

/-- One ghost of `Game::update_ghosts`' loop: caged ghosts count down and
wander the pen, released ghosts chase down the path field. -/
def ghostUpd (grid : Grid) (width height : Nat) (pen : PenBounds)
    (dist : DistGrid) (st : List Pos × List Nat × Rng) (idx : Nat) :
    List Pos × List Nat × Rng :=
  let ghost := st.1.getD idx ⟨0, 0⟩
  let rel := (st.2.1).getD idx 0
  if rel > 0 then
    let rel' := rel - 1
    let (dirOpt, rng) := ghost_next_dir_pen ghost grid width height pen st.2.2
    let ghost' := match dirOpt with | some d => step ghost d | none => ghost
    (st.1.set idx ghost', (st.2.1).set idx rel', rng)
  else
    let (dirOpt, rng) := ghost_next_dir ghost grid width height dist st.2.2 true
    let ghost' := match dirOpt with | some d => step ghost d | none => ghost
    (st.1.set idx ghost', st.2.1, rng)

/-- `Game::update_ghosts` (with `u32::wrapping_add` on the epoch counter). -/
def Game.update_ghosts (g : Game) (rng : Rng) : Game × Rng :=
  let gt := (g.ghost_tick + 1) % 4294967296
  let g := { g with ghost_tick := gt }
  if gt % GHOST_MOVE_INTERVAL ≠ 0 then (g, rng)
  else
    let dist := bfs_distance g.grid g.width g.height g.player true
    let st := (List.range g.ghosts.length).foldl
      (ghostUpd g.grid g.width g.height g.pen_bounds dist)
      (g.ghosts, g.ghost_release, rng)
    ({ g with ghosts := st.1, ghost_release := st.2.1 }, st.2.2)

/-- `Game::tick_power_timer`. -/
def Game.tick_power_timer (g : Game) : Game :=
  if g.power_timer > 0 then { g with power_timer := g.power_timer - 1 } else g

/-- The first-hit scan of `Game::handle_collisions`: index of the first
ghost sharing the player's tile. -/
def hitIdx : List Pos → Pos → Option Nat
  | [], _ => none
  | g :: gs, player =>
    if g = player then some 0 else (hitIdx gs player).map (· + 1)

/-- `Game::handle_collisions`. -/
def Game.handle_collisions (g : Game) (rng : Rng) : Game × Rng :=
  match hitIdx g.ghosts g.player with
  | none => (g, rng)
  | some idx =>
    if g.power_timer > 0 then
      ({ g with
          score := g.score + 200,
          ghosts := g.ghosts.set idx (g.ghost_spawns.getD idx ⟨0, 0⟩) }, rng)
    else
      let (v, rng) := rng.genRangeIncl BONUS_MIN_TICKS BONUS_MAX_TICKS
      ({ g with
          lives := g.lives - 1, player := g.player_spawn,
          ghosts := g.ghost_spawns,
          ghost_release := staggered g.ghost_spawns.length,
          power_timer := 0, bonus_pos := none, bonus_timer := 0,
          bonus_spawn_in := v }, rng)

/-- `tick`: the per-tick orchestrator; `none` models the `expect` abort
inside `next_level`. -/
def tick (g : Game) (rng : Rng) (desired_dir : Option Dir) (input_active : Bool) :
    Option (Game × Rng) :=
  let g := g.apply_input desired_dir input_active
  let g := g.move_player
  let g := g.consume_tile
  let (g, rng) := g.try_collect_bonus rng
  if g.pellets_left = 0 then next_level g rng
  else
    let (g, rng) := g.update_bonus rng
    let (g, rng) := g.update_ghosts rng
    let g := g.tick_power_timer
    some (g.handle_collisions rng)

/-! ## Infrastructure: reading and writing row-major tables -/

theorem listGetD_set_self {α : Type _} (l : List α) (i : Nat) (v d : α)
    (h : i < l.length) : (l.set i v).getD i d = v := by
  simp [List.getD_eq_getElem?_getD, List.getElem?_set_self', List.getElem?_eq_getElem h]

theorem listGetD_set_ne {α : Type _} (l : List α) {i j : Nat} (v : α) (d : α)
    (h : i ≠ j) : (l.set i v).getD j d = l.getD j d := by
  simp [List.getD_eq_getElem?_getD, List.getElem?_set_ne h]

/-- Generic read of a row-major table with a default. -/
def at2 {α : Type _} (g : List (List α)) (d : α) (p : Pos) : α :=
  (g.getD p.y []).getD p.x d

/-- Generic write of a row-major table. -/
def set2 {α : Type _} (g : List (List α)) (p : Pos) (v : α) : List (List α) :=
  g.set p.y ((g.getD p.y []).set p.x v)

theorem tileAt_eq_at2 (g : Grid) (p : Pos) : tileAt g p = at2 g Tile.Wall p := rfl

theorem setTile_eq_set2 (g : Grid) (p : Pos) (t : Tile) :
    setTile g p t = set2 g p t := rfl

theorem distAt_eq_at2 (g : DistGrid) (p : Pos) : distAt g p = at2 g (-1) p := rfl

theorem setDist_eq_set2 (g : DistGrid) (p : Pos) (v : Int) :
    setDist g p v = set2 g p v := rfl

theorem seenAt_eq_at2 (g : BoolGrid) (p : Pos) : seenAt g p = at2 g false p := rfl

theorem setSeen_eq_set2 (g : BoolGrid) (p : Pos) (v : Bool) :
    setSeen g p v = set2 g p v := rfl

/-- Shape of a table: `h` rows, each of width `w`. -/
def shape2 {α : Type _} (g : List (List α)) (w h : Nat) : Prop :=
  g.length = h ∧ ∀ y, y < h → (g.getD y []).length = w

theorem shape2_replicate {α : Type _} (w h : Nat) (a : α) :
    shape2 (List.replicate h (List.replicate w a)) w h := by
  constructor
  · simp
  · intro y hy
    rw [List.getD_eq_getElem?_getD, List.getElem?_replicate_of_lt hy]
    simp

theorem shape2_set2 {α : Type _} {g : List (List α)} {w h : Nat} (p : Pos) (v : α)
    (hs : shape2 g w h) : shape2 (set2 g p v) w h := by
  obtain ⟨hl, hr⟩ := hs
  constructor
  · simpa [set2] using hl
  · intro y hy
    by_cases hyy : p.y = y
    · subst hyy
      by_cases hlt : p.y < g.length
      · rw [set2, listGetD_set_self _ _ _ _ hlt]
        simpa using hr p.y (by omega)
      · rw [set2, List.set_eq_of_length_le (by omega)]
        exact hr p.y hy
    · rw [set2, listGetD_set_ne _ _ _ hyy]
      exact hr y hy

theorem at2_set2_self {α : Type _} {g : List (List α)} {w h : Nat} (d : α) (p : Pos)
    (v : α) (hs : shape2 g w h) (hx : p.x < w) (hy : p.y < h) :
    at2 (set2 g p v) d p = v := by
  obtain ⟨hl, hr⟩ := hs
  rw [at2, set2, listGetD_set_self _ _ _ _ (by omega)]
  exact listGetD_set_self _ _ _ _ (by rw [hr p.y hy]; omega)

theorem at2_set2_ne {α : Type _} (g : List (List α)) (d : α) {p q : Pos} (v : α)
    (hne : q ≠ p) : at2 (set2 g p v) d q = at2 g d q := by
  by_cases hyy : p.y = q.y
  · have hxx : p.x ≠ q.x := fun hc => hne (by cases p; cases q; simp_all)
    by_cases hlt : p.y < g.length
    · rw [at2, set2, hyy, listGetD_set_self _ _ _ _ (by omega), ← hyy,
        listGetD_set_ne _ _ _ hxx, at2, hyy]
    · rw [at2, set2, List.set_eq_of_length_le (by omega), at2]
  · rw [at2, set2, listGetD_set_ne _ _ _ hyy, at2]

/-- Reads at either out-of-shape coordinate give the default. -/
theorem at2_out {α : Type _} {g : List (List α)} {w h : Nat} (d : α) (p : Pos)
    (hs : shape2 g w h) (hout : ¬(p.x < w ∧ p.y < h)) : at2 g d p = d := by
  obtain ⟨hl, hr⟩ := hs
  by_cases hy : p.y < h
  · have hx : ¬ p.x < w := fun hc => hout ⟨hc, hy⟩
    rw [at2, List.getD_eq_getElem?_getD, List.getElem?_eq_none (by rw [hr p.y hy]; omega)]
    rfl
  · rw [at2, List.getD_eq_getElem?_getD g p.y [], List.getElem?_eq_none (by omega)]
    simp

/-! ## First-hit scan lemmas -/

theorem hitIdx_isSome_of_mem {gs : List Pos} {pl : Pos} (h : pl ∈ gs) :
    (hitIdx gs pl).isSome := by
  induction gs with
  | nil => cases h
  | cons g gs ih =>
    rw [hitIdx]
    by_cases hg : g = pl
    · simp [hg]
    · have : pl ∈ gs := by
        cases List.mem_cons.mp h with
        | inl hc => exact absurd hc.symm hg
        | inr hc => exact hc
      simp only [if_neg hg]
      rcases Option.isSome_iff_exists.mp (ih this) with ⟨k, hk⟩
      simp [hk]

theorem hitIdx_spec {gs : List Pos} {pl : Pos} {i : Nat}
    (h : hitIdx gs pl = some i) :
    i < gs.length ∧ gs.getD i ⟨0, 0⟩ = pl ∧
      ∀ j, j < i → gs.getD j ⟨0, 0⟩ ≠ pl := by
  induction gs generalizing i with
  | nil => cases h
  | cons g gs ih =>
    rw [hitIdx] at h
    by_cases hg : g = pl
    · rw [if_pos hg] at h
      cases h
      exact ⟨Nat.succ_pos _, hg, fun j hj => absurd hj (Nat.not_lt_zero _)⟩
    · rw [if_neg hg] at h
      rcases Option.map_eq_some'.mp h with ⟨i', hi', rfl⟩
      obtain ⟨hlen, hget, hbefore⟩ := ih hi'
      refine ⟨by simpa using Nat.succ_lt_succ hlen, by simpa using hget, ?_⟩
      intro j hj
      cases j with
      | zero => simpa using hg
      | succ j' => simpa using hbefore j' (by omega)

theorem staggered_length (n : Nat) : (staggered n).length = n := by
  simp [staggered]

theorem staggered_getD {n j : Nat} (h : j < n) :
    (staggered n).getD j 0 = j * GHOST_RELEASE_INTERVAL := by
  simp [staggered, List.getD_eq_getElem?_getD, List.getElem?_range h]

/-! ## Concrete sample states used by witnesses and counterexamples -/

/-- A fixed all-zero random stream. -/
def rng0 : Rng := ⟨fun _ => 0, 0⟩

def wallRow5 : List Tile := List.replicate 5 Tile.Wall

def openRow5 : List Tile :=
  [Tile.Wall, Tile.Empty, Tile.Empty, Tile.Empty, Tile.Wall]

/-- A 5×5 room: walls on the ring, open interior. -/
def grid5 : Grid := [wallRow5, openRow5, openRow5, openRow5, wallRow5]

def sampleGame : Game where
  width := 5
  height := 5
  grid := grid5
  player := ⟨1, 1⟩
  player_spawn := ⟨1, 1⟩
  ghosts := [⟨3, 3⟩, ⟨3, 2⟩, ⟨2, 3⟩, ⟨3, 1⟩]
  ghost_spawns := [⟨2, 2⟩, ⟨2, 2⟩, ⟨2, 2⟩, ⟨2, 2⟩]
  score := 0
  lives := 3
  level := 1
  pellets_left := 3
  power_timer := 0
  dir := some Dir.Down
  ghost_tick := 0
  ghost_release := [0, 90, 180, 270]
  pen_bounds := ⟨2, 2, 3, 3⟩
  bonus_pos := none
  bonus_timer := 0
  bonus_spawn_in := 600

/-! ## C10 -/

/-- C10: with input held (`input_active = true`) and a requested direction
that is not immediately legal from the player's tile, `apply_input` leaves
the whole game state — in particular the previously committed direction —
unchanged. -/
theorem C10_apply_input_rejected (g : Game) (d d0 : Dir)
    (hdir : g.dir = some d0)
    (h : can_move_player g.grid g.width g.height g.player d = false) :
    g.apply_input (some d) true = g ∧ (g.apply_input (some d) true).dir = some d0 := by
  have hg : g.apply_input (some d) true = g := by
    simp [Game.apply_input, h]
  exact ⟨hg, by rw [hg, hdir]⟩

/-- C10 witness: in the sample room, `Left` from the corner is blocked and
the committed `Down` direction survives. -/
theorem C10_witness :
    sampleGame.apply_input (some Dir.Left) true = sampleGame ∧
      (sampleGame.apply_input (some Dir.Left) true).dir = some Dir.Down :=
  C10_apply_input_rejected sampleGame Dir.Left Dir.Down rfl (by decide)

/-! ## C6 -/

/-- C6: consuming a `Power` tile clears it to `Empty`, adds exactly 50 to
the score, decrements the pellet count by one, and overwrites the power
countdown with exactly `POWER_TICKS`, whatever its prior value. -/
theorem C6_consume_power (g : Game) (h : tileAt g.grid g.player = Tile.Power)
    (hp : 0 < g.pellets_left) :
    g.consume_tile.grid = setTile g.grid g.player Tile.Empty ∧
    g.consume_tile.score = g.score + 50 ∧
    g.consume_tile.pellets_left + 1 = g.pellets_left ∧
    g.consume_tile.power_timer = POWER_TICKS := by
  have hc : g.consume_tile = { g with
      grid := setTile g.grid g.player Tile.Empty,
      score := g.score + 50, pellets_left := g.pellets_left - 1,
      power_timer := POWER_TICKS } := by
    simp only [Game.consume_tile, h]
  rw [hc]
  exact ⟨rfl, rfl, show g.pellets_left - 1 + 1 = g.pellets_left by omega, rfl⟩

/-- C6 witness: a sample state standing on a `Power` tile with an inflated
countdown gets exactly `POWER_TICKS`. -/
theorem C6_witness :
    (let g := { sampleGame with
                 grid := setTile grid5 ⟨1, 1⟩ Tile.Power, power_timer := 200 };
     g.consume_tile.grid = setTile g.grid g.player Tile.Empty ∧
     g.consume_tile.score = g.score + 50 ∧
     g.consume_tile.pellets_left + 1 = g.pellets_left ∧
     g.consume_tile.power_timer = POWER_TICKS) :=
  C6_consume_power _ (by decide) (by decide)

/-! ## C4 -/

/-- C4: a collision with the power countdown at 0 saturating-decrements the
lives by one (never below zero), resets the player and all four ghosts to
their spawns, and resets every release countdown to the staggered schedule
`i * GHOST_RELEASE_INTERVAL`. -/
theorem C4_death_collision (g : Game) (rng : Rng)
    (hpow : g.power_timer = 0) (hmem : g.player ∈ g.ghosts)
    (h4 : g.ghosts.length = 4) (h4s : g.ghost_spawns.length = 4) :
    let g' := (g.handle_collisions rng).1
    g'.lives = g.lives - 1 ∧ (0 < g.lives → g'.lives + 1 = g.lives) ∧
    (g.lives = 0 → g'.lives = 0) ∧
    g'.player = g.player_spawn ∧ g'.ghosts = g.ghost_spawns ∧
    g'.ghost_release.length = 4 ∧
    (∀ j, j < 4 → g'.ghost_release.getD j 0 = j * GHOST_RELEASE_INTERVAL) := by
  intro g'
  rcases Option.isSome_iff_exists.mp (hitIdx_isSome_of_mem hmem) with ⟨i, hi⟩
  have hg' : g' = { g with
      lives := g.lives - 1, player := g.player_spawn,
      ghosts := g.ghost_spawns,
      ghost_release := staggered g.ghost_spawns.length,
      power_timer := 0, bonus_pos := none, bonus_timer := 0,
      bonus_spawn_in := (rng.genRangeIncl BONUS_MIN_TICKS BONUS_MAX_TICKS).1 } := by
    simp only [g', Game.handle_collisions, hi, hpow]
    rfl
  rw [hg']
  refine ⟨rfl, fun h => by simp; omega, fun h => by simp [h], rfl, rfl, ?_, ?_⟩
  · simp [staggered_length, h4s]
  · intro j hj
    simpa using @staggered_getD g.ghost_spawns.length j (by omega)

/-- C4 witness: a concrete death collision in the sample room. -/
theorem C4_witness :
    (let g := { sampleGame with ghosts := [⟨3, 3⟩, ⟨1, 1⟩, ⟨2, 3⟩, ⟨3, 1⟩] };
     let g' := (g.handle_collisions rng0).1
     g'.lives = g.lives - 1 ∧ (0 < g.lives → g'.lives + 1 = g.lives) ∧
     (g.lives = 0 → g'.lives = 0) ∧
     g'.player = g.player_spawn ∧ g'.ghosts = g.ghost_spawns ∧
     g'.ghost_release.length = 4 ∧
     (∀ j, j < 4 → g'.ghost_release.getD j 0 = j * GHOST_RELEASE_INTERVAL)) :=
  C4_death_collision _ rng0 rfl (by decide) rfl rfl

/-! ## C5 -/

/-- C5: a collision with the power countdown positive adds exactly the
fixed 200 bonus and sends exactly the first colliding ghost (in index
order) to its spawn, leaving lives, player, the other ghosts, the release
countdowns and the bonus state untouched. -/
theorem C5_powered_collision (g : Game) (rng : Rng) (i : Nat)
    (hpow : 0 < g.power_timer) (hhit : hitIdx g.ghosts g.player = some i) :
    let g' := (g.handle_collisions rng).1
    g'.score = g.score + 200 ∧
    g.ghosts.getD i ⟨0, 0⟩ = g.player ∧
    (∀ j, j < i → g.ghosts.getD j ⟨0, 0⟩ ≠ g.player) ∧
    g'.ghosts = g.ghosts.set i (g.ghost_spawns.getD i ⟨0, 0⟩) ∧
    (∀ j, j ≠ i → g'.ghosts.getD j ⟨0, 0⟩ = g.ghosts.getD j ⟨0, 0⟩) ∧
    g'.lives = g.lives ∧ g'.player = g.player ∧
    g'.ghost_release = g.ghost_release ∧
    g'.power_timer = g.power_timer ∧ g'.bonus_pos = g.bonus_pos ∧
    g'.bonus_timer = g.bonus_timer ∧ g'.bonus_spawn_in = g.bonus_spawn_in := by
  intro g'
  obtain ⟨hlen, hget, hbefore⟩ := hitIdx_spec hhit
  have hg' : g' = { g with
      score := g.score + 200,
      ghosts := g.ghosts.set i (g.ghost_spawns.getD i ⟨0, 0⟩) } := by
    simp only [g', Game.handle_collisions, hhit]
    rw [if_pos hpow]
  rw [hg']
  exact ⟨rfl, hget, hbefore, rfl,
    fun j hj => listGetD_set_ne _ _ _ (fun hc => hj hc.symm),
    rfl, rfl, rfl, rfl, rfl, rfl, rfl⟩

/-- C5 witness: a concrete powered collision relocating exactly the second
ghost, the first one scanning in index order that shares the tile. -/
theorem C5_witness :
    (let g := { sampleGame with
                 power_timer := 7,
                 ghosts := [⟨3, 3⟩, ⟨1, 1⟩, ⟨1, 1⟩, ⟨3, 1⟩] };
     let g' := (g.handle_collisions rng0).1
     g'.score = g.score + 200 ∧
     g.ghosts.getD 1 ⟨0, 0⟩ = g.player ∧
     (∀ j, j < 1 → g.ghosts.getD j ⟨0, 0⟩ ≠ g.player) ∧
     g'.ghosts = g.ghosts.set 1 (g.ghost_spawns.getD 1 ⟨0, 0⟩) ∧
     (∀ j, j ≠ 1 → g'.ghosts.getD j ⟨0, 0⟩ = g.ghosts.getD j ⟨0, 0⟩) ∧
     g'.lives = g.lives ∧ g'.player = g.player ∧
     g'.ghost_release = g.ghost_release ∧
     g'.power_timer = g.power_timer ∧ g'.bonus_pos = g.bonus_pos ∧
     g'.bonus_timer = g.bonus_timer ∧ g'.bonus_spawn_in = g.bonus_spawn_in) :=
  C5_powered_collision _ rng0 1 (by decide) (by decide)

/-! ## BFS correctness: adjacency, paths, shortest distances -/

/-- One ghost step of adjacency: `v` is reached from `u` by a legal move. -/
def ghostAdj (grid : Grid) (w h : Nat) (gate : Bool) (u v : Pos) : Prop :=
  ∃ dir, can_move_ghost grid w h u dir gate = true ∧ v = step u dir

/-- `hasPathN grid w h gate s n t`: there is a walk of exactly `n` legal
ghost steps from `s` to `t`. -/
def hasPathN (grid : Grid) (w h : Nat) (gate : Bool) (s : Pos) : Nat → Pos → Prop
  | 0, t => t = s
  | n + 1, t => ∃ u, hasPathN grid w h gate s n u ∧ ghostAdj grid w h gate u t

/-- Reachability under ghost passability. -/
def ghostReach (grid : Grid) (w h : Nat) (gate : Bool) (s t : Pos) : Prop :=
  ∃ n, hasPathN grid w h gate s n t

theorem hasPathN_zero {grid w h gate s t} :
    hasPathN grid w h gate s 0 t ↔ t = s := Iff.rfl

theorem hasPathN_succ {grid w h gate s n t} :
    hasPathN grid w h gate s (n + 1) t ↔
      ∃ u, hasPathN grid w h gate s n u ∧ ghostAdj grid w h gate u t := Iff.rfl

theorem step_def (u : Pos) (dir : Dir) :
    step u dir =
      ⟨(Int.ofNat u.x + dir.delta.1).toNat, (Int.ofNat u.y + dir.delta.2).toNat⟩ :=
  rfl

/-- Full characterization of a legal ghost move. -/
theorem can_move_ghost_iff (grid : Grid) (w h : Nat) (gate : Bool) (u : Pos)
    (dir : Dir) :
    can_move_ghost grid w h u dir gate = true ↔
      0 ≤ Int.ofNat u.x + dir.delta.1 ∧ 0 ≤ Int.ofNat u.y + dir.delta.2 ∧
      (step u dir).x < w ∧ (step u dir).y < h ∧
      ghostPassable (tileAt grid (step u dir)) gate = true := by
  rw [can_move_ghost, step_def]
  split_ifs with h1
  · simp only [false_iff, not_and]
    intro ha hb
    rw [Bool.or_eq_true] at h1
    rcases h1 with h1 | h1 <;> simp only [decide_eq_true_eq] at h1 <;> omega
  · dsimp only
    split_ifs with h2
    · simp only [false_iff, not_and]
      intro ha hb hc hd
      rw [Bool.or_eq_true] at h2
      rcases h2 with h2 | h2 <;> simp only [decide_eq_true_eq] at h2 <;> omega
    · rw [Bool.or_eq_true, not_or] at h1 h2
      simp only [decide_eq_true_eq, not_lt, ge_iff_le, not_le] at h1 h2
      exact ⟨fun hp => ⟨h1.1, h1.2, h2.1, h2.2, hp⟩, fun ⟨_, _, _, _, hp⟩ => hp⟩

/-- Unfolding of a legal move: bounds and passability of the target, and
non-negativity of the raw coordinates. -/
theorem can_move_ghost_spec {grid : Grid} {w h : Nat} {u : Pos} {dir : Dir}
    {gate : Bool} (hc : can_move_ghost grid w h u dir gate = true) :
    (step u dir).x < w ∧ (step u dir).y < h ∧
      ghostPassable (tileAt grid (step u dir)) gate = true ∧
      0 ≤ Int.ofNat u.x + dir.delta.1 ∧ 0 ≤ Int.ofNat u.y + dir.delta.2 := by
  obtain ⟨h1, h2, h3, h4, h5⟩ := (can_move_ghost_iff grid w h gate u dir).mp hc
  exact ⟨h3, h4, h5, h1, h2⟩

/-- Targets of adjacency are in bounds and passable. -/
theorem ghostAdj_target {grid : Grid} {w h : Nat} {gate : Bool} {u v : Pos}
    (ha : ghostAdj grid w h gate u v) :
    v.x < w ∧ v.y < h ∧ ghostPassable (tileAt grid v) gate = true := by
  obtain ⟨dir, hc, rfl⟩ := ha
  obtain ⟨h1, h2, h3, _, _⟩ := can_move_ghost_spec hc
  exact ⟨h1, h2, h3⟩

def Dir.opp : Dir → Dir
  | .Up => .Down
  | .Down => .Up
  | .Left => .Right
  | .Right => .Left

theorem step_opp {u : Pos} {dir : Dir}
    (hx : 0 ≤ Int.ofNat u.x + dir.delta.1)
    (hy : 0 ≤ Int.ofNat u.y + dir.delta.2) :
    step (step u dir) dir.opp = u := by
  cases u with
  | mk ux uy =>
    cases dir <;>
    · simp only [Dir.opp, step, Dir.delta, Int.ofNat_eq_natCast] at hx hy ⊢
      simp only [Pos.mk.injEq]
      omega

theorem step_opp_coords {u : Pos} {dir : Dir}
    (hx : 0 ≤ Int.ofNat u.x + dir.delta.1)
    (hy : 0 ≤ Int.ofNat u.y + dir.delta.2) :
    Int.ofNat (step u dir).x + dir.opp.delta.1 = Int.ofNat u.x ∧
    Int.ofNat (step u dir).y + dir.opp.delta.2 = Int.ofNat u.y := by
  cases u with
  | mk ux uy =>
    cases dir <;>
    · simp only [Dir.opp, step, Dir.delta, Int.ofNat_eq_natCast] at hx hy ⊢
      constructor <;> omega

/-- Adjacency can be reversed when the source tile is itself in bounds and
passable. -/
theorem ghostAdj_symm {grid : Grid} {w h : Nat} {gate : Bool} {u v : Pos}
    (ha : ghostAdj grid w h gate u v) (hx : u.x < w) (hy : u.y < h)
    (hp : ghostPassable (tileAt grid u) gate = true) :
    ghostAdj grid w h gate v u := by
  obtain ⟨dir, hc, rfl⟩ := ha
  obtain ⟨_, _, _, hx0, hy0⟩ := can_move_ghost_spec hc
  have hstep : step (step u dir) dir.opp = u := step_opp hx0 hy0
  obtain ⟨hcx, hcy⟩ := step_opp_coords hx0 hy0
  refine ⟨dir.opp, ?_, hstep.symm⟩
  rw [can_move_ghost_iff, hcx, hcy, hstep]
  refine ⟨by simp, by simp, hx, hy, hp⟩

/-! ## Counting unvisited cells (termination measure of the searches) -/

/-- All coordinates of a `w × h` table, row major. -/
def allCoords (w h : Nat) : List Pos :=
  (List.range h).flatMap (fun y => (List.range w).map (fun x => ⟨x, y⟩))

theorem mem_allCoords {w h : Nat} {p : Pos} :
    p ∈ allCoords w h ↔ p.x < w ∧ p.y < h := by
  cases p with
  | mk px py =>
    simp only [allCoords, List.mem_flatMap, List.mem_map, List.mem_range]
    constructor
    · rintro ⟨y, hy, x, hx, hxy⟩
      cases hxy
      exact ⟨hx, hy⟩
    · rintro ⟨hx, hy⟩
      exact ⟨py, hy, px, hx, rfl⟩

theorem nodup_allCoords (w h : Nat) : (allCoords w h).Nodup := by
  rw [allCoords, List.nodup_flatMap]
  constructor
  · intro y _
    refine (List.nodup_range w).map ?_
    intro a b hab
    exact congrArg Pos.x hab
  · refine List.Nodup.pairwise_of_forall_ne (List.nodup_range h) ?_
    intro a _ b _ hab
    intro p hpa hpb
    simp only [Function.onFun, List.mem_map, List.mem_range] at hpa hpb
    obtain ⟨xa, _, rfl⟩ := hpa
    obtain ⟨xb, _, heq⟩ := hpb
    exact hab (congrArg Pos.y heq).symm

/-- Count the coordinates satisfying a predicate. -/
def countCoords (w h : Nat) (pred : Pos → Bool) : Nat :=
  (allCoords w h).countP pred

/-- Flipping a single listed element from `true` to `false` drops the count
by exactly one. -/
theorem countP_flip {l : List α} (hnd : l.Nodup) {a : α} (ha : a ∈ l)
    {f g : α → Bool} (hfa : f a = false) (hga : g a = true)
    (hothers : ∀ x ∈ l, x ≠ a → f x = g x) :
    l.countP f + 1 = l.countP g := by
  induction l with
  | nil => cases ha
  | cons b l ih =>
    rcases List.mem_cons.mp ha with rfl | hal
    · have hsame : l.countP f = l.countP g := by
        apply List.countP_congr
        intro x hx
        have hxa : x ≠ a := fun hc => (List.nodup_cons.mp hnd).1 (hc ▸ hx)
        rw [hothers x (List.mem_cons_of_mem _ hx) hxa]
      rw [List.countP_cons, List.countP_cons, hfa, hga, hsame]
      simp
    · have hba : b ≠ a := fun hc => (List.nodup_cons.mp hnd).1 (hc ▸ hal)
      have hfb : f b = g b := hothers b (List.mem_cons_self _ _) hba
      have hrec := ih (List.nodup_cons.mp hnd).2 hal
        (fun x hx hxa => hothers x (List.mem_cons_of_mem _ hx) hxa)
      rw [List.countP_cons, List.countP_cons, hfb]
      split_ifs <;> omega

/-! ## BFS loop invariant -/

theorem distAt_setDist_self {dist : DistGrid} {w h : Nat} (hs : shape2 dist w h)
    {p : Pos} (v : Int) (hx : p.x < w) (hy : p.y < h) :
    distAt (setDist dist p v) p = v := by
  rw [distAt_eq_at2, setDist_eq_set2]
  exact at2_set2_self _ _ _ hs hx hy

theorem distAt_setDist_ne (dist : DistGrid) {p q : Pos} (v : Int) (h : q ≠ p) :
    distAt (setDist dist p v) q = distAt dist q := by
  rw [distAt_eq_at2, setDist_eq_set2, at2_set2_ne _ _ _ h, distAt_eq_at2]

theorem distAt_out {dist : DistGrid} {w h : Nat} (hs : shape2 dist w h) {p : Pos}
    (hout : ¬(p.x < w ∧ p.y < h)) : distAt dist p = -1 := by
  rw [distAt_eq_at2]
  exact at2_out _ _ hs hout

theorem at2_replicate_same {α : Type _} (w h : Nat) (c : α) (p : Pos) :
    at2 (List.replicate h (List.replicate w c)) c p = c := by
  rw [at2]
  rcases Nat.lt_or_ge p.y h with hy | hy
  · rw [List.getD_eq_getElem?_getD (List.replicate h (List.replicate w c)) p.y [],
      List.getElem?_replicate, if_pos hy]
    rcases Nat.lt_or_ge p.x w with hx | hx
    · simp [List.getD_eq_getElem?_getD, List.getElem?_replicate, hx]
    · simp [List.getD_eq_getElem?_getD,
        @List.getElem?_eq_none _ (List.replicate w c) p.x (by simpa using hx)]
  · rw [List.getD_eq_getElem?_getD (List.replicate h (List.replicate w c)) p.y [],
      List.getElem?_eq_none (by simpa using hy)]
    simp

theorem mem_dirList (d : Dir) : d ∈ dirList := by cases d <;> simp [dirList]

/-- The number of still-unvisited cells. -/
def bfsUnvis (w h : Nat) (dist : DistGrid) : Nat :=
  countCoords w h (fun p => decide (distAt dist p = -1))

theorem bfsUnvis_le (w h : Nat) (dist : DistGrid) : bfsUnvis w h dist ≤ w * h := by
  calc bfsUnvis w h dist ≤ (allCoords w h).length := List.countP_le_length _
    _ = w * h := by
        simp [allCoords, List.length_flatMap, Function.comp_def, Nat.mul_comm]

/-- Marking an unvisited in-bounds cell visited drops `bfsUnvis` by one. -/
theorem bfsUnvis_set {w h : Nat} {dist : DistGrid} (hs : shape2 dist w h)
    {p : Pos} (hx : p.x < w) (hy : p.y < h) (hun : distAt dist p = -1)
    {v : Int} (hv : v ≠ -1) :
    bfsUnvis w h (setDist dist p v) + 1 = bfsUnvis w h dist := by
  apply countP_flip (nodup_allCoords w h) (mem_allCoords.mpr ⟨hx, hy⟩)
  · simp [distAt_setDist_self hs v hx hy, hv]
  · simp [hun]
  · intro q _ hq
    simp [distAt_setDist_ne dist v hq]

/-- Correctness facts carried for every visited cell: its table value is the
length of a shortest path from the source. -/
def bfsVisitedSpec (grid : Grid) (w h : Nat) (gate : Bool) (start : Pos)
    (dist : DistGrid) : Prop :=
  ∀ p : Pos, distAt dist p ≠ -1 →
    ∃ n : Nat, distAt dist p = (n : Int) ∧ hasPathN grid w h gate start n p ∧
      ∀ m, m < n → ¬ hasPathN grid w h gate start m p

/-- The queue invariant of `bfsLoop`. -/
def bfsInv (grid : Grid) (w h : Nat) (gate : Bool) (start : Pos)
    (dist : DistGrid) (q : List Pos) : Prop :=
  shape2 dist w h ∧
  distAt dist start ≠ -1 ∧
  bfsVisitedSpec grid w h gate start dist ∧
  (∀ p ∈ q, distAt dist p ≠ -1) ∧
  List.Pairwise (fun a b => distAt dist a ≤ distAt dist b) q ∧
  (∀ a ∈ q, ∀ b ∈ q, distAt dist b ≤ distAt dist a + 1) ∧
  (∀ u v : Pos, distAt dist u ≠ -1 → ghostAdj grid w h gate u v →
    distAt dist v = -1 → u ∈ q)

/-- While `p` heads the queue, every tile with a path of length at most
`p`'s table value is already visited. -/
theorem bfs_star {grid : Grid} {w h : Nat} {gate : Bool} {start : Pos}
    {dist : DistGrid} {p : Pos} {rest : List Pos}
    (hInv : bfsInv grid w h gate start dist (p :: rest)) :
    ∀ m : Nat, (m : Int) ≤ distAt dist p → ∀ x,
      hasPathN grid w h gate start m x → distAt dist x ≠ -1 := by
  obtain ⟨hsh, hstart, hB, hC, hD1, hD2, hE⟩ := hInv
  intro m
  induction m using Nat.strong_induction_on with
  | _ m ih =>
    intro hm x hpath
    match m, hpath with
    | 0, hpath =>
      rw [hasPathN_zero] at hpath
      rw [hpath]
      exact hstart
    | m' + 1, hpath =>
      rw [hasPathN_succ] at hpath
      obtain ⟨u, hu, hadj⟩ := hpath
      have hum : (m' : Int) ≤ distAt dist p := by
        push_cast at hm ⊢
        omega
      have huv : distAt dist u ≠ -1 := ih m' (by omega) hum u hu
      by_contra hx
      have humem : u ∈ p :: rest := hE u x huv hadj hx
      have hple : distAt dist p ≤ distAt dist u := by
        rcases List.mem_cons.mp humem with rfl | hmem
        · exact le_refl _
        · exact (List.pairwise_cons.mp hD1).1 u hmem
      obtain ⟨nu, hnu, hupath, humin⟩ := hB u huv
      have hnum : nu ≤ m' := by
        by_contra hgt
        exact humin m' (by omega) hu
      rw [hnu] at hple
      push_cast at hm hple
      omega

/-- The invariant while the directions out of the dequeued head `p` are
being processed: `rem` are the still-unprocessed directions and `d` the
head's table value, read once before the direction loop as in the source. -/
def bfsMidInv (grid : Grid) (w h : Nat) (gate : Bool) (start : Pos) (p : Pos)
    (d : Int) (rem : List Dir) (dist : DistGrid) (q : List Pos) : Prop :=
  shape2 dist w h ∧
  distAt dist start ≠ -1 ∧
  bfsVisitedSpec grid w h gate start dist ∧
  (∀ x ∈ q, distAt dist x ≠ -1) ∧
  List.Pairwise (fun a b => distAt dist a ≤ distAt dist b) q ∧
  (∀ a ∈ q, d ≤ distAt dist a ∧ distAt dist a ≤ d + 1) ∧
  (∀ u v : Pos, distAt dist u ≠ -1 → ghostAdj grid w h gate u v →
    distAt dist v = -1 →
    u ∈ q ∨ (u = p ∧ ∃ dir ∈ rem, can_move_ghost grid w h p dir gate = true ∧
      v = step p dir)) ∧
  (∃ np : Nat, d = (np : Int) ∧ hasPathN grid w h gate start np p ∧
    ∀ m, m < np → ¬ hasPathN grid w h gate start m p) ∧
  (∀ m : Nat, (m : Int) ≤ d → ∀ x, hasPathN grid w h gate start m x →
    distAt dist x ≠ -1)

/-- One direction probe of the head preserves the mid invariant and does
not increase the measure `2·unvisited + queue length`. -/
theorem bfsStepDir_inv {grid : Grid} {w h : Nat} {gate : Bool} {start : Pos}
    {p : Pos} {d : Int} {dir : Dir} {rem : List Dir} {dist : DistGrid}
    {q : List Pos}
    (hmid : bfsMidInv grid w h gate start p d (dir :: rem) dist q) :
    bfsMidInv grid w h gate start p d rem
      (bfsStepDir grid w h gate p d (dist, q) dir).1
      (bfsStepDir grid w h gate p d (dist, q) dir).2 ∧
    2 * bfsUnvis w h (bfsStepDir grid w h gate p d (dist, q) dir).1 +
      (bfsStepDir grid w h gate p d (dist, q) dir).2.length ≤
    2 * bfsUnvis w h dist + q.length := by
  obtain ⟨hsh, hstart, hB, hC, hD1, hW, hE, hdspec, hstar⟩ := hmid
  obtain ⟨np, hnp, hppath, hpmin⟩ := hdspec
  rw [bfsStepDir]
  by_cases hcm : can_move_ghost grid w h p dir gate = true
  case neg =>
    rw [if_neg hcm]
    refine ⟨⟨hsh, hstart, hB, hC, hD1, hW, ?_, ⟨np, hnp, hppath, hpmin⟩, hstar⟩,
      le_refl _⟩
    intro u v hu hadj hv
    rcases hE u v hu hadj hv with hmem | ⟨rfl, dir₀, hdir₀, hcm₀, hv₀⟩
    · exact Or.inl hmem
    · rcases List.mem_cons.mp hdir₀ with rfl | hdir₀'
      · exact absurd hcm₀ hcm
      · exact Or.inr ⟨rfl, dir₀, hdir₀', hcm₀, hv₀⟩
  case pos =>
    rw [if_pos hcm]
    by_cases hvis : distAt dist (step p dir) = -1
    case neg =>
      rw [if_neg hvis]
      refine ⟨⟨hsh, hstart, hB, hC, hD1, hW, ?_, ⟨np, hnp, hppath, hpmin⟩, hstar⟩,
        le_refl _⟩
      intro u v hu hadj hv
      rcases hE u v hu hadj hv with hmem | ⟨rfl, dir₀, hdir₀, hcm₀, hv₀⟩
      · exact Or.inl hmem
      · rcases List.mem_cons.mp hdir₀ with rfl | hdir₀'
        · rw [hv₀] at hv
          exact absurd hv hvis
        · exact Or.inr ⟨rfl, dir₀, hdir₀', hcm₀, hv₀⟩
    case pos =>
      rw [if_pos hvis]
      obtain ⟨hnx, hny, hpass, _, _⟩ := can_move_ghost_spec hcm
      have hd1ne : d + 1 ≠ -1 := by rw [hnp]; push_cast; omega
      have hself : distAt (setDist dist (step p dir) (d + 1)) (step p dir) = d + 1 :=
        distAt_setDist_self hsh _ hnx hny
      have hother : ∀ x : Pos, x ≠ step p dir →
          distAt (setDist dist (step p dir) (d + 1)) x = distAt dist x :=
        fun x hx => distAt_setDist_ne dist _ hx
      have hkeep : ∀ x : Pos, distAt dist x ≠ -1 →
          distAt (setDist dist (step p dir) (d + 1)) x = distAt dist x := by
        intro x hx
        exact hother x (fun hc => hx (hc ▸ hvis))
      have hsh' : shape2 (setDist dist (step p dir) (d + 1)) w h := by
        rw [setDist_eq_set2]
        exact shape2_set2 _ _ hsh
      refine ⟨⟨hsh', ?_, ?_, ?_, ?_, ?_, ?_, ⟨np, hnp, hppath, hpmin⟩, ?_⟩, ?_⟩
      · rw [hkeep start hstart]
        exact hstart
      · -- visited spec
        intro x hx
        by_cases hxn : x = step p dir
        · subst hxn
          refine ⟨np + 1, ?_, ?_, ?_⟩
          · rw [hself, hnp]; push_cast; ring
          · exact ⟨p, hppath, dir, hcm, rfl⟩
          · intro m hm hmp
            have : (m : Int) ≤ d := by rw [hnp]; push_cast; omega
            exact absurd (hstar m this _ hmp) (by simp [hvis])
        · rw [hother x hxn] at hx ⊢
          exact hB x hx
      · -- queue members visited
        intro x hxm
        rcases List.mem_append.mp hxm with hxm | hxm
        · rw [hkeep x (hC x hxm)]
          exact hC x hxm
        · rw [List.mem_singleton.mp hxm, hself]
          exact hd1ne
      · -- sortedness
        rw [List.pairwise_append]
        refine ⟨?_, List.pairwise_singleton _ _, ?_⟩
        · refine List.Pairwise.imp_of_mem ?_ hD1
          intro a b ha hb hab
          rw [hkeep a (hC a ha), hkeep b (hC b hb)]
          exact hab
        · intro a ha b hb
          rw [List.mem_singleton.mp hb, hself, hkeep a (hC a ha)]
          exact (hW a ha).2
      · -- window
        intro a ha
        rcases List.mem_append.mp ha with ha | ha
        · rw [hkeep a (hC a ha)]
          exact hW a ha
        · rw [List.mem_singleton.mp ha, hself]
          omega
      · -- frontier coverage
        intro u v hu hadj hv
        have hvne : v ≠ step p dir := by
          intro hc
          rw [hc, hself] at hv
          exact hd1ne hv
        rw [hother v hvne] at hv
        by_cases hun : u = step p dir
        · exact Or.inl (List.mem_append.mpr (Or.inr (by simp [hun])))
        · rw [hother u hun] at hu
          rcases hE u v hu hadj hv with hmem | ⟨rfl, dir₀, hdir₀, hcm₀, hv₀⟩
          · exact Or.inl (List.mem_append.mpr (Or.inl hmem))
          · rcases List.mem_cons.mp hdir₀ with rfl | hdir₀'
            · exact absurd hv₀ hvne
            · exact Or.inr ⟨rfl, dir₀, hdir₀', hcm₀, hv₀⟩
      · -- star is monotone under new visits
        intro m hm x hmp
        by_cases hxn : x = step p dir
        · rw [hxn, hself]
          exact hd1ne
        · rw [hother x hxn]
          exact hstar m hm x hmp
      · -- the measure drops by one on a push
        have hcount := bfsUnvis_set hsh hnx hny hvis hd1ne
        simp only [List.length_append, List.length_singleton]
        omega

/-- Folding all remaining directions preserves the mid invariant and the
measure. -/
theorem bfsFold_inv {grid : Grid} {w h : Nat} {gate : Bool} {start p : Pos}
    {d : Int} :
    ∀ (rem : List Dir) (dist : DistGrid) (q : List Pos),
      bfsMidInv grid w h gate start p d rem dist q →
      bfsMidInv grid w h gate start p d []
        (rem.foldl (bfsStepDir grid w h gate p d) (dist, q)).1
        (rem.foldl (bfsStepDir grid w h gate p d) (dist, q)).2 ∧
      2 * bfsUnvis w h (rem.foldl (bfsStepDir grid w h gate p d) (dist, q)).1 +
        (rem.foldl (bfsStepDir grid w h gate p d) (dist, q)).2.length ≤
      2 * bfsUnvis w h dist + q.length
  | [], dist, q, hmid => ⟨hmid, le_refl _⟩
  | dir :: rem, dist, q, hmid => by
    obtain ⟨hmid', hle'⟩ := bfsStepDir_inv hmid
    obtain ⟨hmid'', hle''⟩ := bfsFold_inv rem
      (bfsStepDir grid w h gate p d (dist, q) dir).1
      (bfsStepDir grid w h gate p d (dist, q) dir).2 hmid'
    rw [List.foldl_cons]
    exact ⟨hmid'', le_trans hle'' hle'⟩

/-- The queue loop preserves the invariant down to an empty queue whenever
the fuel dominates the measure. -/
theorem bfsLoop_inv {grid : Grid} {w h : Nat} {gate : Bool} {start : Pos} :
    ∀ (fuel : Nat) (dist : DistGrid) (q : List Pos),
      bfsInv grid w h gate start dist q →
      2 * bfsUnvis w h dist + q.length ≤ fuel →
      bfsInv grid w h gate start (bfsLoop grid w h gate fuel dist q) []
  | 0, dist, q, hInv, hfuel => by
    have hq : q = [] := List.length_eq_zero.mp (by omega)
    subst hq
    exact hInv
  | fuel + 1, dist, [], hInv, _ => hInv
  | fuel + 1, dist, p :: rest, hInv, hfuel => by
    obtain ⟨hsh, hstart, hB, hC, hD1, hD2, hE⟩ := hInv
    have hstarL := bfs_star ⟨hsh, hstart, hB, hC, hD1, hD2, hE⟩
    have hdspec := hB p (hC p (List.mem_cons_self _ _))
    have hmid0 : bfsMidInv grid w h gate start p (distAt dist p) dirList dist rest := by
      refine ⟨hsh, hstart, hB, ?_, (List.pairwise_cons.mp hD1).2, ?_, ?_, hdspec, hstarL⟩
      · exact fun x hx => hC x (List.mem_cons_of_mem _ hx)
      · intro a ha
        refine ⟨(List.pairwise_cons.mp hD1).1 a ha, ?_⟩
        exact hD2 p (List.mem_cons_self _ _) a (List.mem_cons_of_mem _ ha)
      · intro u v hu hadj hv
        rcases List.mem_cons.mp (hE u v hu hadj hv) with rfl | hmem
        · obtain ⟨dir, hcm, hveq⟩ := hadj
          exact Or.inr ⟨rfl, dir, mem_dirList dir, hcm, hveq⟩
        · exact Or.inl hmem
    obtain ⟨hmidF, hleF⟩ := bfsFold_inv dirList dist rest hmid0
    obtain ⟨hsh', hstart', hB', hC', hD1', hW', hE', _, _⟩ := hmidF
    have hInv' : bfsInv grid w h gate start
        (dirList.foldl (bfsStepDir grid w h gate p (distAt dist p)) (dist, rest)).1
        (dirList.foldl (bfsStepDir grid w h gate p (distAt dist p)) (dist, rest)).2 := by
      refine ⟨hsh', hstart', hB', hC', hD1', ?_, ?_⟩
      · intro a ha b hb
        have h1 := (hW' a ha).1
        have h2 := (hW' b hb).2
        omega
      · intro u v hu hadj hv
        rcases hE' u v hu hadj hv with hmem | ⟨_, dir₀, hdir₀, _, _⟩
        · exact hmem
        · cases hdir₀
    have hstep : bfsLoop grid w h gate (fuel + 1) dist (p :: rest) =
        bfsLoop grid w h gate fuel
          (dirList.foldl (bfsStepDir grid w h gate p (distAt dist p)) (dist, rest)).1
          (dirList.foldl (bfsStepDir grid w h gate p (distAt dist p)) (dist, rest)).2 := by
      rfl
    rw [hstep]
    refine bfsLoop_inv fuel _ _ hInv' ?_
    have hlen : (p :: rest).length = rest.length + 1 := rfl
    omega

/-- After `bfs_distance` the invariant holds with an empty queue. -/
theorem bfs_distance_inv (grid : Grid) (w h : Nat) (gate : Bool) (start : Pos)
    (hx : start.x < w) (hy : start.y < h) :
    bfsInv grid w h gate start (bfs_distance grid w h start gate) [] := by
  rw [bfs_distance]
  have hshR : shape2 (List.replicate h (List.replicate w (-1 : Int))) w h :=
    shape2_replicate w h (-1)
  have hsh0 : shape2 (setDist (List.replicate h (List.replicate w (-1 : Int)))
      ⟨start.x, start.y⟩ 0) w h := by
    rw [setDist_eq_set2]
    exact shape2_set2 _ _ hshR
  have hRall : ∀ p : Pos,
      distAt (List.replicate h (List.replicate w (-1 : Int))) p = -1 := by
    intro p
    rw [distAt_eq_at2]
    exact at2_replicate_same w h (-1) p
  have hs0 : distAt (setDist (List.replicate h (List.replicate w (-1 : Int)))
      start 0) start = 0 :=
    distAt_setDist_self hshR 0 hx hy
  have hoth : ∀ p : Pos, p ≠ start →
      distAt (setDist (List.replicate h (List.replicate w (-1 : Int))) start 0) p
        = -1 := by
    intro p hp
    rw [distAt_setDist_ne _ _ hp]
    exact hRall p
  apply bfsLoop_inv
  · refine ⟨by simpa using hsh0, by simp [hs0], ?_, ?_, ?_, ?_, ?_⟩
    · intro p hp
      by_cases hps : p = start
      · subst hps
        exact ⟨0, by simp [hs0], rfl, fun m hm => absurd hm (Nat.not_lt_zero m)⟩
      · exact absurd (hoth p hps) hp
    · intro p hp
      rw [List.mem_singleton.mp hp, hs0]
      omega
    · exact List.pairwise_singleton _ _
    · intro a ha b hb
      rw [List.mem_singleton.mp ha, List.mem_singleton.mp hb]
      omega
    · intro u v hu _ _
      by_cases hus : u = start
      · simp [hus]
      · exact absurd (hoth u hus) hu
  · have h1 := bfsUnvis_le w h
      (setDist (List.replicate h (List.replicate w (-1 : Int))) start 0)
    have h2 : 2 * w * h = 2 * (w * h) := by ring
    simp only [List.length_singleton]
    omega

/-- With the queue empty, every tile with a path from the source has been
visited. -/
theorem bfsInv_complete {grid : Grid} {w h : Nat} {gate : Bool} {start : Pos}
    {dist : DistGrid} (hInv : bfsInv grid w h gate start dist []) :
    ∀ (n : Nat) (p : Pos), hasPathN grid w h gate start n p →
      distAt dist p ≠ -1 := by
  obtain ⟨_, hstart, _, _, _, _, hE⟩ := hInv
  intro n
  induction n with
  | zero =>
    intro p hp
    rw [hasPathN_zero] at hp
    rw [hp]
    exact hstart
  | succ n ih =>
    intro p hp
    rw [hasPathN_succ] at hp
    obtain ⟨u, hu, hadj⟩ := hp
    by_contra hvp
    exact absurd (hE u p (ih u hu) hadj (by simpa using hvp)) (List.not_mem_nil u)

/-- C2: the path field computed by `bfs_distance` assigns 0 to the source,
assigns to every tile reachable under the chosen gate mode the length of a
shortest ghost walk from the source, assigns the sentinel `-1` to every
unreachable tile, and — being a pure function — is identical across
repeated computation on the same inputs. -/
theorem C2_bfs_distance_correct (grid : Grid) (width height : Nat) (start : Pos)
    (gate_open : Bool) (hx : start.x < width) (hy : start.y < height) :
    distAt (bfs_distance grid width height start gate_open) start = 0 ∧
    (∀ p : Pos,
      (ghostReach grid width height gate_open start p →
        ∃ n : Nat,
          distAt (bfs_distance grid width height start gate_open) p = (n : Int) ∧
          hasPathN grid width height gate_open start n p ∧
          ∀ m, m < n → ¬ hasPathN grid width height gate_open start m p) ∧
      (¬ ghostReach grid width height gate_open start p →
        distAt (bfs_distance grid width height start gate_open) p = -1)) ∧
    bfs_distance grid width height start gate_open =
      bfs_distance grid width height start gate_open := by
  have hInv := bfs_distance_inv grid width height gate_open start hx hy
  have hcomp := bfsInv_complete hInv
  obtain ⟨_, hstart, hB, _, _, _, _⟩ := hInv
  refine ⟨?_, ?_, rfl⟩
  · obtain ⟨n, hn, _, hmin⟩ := hB start hstart
    have hn0 : n = 0 := by
      by_contra hne
      exact hmin 0 (Nat.pos_of_ne_zero hne) rfl
    rw [hn, hn0]
    rfl
  · intro p
    constructor
    · rintro ⟨n, hpath⟩
      exact hB p (hcomp n p hpath)
    · intro hunreach
      by_contra hvp
      obtain ⟨n, _, hpath, _⟩ := hB p hvp
      exact hunreach ⟨n, hpath⟩

/-- C2 witness: the field of the sample room from its center. -/
theorem C2_witness :
    distAt (bfs_distance grid5 5 5 ⟨2, 2⟩ true) ⟨2, 2⟩ = 0 ∧
    (∀ p : Pos,
      (ghostReach grid5 5 5 true ⟨2, 2⟩ p →
        ∃ n : Nat,
          distAt (bfs_distance grid5 5 5 ⟨2, 2⟩ true) p = (n : Int) ∧
          hasPathN grid5 5 5 true ⟨2, 2⟩ n p ∧
          ∀ m, m < n → ¬ hasPathN grid5 5 5 true ⟨2, 2⟩ m p) ∧
      (¬ ghostReach grid5 5 5 true ⟨2, 2⟩ p →
        distAt (bfs_distance grid5 5 5 ⟨2, 2⟩ true) p = -1)) ∧
    bfs_distance grid5 5 5 ⟨2, 2⟩ true = bfs_distance grid5 5 5 ⟨2, 2⟩ true :=
  C2_bfs_distance_correct grid5 5 5 ⟨2, 2⟩ true (by decide) (by decide)

/-! ## C3: the chase step against the path field -/

theorem nodup_subset_length {α : Type _} {l1 l2 : List α} [DecidableEq α]
    (h1 : l1.Nodup) (hsub : ∀ x ∈ l1, x ∈ l2) : l1.length ≤ l2.length := by
  calc l1.length = l1.toFinset.card := (List.toFinset_card_of_nodup h1).symm
    _ ≤ l2.toFinset.card := Finset.card_le_card (by
        intro x hx
        rw [List.mem_toFinset] at hx ⊢
        exact hsub x hx)
    _ ≤ l2.length := l2.toFinset_card_le

theorem allCoords_length (w h : Nat) : (allCoords w h).length = w * h := by
  simp [allCoords, List.length_flatMap, Function.comp_def, Nat.mul_comm]

/-- Every prefix level of a shortest walk is realized by a tile whose own
shortest distance is exactly that level. -/
theorem sp_level_exists {grid : Grid} {w h : Nat} {gate : Bool} {start : Pos}
    {n : Nat} {p : Pos} (hpath : hasPathN grid w h gate start n p)
    (hmin : ∀ m, m < n → ¬ hasPathN grid w h gate start m p) :
    ∀ j, j ≤ n → ∃ u, hasPathN grid w h gate start (n - j) u ∧
      ∀ m, m < n - j → ¬ hasPathN grid w h gate start m u := by
  intro j
  induction j with
  | zero => intro _; exact ⟨p, by simpa using hpath, by simpa using hmin⟩
  | succ j ih =>
    intro hj
    obtain ⟨u, hu, humin⟩ := ih (by omega)
    have hnj : n - j = (n - (j + 1)) + 1 := by omega
    rw [hnj] at hu
    obtain ⟨v, hv, hadj⟩ := hu
    refine ⟨v, hv, ?_⟩
    intro m hm hmv
    exact humin (m + 1) (by omega) ⟨v, hmv, hadj⟩

/-- A shortest distance is below the number of grid cells. -/
theorem shortest_lt_area {grid : Grid} {w h : Nat} {gate : Bool} {start : Pos}
    {n : Nat} {p : Pos} (hsx : start.x < w) (hsy : start.y < h)
    (hpath : hasPathN grid w h gate start n p)
    (hmin : ∀ m, m < n → ¬ hasPathN grid w h gate start m p) :
    n < w * h := by
  classical
  have hex : ∀ k : Nat, k ≤ n → ∃ u, hasPathN grid w h gate start k u ∧
      ∀ m, m < k → ¬ hasPathN grid w h gate start m u := by
    intro k hk
    have := sp_level_exists hpath hmin (n - k) (by omega)
    simpa [show n - (n - k) = k from by omega] using this
  let u : Nat → Pos := fun k =>
    if hk : k ≤ n then Classical.choose (hex k hk) else start
  have hspec : ∀ k, k ≤ n → hasPathN grid w h gate start k (u k) ∧
      ∀ m, m < k → ¬ hasPathN grid w h gate start m (u k) := by
    intro k hk
    simp only [u, dif_pos hk]
    exact Classical.choose_spec (hex k hk)
  have hinj : ∀ a ∈ List.range (n + 1), ∀ b ∈ List.range (n + 1),
      u a = u b → a = b := by
    intro a ha b hb hab
    rw [List.mem_range] at ha hb
    by_contra hne
    rcases Nat.lt_or_ge a b with hlt | hge
    · exact (hspec b (by omega)).2 a hlt (hab ▸ (hspec a (by omega)).1)
    · have hlt : b < a := by omega
      exact (hspec a (by omega)).2 b hlt (hab.symm ▸ (hspec b (by omega)).1)
  have hnd : ((List.range (n + 1)).map u).Nodup :=
    List.Nodup.map_on hinj (List.nodup_range _)
  have hsub : ∀ x ∈ (List.range (n + 1)).map u, x ∈ allCoords w h := by
    intro x hx
    rw [List.mem_map] at hx
    obtain ⟨k, hk, rfl⟩ := hx
    rw [List.mem_range] at hk
    rw [mem_allCoords]
    rcases Nat.eq_zero_or_pos k with rfl | hkpos
    · have h0 := (hspec 0 (by omega)).1
      rw [hasPathN_zero] at h0
      rw [h0]
      exact ⟨hsx, hsy⟩
    · obtain ⟨k', rfl⟩ : ∃ k', k = k' + 1 := ⟨k - 1, by omega⟩
      have hp := (hspec (k' + 1) (by omega)).1
      rw [hasPathN_succ] at hp
      obtain ⟨v, _, hadj⟩ := hp
      obtain ⟨h1, h2, _⟩ := ghostAdj_target hadj
      exact ⟨h1, h2⟩
  have := nodup_subset_length hnd hsub
  rw [List.length_map, List.length_range, allCoords_length] at this
  omega

/-- Invariant of `ghost_next_dir`'s accumulation: either nothing legal with
a finite distance was seen yet, or the accumulated options all achieve the
current best, which is minimal among everything seen. -/
def ghostOptInv (grid : Grid) (w h : Nat) (dist : DistGrid) (pos : Pos)
    (gate : Bool) (st : List Dir × Int) (seen : List Dir) : Prop :=
  (st.1 = [] ∧ st.2 = 2147483647 ∧
    ∀ dir ∈ seen, ¬(can_move_ghost grid w h pos dir gate = true ∧
      0 ≤ distAt dist (step pos dir))) ∨
  (st.1 ≠ [] ∧ 0 ≤ st.2 ∧
    (∀ dir ∈ st.1, can_move_ghost grid w h pos dir gate = true ∧
      distAt dist (step pos dir) = st.2) ∧
    (∀ dir ∈ seen, can_move_ghost grid w h pos dir gate = true →
      0 ≤ distAt dist (step pos dir) → st.2 ≤ distAt dist (step pos dir)))

theorem ghostFold_step {grid : Grid} {w h : Nat} {dist : DistGrid} {pos : Pos}
    {gate : Bool}
    (hbound : ∀ dir, can_move_ghost grid w h pos dir gate = true →
      0 ≤ distAt dist (step pos dir) → distAt dist (step pos dir) < 2147483647)
    (dir : Dir) (st : List Dir × Int) (seen : List Dir)
    (hinv : ghostOptInv grid w h dist pos gate st seen) :
    ghostOptInv grid w h dist pos gate
      (ghostDirFold grid w h dist pos gate st dir) (seen ++ [dir]) := by
  rw [ghostDirFold]
  by_cases hcm : can_move_ghost grid w h pos dir gate = true
  case neg =>
    rw [if_neg hcm]
    rcases hinv with ⟨he, hb, hseen⟩ | ⟨hne, hb, hopts, hseen⟩
    · refine Or.inl ⟨he, hb, ?_⟩
      intro d' hd'
      rcases List.mem_append.mp hd' with hd' | hd'
      · exact hseen d' hd'
      · rw [List.mem_singleton.mp hd']
        exact fun hc => hcm hc.1
    · refine Or.inr ⟨hne, hb, hopts, ?_⟩
      intro d' hd'
      rcases List.mem_append.mp hd' with hd' | hd'
      · exact hseen d' hd'
      · rw [List.mem_singleton.mp hd']
        exact fun hc => absurd hc hcm
  case pos =>
    rw [if_pos hcm]
    by_cases hlt : (distAt dist (step pos dir) ≥ 0 &&
        distAt dist (step pos dir) < st.2) = true
    case pos =>
      rw [if_pos hlt]
      rw [Bool.and_eq_true, decide_eq_true_eq, decide_eq_true_eq] at hlt
      refine Or.inr ⟨by simp, hlt.1, ?_, ?_⟩
      · intro d' hd'
        rw [List.mem_singleton.mp hd']
        exact ⟨hcm, rfl⟩
      · intro d' hd' hcm' hd0
        rcases List.mem_append.mp hd' with hd' | hd'
        · rcases hinv with ⟨_, hb, hseen⟩ | ⟨_, _, _, hseen⟩
          · exact absurd ⟨hcm', hd0⟩ (hseen d' hd')
          · have := hseen d' hd' hcm' hd0
            omega
        · rw [List.mem_singleton.mp hd']
    case neg =>
      rw [if_neg hlt]
      by_cases heq : (distAt dist (step pos dir) ≥ 0 &&
          distAt dist (step pos dir) = st.2) = true
      case pos =>
        rw [if_pos heq]
        rw [Bool.and_eq_true, decide_eq_true_eq, decide_eq_true_eq] at heq
        rcases hinv with ⟨he, hb, hseen⟩ | ⟨hne, hb, hopts, hseen⟩
        · exfalso
          have := hbound dir hcm heq.1
          rw [heq.2, hb] at this
          omega
        · refine Or.inr ⟨by simp, hb, ?_, ?_⟩
          · intro d' hd'
            rcases List.mem_append.mp hd' with hd' | hd'
            · exact hopts d' hd'
            · rw [List.mem_singleton.mp hd']
              exact ⟨hcm, heq.2⟩
          · intro d' hd' hcm' hd0
            rcases List.mem_append.mp hd' with hd' | hd'
            · exact hseen d' hd' hcm' hd0
            · rw [List.mem_singleton.mp hd']
              rw [heq.2]
      case neg =>
        rw [if_neg heq]
        rw [Bool.and_eq_true, not_and_or] at hlt heq
        rcases hinv with ⟨he, hb, hseen⟩ | ⟨hne, hb, hopts, hseen⟩
        · refine Or.inl ⟨he, hb, ?_⟩
          intro d' hd'
          rcases List.mem_append.mp hd' with hd' | hd'
          · exact hseen d' hd'
          · have hdd : d' = dir := List.mem_singleton.mp hd'
            subst hdd
            rintro ⟨_, hd0⟩
            rcases hlt with hlt | hlt
            · exact hlt (by simpa using hd0)
            · rcases heq with heq | heq
              · exact heq (by simpa using hd0)
              · rw [hb] at hlt heq
                simp only [decide_eq_true_eq] at hlt heq
                have := hbound d' hcm hd0
                omega
        · refine Or.inr ⟨hne, hb, hopts, ?_⟩
          intro d' hd' hcm' hd0
          rcases List.mem_append.mp hd' with hd' | hd'
          · exact hseen d' hd' hcm' hd0
          · have hdd : d' = dir := List.mem_singleton.mp hd'
            subst hdd
            rcases hlt with hlt | hlt
            · exact absurd (by simpa using hd0) hlt
            · rcases heq with heq | heq
              · exact absurd (by simpa using hd0) heq
              · simp only [decide_eq_true_eq] at hlt heq
                omega

theorem ghostFold_all {grid : Grid} {w h : Nat} {dist : DistGrid} {pos : Pos}
    {gate : Bool}
    (hbound : ∀ dir, can_move_ghost grid w h pos dir gate = true →
      0 ≤ distAt dist (step pos dir) → distAt dist (step pos dir) < 2147483647) :
    ∀ (rem : List Dir) (st : List Dir × Int) (seen : List Dir),
      ghostOptInv grid w h dist pos gate st seen →
      ghostOptInv grid w h dist pos gate
        (rem.foldl (ghostDirFold grid w h dist pos gate) st) (seen ++ rem)
  | [], st, seen, hinv => by simpa using hinv
  | dir :: rem, st, seen, hinv => by
    have hstep := ghostFold_step hbound dir st seen hinv
    have := ghostFold_all hbound rem
      (ghostDirFold grid w h dist pos gate st dir) (seen ++ [dir]) hstep
    simpa [List.append_assoc] using this

theorem rngChoose_mem {α : Type _} {r : Rng} {l : List α} {a : α}
    (hc : (Rng.choose r l).1 = some a) : a ∈ l := by
  by_cases he : l.isEmpty
  · rw [Rng.choose, if_pos he] at hc
    cases hc
  · rw [Rng.choose, if_neg he] at hc
    simp only [Rng.genRange0] at hc
    exact List.get?_mem hc

/-- What a successful `ghost_next_dir` guarantees: the move is legal, its
target has a finite field value, and that value is minimal among all legal
finite-valued moves. -/
theorem ghost_next_dir_spec {pos : Pos} {grid : Grid} {w h : Nat}
    {dist : DistGrid} {rng : Rng} {gate : Bool} {dir : Dir}
    (hbound : ∀ d', can_move_ghost grid w h pos d' gate = true →
      0 ≤ distAt dist (step pos d') → distAt dist (step pos d') < 2147483647)
    (hres : (ghost_next_dir pos grid w h dist rng gate).1 = some dir) :
    can_move_ghost grid w h pos dir gate = true ∧
    0 ≤ distAt dist (step pos dir) ∧
    ∀ d', can_move_ghost grid w h pos d' gate = true →
      0 ≤ distAt dist (step pos d') →
      distAt dist (step pos dir) ≤ distAt dist (step pos d') := by
  have hinv := ghostFold_all hbound dirList ([], (2147483647 : Int)) []
    (Or.inl ⟨rfl, rfl, by simp⟩)
  rw [ghost_next_dir] at hres
  rcases hinv with ⟨he, _, _⟩ | ⟨hne, hb, hopts, hseen⟩
  · rw [he] at hres
    simp at hres
  · rw [if_neg (by simpa using hne)] at hres
    have hmem := rngChoose_mem hres
    obtain ⟨hcm, hval⟩ := hopts dir hmem
    refine ⟨hcm, by rw [hval]; exact hb, ?_⟩
    intro d' hcm' hd0
    rw [hval]
    exact hseen d' (by simpa using mem_dirList d') hcm' hd0

/-- C3 (amended): on the path field computed from the player's tile, a
chasing ghost that is *not standing on the player's tile* steps to a
neighbor whose field distance is at most (indeed, below) its own tile's
field distance. On the player's tile itself every neighbor is strictly
farther, so the claim's inequality fails there. -/
theorem C3_chase_step_not_uphill (grid : Grid) (w h : Nat) (player p : Pos)
    (rng : Rng) (gate : Bool) (dir : Dir)
    (hpx : p.x < w) (hpy : p.y < h)
    (hplx : player.x < w) (hply : player.y < h)
    (hppass : ghostPassable (tileAt grid p) gate = true)
    (hplpass : ghostPassable (tileAt grid player) gate = true)
    (hne : p ≠ player)
    (hwh : w * h ≤ 2147483647)
    (hres : (ghost_next_dir p grid w h (bfs_distance grid w h player gate)
      rng gate).1 = some dir) :
    distAt (bfs_distance grid w h player gate) (step p dir) ≤
      distAt (bfs_distance grid w h player gate) p := by
  have hInv := bfs_distance_inv grid w h gate player hplx hply
  have hcomp := bfsInv_complete hInv
  obtain ⟨_, hstart, hB, _, _, _, _⟩ := hInv
  have hbound : ∀ d', can_move_ghost grid w h p d' gate = true →
      0 ≤ distAt (bfs_distance grid w h player gate) (step p d') →
      distAt (bfs_distance grid w h player gate) (step p d') < 2147483647 := by
    intro d' _ hd0
    have hvis : distAt (bfs_distance grid w h player gate) (step p d') ≠ -1 := by
      intro hc
      rw [hc] at hd0
      omega
    obtain ⟨n, hn, hpath, hmin⟩ := hB _ hvis
    have harea := shortest_lt_area hplx hply hpath hmin
    rw [hn]
    push_cast
    omega
  obtain ⟨hcm, hd0, hminAll⟩ := ghost_next_dir_spec hbound hres
  have hvnext : distAt (bfs_distance grid w h player gate) (step p dir) ≠ -1 := by
    intro hc
    rw [hc] at hd0
    omega
  obtain ⟨nv, hnv, hvpath, _⟩ := hB _ hvnext
  have hadj_pn : ghostAdj grid w h gate p (step p dir) := ⟨dir, hcm, rfl⟩
  have hadj_np : ghostAdj grid w h gate (step p dir) p :=
    ghostAdj_symm hadj_pn hpx hpy hppass
  have hppath : hasPathN grid w h gate player (nv + 1) p :=
    ⟨step p dir, hvpath, hadj_np⟩
  have hpvis : distAt (bfs_distance grid w h player gate) p ≠ -1 :=
    hcomp (nv + 1) p hppath
  obtain ⟨np, hnp, hppath', hpmin⟩ := hB p hpvis
  have hnpge1 : 1 ≤ np := by
    rcases Nat.eq_zero_or_pos np with h0 | hpos
    · exfalso
      rw [h0, hasPathN_zero] at hppath'
      exact hne hppath'
    · exact hpos
  obtain ⟨nppred, rfl⟩ : ∃ m, np = m + 1 := ⟨np - 1, by omega⟩
  rw [hasPathN_succ] at hppath'
  obtain ⟨u, hu, hadj_up⟩ := hppath'
  have huprops : u.x < w ∧ u.y < h ∧ ghostPassable (tileAt grid u) gate = true := by
    match nppred, hu with
    | 0, hu =>
      rw [hasPathN_zero] at hu
      rw [hu]
      exact ⟨hplx, hply, hplpass⟩
    | m + 1, hu =>
      obtain ⟨v, _, hadj_vu⟩ := hu
      exact ghostAdj_target hadj_vu
  have hadj_pu : ghostAdj grid w h gate p u :=
    ghostAdj_symm hadj_up huprops.1 huprops.2.1 huprops.2.2
  obtain ⟨diru, hcmu, hstepu⟩ := hadj_pu
  have huvis : distAt (bfs_distance grid w h player gate) u ≠ -1 :=
    hcomp nppred u hu
  obtain ⟨nu, hnu, _, humin⟩ := hB u huvis
  have hnule : nu ≤ nppred := by
    by_contra hgt
    exact humin nppred (by omega) hu
  have hd0u : (0 : Int) ≤ distAt (bfs_distance grid w h player gate) u := by
    rw [hnu]
    positivity
  have hle := hminAll diru hcmu (by rw [← hstepu]; exact hd0u)
  rw [← hstepu] at hle
  rw [hnu] at hle
  rw [hnp]
  push_cast at hle ⊢
  omega

/-- C3 counterexample: with the ghost on the player's own tile (field
distance 0) every legal neighbor has distance 1, so the chosen step's field
distance is not ≤ the ghost's tile distance. -/
theorem C3_counterexample :
    (ghost_next_dir ⟨2, 2⟩ grid5 5 5 (bfs_distance grid5 5 5 ⟨2, 2⟩ true)
      rng0 true).1 = some Dir.Up ∧
    distAt (bfs_distance grid5 5 5 ⟨2, 2⟩ true) ⟨2, 2⟩ = 0 ∧
    distAt (bfs_distance grid5 5 5 ⟨2, 2⟩ true) (step ⟨2, 2⟩ Dir.Up) = 1 ∧
    ¬(distAt (bfs_distance grid5 5 5 ⟨2, 2⟩ true) (step ⟨2, 2⟩ Dir.Up) ≤
      distAt (bfs_distance grid5 5 5 ⟨2, 2⟩ true) ⟨2, 2⟩) := by
  decide

/-- C3 witness: a ghost two tiles away steps down the field. -/
theorem C3_witness :
    distAt (bfs_distance grid5 5 5 ⟨1, 1⟩ true) (step ⟨3, 3⟩ Dir.Up) ≤
      distAt (bfs_distance grid5 5 5 ⟨1, 1⟩ true) ⟨3, 3⟩ :=
  C3_chase_step_not_uphill grid5 5 5 ⟨1, 1⟩ ⟨3, 3⟩ rng0 true Dir.Up
    (by decide) (by decide) (by decide) (by decide) (by decide) (by decide)
    (by decide) (by decide) (by decide)

/-! ## Frame lemmas for the tick stages -/

theorem apply_input_frame (g : Game) (d : Option Dir) (a : Bool) :
    (g.apply_input d a).grid = g.grid ∧ (g.apply_input d a).player = g.player ∧
    (g.apply_input d a).player_spawn = g.player_spawn ∧
    (g.apply_input d a).width = g.width ∧
    (g.apply_input d a).height = g.height ∧
    (g.apply_input d a).pellets_left = g.pellets_left ∧
    (g.apply_input d a).power_timer = g.power_timer ∧
    (g.apply_input d a).bonus_pos = g.bonus_pos := by
  cases a <;> cases d <;> rw [Game.apply_input] <;>
    try exact ⟨rfl, rfl, rfl, rfl, rfl, rfl, rfl, rfl⟩
  all_goals
    repeat' split
    all_goals exact ⟨rfl, rfl, rfl, rfl, rfl, rfl, rfl, rfl⟩

theorem move_player_frame (g : Game) :
    g.move_player.grid = g.grid ∧
    g.move_player.player_spawn = g.player_spawn ∧
    g.move_player.width = g.width ∧
    g.move_player.height = g.height ∧
    g.move_player.pellets_left = g.pellets_left ∧
    g.move_player.power_timer = g.power_timer ∧
    g.move_player.bonus_pos = g.bonus_pos := by
  rw [Game.move_player]
  rcases g.dir with _ | dd
  · exact ⟨rfl, rfl, rfl, rfl, rfl, rfl, rfl⟩
  · dsimp only
    split <;> exact ⟨rfl, rfl, rfl, rfl, rfl, rfl, rfl⟩

theorem consume_tile_cases (g : Game) :
    (tileAt g.grid g.player = Tile.Pellet ∧
      g.consume_tile = { g with
        grid := setTile g.grid g.player Tile.Empty,
        score := g.score + 10, pellets_left := g.pellets_left - 1 }) ∨
    (tileAt g.grid g.player = Tile.Power ∧
      g.consume_tile = { g with
        grid := setTile g.grid g.player Tile.Empty,
        score := g.score + 50, pellets_left := g.pellets_left - 1,
        power_timer := POWER_TICKS }) ∨
    (tileAt g.grid g.player ≠ Tile.Pellet ∧ tileAt g.grid g.player ≠ Tile.Power ∧
      g.consume_tile = g) := by
  rcases htile : tileAt g.grid g.player <;>
    simp [Game.consume_tile, htile]

theorem try_collect_bonus_frame (g : Game) (rng : Rng) :
    (g.try_collect_bonus rng).1.grid = g.grid ∧
    (g.try_collect_bonus rng).1.pellets_left = g.pellets_left ∧
    (g.try_collect_bonus rng).1.player = g.player ∧
    (g.try_collect_bonus rng).1.player_spawn = g.player_spawn ∧
    (g.try_collect_bonus rng).1.width = g.width ∧
    (g.try_collect_bonus rng).1.height = g.height ∧
    g.power_timer ≤ (g.try_collect_bonus rng).1.power_timer := by
  rw [Game.try_collect_bonus]
  rcases g.bonus_pos with _ | pos
  · exact ⟨rfl, rfl, rfl, rfl, rfl, rfl, le_refl _⟩
  · dsimp only
    split
    · refine ⟨rfl, rfl, rfl, rfl, rfl, rfl, ?_⟩
      simp only []
      exact le_max_of_le_left (Nat.le_add_right _ _)
    · exact ⟨rfl, rfl, rfl, rfl, rfl, rfl, le_refl _⟩

theorem try_collect_bonus_power_of_miss (g : Game) (rng : Rng)
    (hnb : g.bonus_pos ≠ some g.player) :
    (g.try_collect_bonus rng).1.power_timer = g.power_timer := by
  rw [Game.try_collect_bonus]
  rcases hb : g.bonus_pos with _ | pos
  · rfl
  · dsimp only
    have hne : pos ≠ g.player := by
      intro hc
      exact hnb (by rw [hb, hc])
    rw [if_neg hne]

theorem update_bonus_frame (g : Game) (rng : Rng) :
    (g.update_bonus rng).1.grid = g.grid ∧
    (g.update_bonus rng).1.pellets_left = g.pellets_left ∧
    (g.update_bonus rng).1.player = g.player ∧
    (g.update_bonus rng).1.player_spawn = g.player_spawn ∧
    (g.update_bonus rng).1.width = g.width ∧
    (g.update_bonus rng).1.height = g.height ∧
    (g.update_bonus rng).1.power_timer = g.power_timer := by
  rw [Game.update_bonus]
  rcases g.bonus_pos with _ | pos
  · dsimp only
    split
    · exact ⟨rfl, rfl, rfl, rfl, rfl, rfl, rfl⟩
    · rcases random_bonus_spawn g rng with ⟨posOpt, rng2⟩
      rcases posOpt with _ | p2 <;>
        exact ⟨rfl, rfl, rfl, rfl, rfl, rfl, rfl⟩
  · dsimp only
    split <;> exact ⟨rfl, rfl, rfl, rfl, rfl, rfl, rfl⟩

theorem update_ghosts_frame (g : Game) (rng : Rng) :
    (g.update_ghosts rng).1.grid = g.grid ∧
    (g.update_ghosts rng).1.pellets_left = g.pellets_left ∧
    (g.update_ghosts rng).1.player = g.player ∧
    (g.update_ghosts rng).1.player_spawn = g.player_spawn ∧
    (g.update_ghosts rng).1.width = g.width ∧
    (g.update_ghosts rng).1.height = g.height ∧
    (g.update_ghosts rng).1.power_timer = g.power_timer := by
  rw [Game.update_ghosts]
  dsimp only
  split
  · exact ⟨rfl, rfl, rfl, rfl, rfl, rfl, rfl⟩
  · exact ⟨rfl, rfl, rfl, rfl, rfl, rfl, rfl⟩

theorem tick_power_timer_le (g : Game) :
    g.tick_power_timer.power_timer ≤ g.power_timer := by
  rw [Game.tick_power_timer]
  split
  · simp
  · exact le_refl _

theorem tick_power_timer_frame (g : Game) :
    g.tick_power_timer.grid = g.grid ∧
    g.tick_power_timer.pellets_left = g.pellets_left ∧
    g.tick_power_timer.player = g.player ∧
    g.tick_power_timer.player_spawn = g.player_spawn ∧
    g.tick_power_timer.width = g.width ∧
    g.tick_power_timer.height = g.height := by
  rw [Game.tick_power_timer]
  split <;> exact ⟨rfl, rfl, rfl, rfl, rfl, rfl⟩

theorem handle_collisions_frame (g : Game) (rng : Rng) :
    (g.handle_collisions rng).1.grid = g.grid ∧
    (g.handle_collisions rng).1.pellets_left = g.pellets_left ∧
    ((g.handle_collisions rng).1.player = g.player ∨
      (g.handle_collisions rng).1.player = g.player_spawn) ∧
    (g.handle_collisions rng).1.player_spawn = g.player_spawn ∧
    (g.handle_collisions rng).1.width = g.width ∧
    (g.handle_collisions rng).1.height = g.height ∧
    (g.handle_collisions rng).1.power_timer ≤ g.power_timer := by
  rw [Game.handle_collisions]
  rcases hitIdx g.ghosts g.player with _ | i
  · exact ⟨rfl, rfl, Or.inl rfl, rfl, rfl, rfl, le_refl _⟩
  · dsimp only
    split
    · exact ⟨rfl, rfl, Or.inl rfl, rfl, rfl, rfl, le_refl _⟩
    · exact ⟨rfl, rfl, Or.inr rfl, rfl, rfl, rfl, Nat.zero_le _⟩

theorem next_level_power (g : Game) (rng : Rng) (g' : Game) (rng' : Rng)
    (h : next_level g rng = some (g', rng')) : g'.power_timer = 0 := by
  rw [next_level] at h
  dsimp only at h
  split at h
  · cases h
  · rw [Option.some_inj] at h
    have hg : g' = _ := (congrArg Prod.fst h).symm
    rw [hg]

theorem consume_tile_frame (g : Game) :
    g.consume_tile.player = g.player ∧
    g.consume_tile.player_spawn = g.player_spawn ∧
    g.consume_tile.width = g.width ∧ g.consume_tile.height = g.height ∧
    g.consume_tile.bonus_pos = g.bonus_pos := by
  rcases htile : tileAt g.grid g.player <;> simp [Game.consume_tile, htile]

theorem consume_tile_power_of_ne (g : Game)
    (h : tileAt g.grid g.player ≠ Tile.Power) :
    g.consume_tile.power_timer = g.power_timer := by
  rcases htile : tileAt g.grid g.player <;>
    simp [Game.consume_tile, htile]
  exact absurd htile h

/-- The orchestrator, rewritten without the intermediate pattern-matching
lets (definitional). -/
theorem tick_eq (g : Game) (rng : Rng) (d : Option Dir) (a : Bool) :
    tick g rng d a =
      (let g1 := ((g.apply_input d a).move_player).consume_tile
       let pr := g1.try_collect_bonus rng
       if pr.1.pellets_left = 0 then next_level pr.1 pr.2
       else
         let pb := pr.1.update_bonus pr.2
         let pg := pb.1.update_ghosts pb.2
         some ((pg.1.tick_power_timer).handle_collisions pg.2)) := rfl

/-- C8 (amended): across a tick the power countdown is non-increasing
unless the tile consumed is `Power` or the bonus is collected; consuming a
`Power` tile overwrites the countdown with exactly `POWER_TICKS` — which
*lowers* a countdown previously boosted above `POWER_TICKS` by a bonus —
and collecting the bonus never lowers it. -/
theorem C8_power_timer_monotone (g : Game) (rng : Rng) (d : Option Dir)
    (a : Bool) (g' : Game) (rng' : Rng)
    (htick : tick g rng d a = some (g', rng'))
    (hnp : tileAt ((g.apply_input d a).move_player).grid
      ((g.apply_input d a).move_player).player ≠ Tile.Power)
    (hnb : ((g.apply_input d a).move_player).bonus_pos ≠
      some ((g.apply_input d a).move_player).player) :
    g'.power_timer ≤ g.power_timer ∧
    (∀ g0 : Game, tileAt g0.grid g0.player = Tile.Power →
      g0.consume_tile.power_timer = POWER_TICKS) ∧
    (∀ (g0 : Game) (r : Rng),
      g0.power_timer ≤ (g0.try_collect_bonus r).1.power_timer) := by
  refine ⟨?_, ?_, ?_⟩
  · -- monotonicity without a consuming step
    rw [tick_eq] at htick
    dsimp only at htick
    have hpow1 : ((g.apply_input d a).move_player).power_timer = g.power_timer := by
      rw [(move_player_frame (g.apply_input d a)).2.2.2.2.2.1,
        (apply_input_frame g d a).2.2.2.2.2.2.1]
    have hpow2 : (((g.apply_input d a).move_player).consume_tile).power_timer =
        g.power_timer := by
      rw [consume_tile_power_of_ne _ hnp, hpow1]
    have hnb2 : (((g.apply_input d a).move_player).consume_tile).bonus_pos ≠
        some ((((g.apply_input d a).move_player).consume_tile).player) := by
      rw [(consume_tile_frame _).1, (consume_tile_frame _).2.2.2.2]
      exact hnb
    have hpow3 : ((((g.apply_input d a).move_player).consume_tile).try_collect_bonus
        rng).1.power_timer = g.power_timer := by
      rw [try_collect_bonus_power_of_miss _ _ hnb2, hpow2]
    rcases hB : (((g.apply_input d a).move_player).consume_tile).try_collect_bonus
        rng with ⟨gB, rngB⟩
    rw [hB] at htick hpow3
    split at htick
    · -- level completion: the fresh level zeroes the countdown
      have := next_level_power _ _ _ _ htick
      omega
    · have hpow3' : gB.power_timer = g.power_timer := hpow3
      have h4 := (update_bonus_frame gB rngB).2.2.2.2.2.2
      rcases hU : gB.update_bonus rngB with ⟨gU, rngU⟩
      rw [hU] at htick h4
      have h4' : gU.power_timer = gB.power_timer := h4
      have h5 := (update_ghosts_frame gU rngU).2.2.2.2.2.2
      rcases hG : gU.update_ghosts rngU with ⟨gG, rngG⟩
      rw [hG] at htick h5
      have h5' : gG.power_timer = gU.power_timer := h5
      have h6 := tick_power_timer_le gG
      have h7 := (handle_collisions_frame gG.tick_power_timer rngG).2.2.2.2.2.2
      rw [Option.some_inj] at htick
      have hg : g' = (gG.tick_power_timer.handle_collisions rngG).1 :=
        (congrArg Prod.fst htick).symm
      rw [hg]
      omega
  · intro g0 htile
    simp [Game.consume_tile, htile]
  · intro g0 r
    exact (try_collect_bonus_frame g0 r).2.2.2.2.2.2

/-- C8 counterexample: with the countdown boosted above `POWER_TICKS`
(reachable via the bonus's `power_timer + 40` boost), consuming a `Power`
tile *lowers* the countdown to 90, contradicting "a consuming step sets or
raises the countdown". -/
theorem C8_counterexample :
    (let g := { sampleGame with
                 grid := setTile grid5 ⟨1, 1⟩ Tile.Power, power_timer := 129 };
     tileAt g.grid g.player = Tile.Power ∧
     g.consume_tile.power_timer < g.power_timer) := by
  decide

/-- C8 witness: a tick that consumes nothing does not raise the countdown. -/
theorem C8_witness :
    (((tick sampleGame rng0 none false).getD (sampleGame, rng0)).1.power_timer ≤
      sampleGame.power_timer) ∧
    (∀ g0 : Game, tileAt g0.grid g0.player = Tile.Power →
      g0.consume_tile.power_timer = POWER_TICKS) ∧
    (∀ (g0 : Game) (r : Rng),
      g0.power_timer ≤ (g0.try_collect_bonus r).1.power_timer) :=
  C8_power_timer_monotone sampleGame rng0 none false
    ((tick sampleGame rng0 none false).getD (sampleGame, rng0)).1
    ((tick sampleGame rng0 none false).getD (sampleGame, rng0)).2
    (by rfl) (by decide) (by decide)

/-! ## C9: when construction aborts -/

theorem listGet?_set_self {α : Type _} (l : List α) (i : Nat) (v : α)
    (h : i < l.length) : (l.set i v).get? i = some v := by
  simp [List.get?_eq_getElem?, List.getElem?_set_self', List.getElem?_eq_getElem h]

theorem listGet?_set_ne {α : Type _} (l : List α) {i j : Nat} (v : α)
    (h : i ≠ j) : (l.set i v).get? j = l.get? j := by
  simp [List.get?_eq_getElem?, List.getElem?_set_ne h]

theorem mem_listSwap {α : Type _} (l : List α) (a b : Nat) (x : α) :
    x ∈ listSwap l a b ↔ x ∈ l := by
  rw [listSwap]
  rcases hga : l.get? a with _ | ya
  · simp
  rcases hgb : l.get? b with _ | yb
  · simp
  have ha : a < l.length := by
    by_contra hlen
    rw [List.get?_eq_none.mpr (by omega)] at hga
    cases hga
  have hb : b < l.length := by
    by_contra hlen
    rw [List.get?_eq_none.mpr (by omega)] at hgb
    cases hgb
  have hb' : b < ((l.set a yb).length) := by simpa using hb
  have hya : ya ∈ l := by
    rw [List.mem_iff_get?]
    exact ⟨a, hga⟩
  have hyb : yb ∈ l := by
    rw [List.mem_iff_get?]
    exact ⟨b, hgb⟩
  dsimp only
  constructor
  · intro hx
    rw [List.mem_iff_get?] at hx
    obtain ⟨n, hn⟩ := hx
    by_cases hnb : n = b
    · subst hnb
      rw [listGet?_set_self _ _ _ hb'] at hn
      cases hn
      exact hya
    · rw [listGet?_set_ne _ _ (fun hc => hnb hc.symm)] at hn
      by_cases hna : n = a
      · subst hna
        rw [listGet?_set_self _ _ _ ha] at hn
        cases hn
        exact hyb
      · rw [listGet?_set_ne _ _ (fun hc => hna hc.symm)] at hn
        rw [List.mem_iff_get?]
        exact ⟨n, hn⟩
  · intro hx
    rw [List.mem_iff_get?] at hx
    obtain ⟨n, hn⟩ := hx
    rw [List.mem_iff_get?]
    by_cases hna : n = a
    · subst hna
      refine ⟨b, ?_⟩
      rw [listGet?_set_self _ _ _ hb']
      rw [hga] at hn
      cases hn
      rfl
    · by_cases hnb : n = b
      · by_cases hab : a = b
        · refine ⟨b, ?_⟩
          rw [listGet?_set_self _ _ _ hb']
          rw [hnb, ← hab, hga] at hn
          cases hn
          rfl
        · refine ⟨a, ?_⟩
          rw [listGet?_set_ne _ _ (fun hc => hab hc.symm),
            listGet?_set_self _ _ _ ha]
          rw [hnb, hgb] at hn
          cases hn
          rfl
      · refine ⟨n, ?_⟩
        rw [listGet?_set_ne _ _ (fun hc => hnb hc.symm),
          listGet?_set_ne _ _ (fun hc => hna hc.symm)]
        exact hn

theorem mem_shuffleAux {α : Type _} (x : α) :
    ∀ (k : Nat) (l : List α) (rng : Rng),
      x ∈ (shuffleAux k l rng).1 ↔ x ∈ l
  | 0, l, rng => Iff.rfl
  | k + 1, l, rng => by
    rw [shuffleAux]
    dsimp only
    rw [mem_shuffleAux x k]
    exact mem_listSwap _ _ _ _

theorem mem_shuffle {α : Type _} (x : α) (l : List α) (rng : Rng) :
    x ∈ (shuffle l rng).1 ↔ x ∈ l := by
  rw [shuffle]
  exact mem_shuffleAux x _ l rng

set_option maxRecDepth 8000 in
/-- C9 (amended): `new_game` aborts exactly when every non-`Wall`/`Gate`
tile of the generated maze is a ghost spawn or lies inside the pen bounds;
in particular the degenerate 3×3 request aborts, but a too-small request
such as 3×21 returns a degraded `GameState` instead of failing. -/
theorem C9_new_game_none_iff :
    (∀ (rng : Rng) (level width height : Nat),
      (new_game rng level width height = none ↔
        ∀ p ∈ empty_cells (generate_maze rng width height).1.1,
          p ∈ (generate_maze rng width height).1.2.2.1 ∨
          is_in_pen p width height = true)) ∧
    new_game rng0 1 3 3 = none := by
  constructor
  · intro rng level width height
    rw [new_game]
    dsimp only
    rcases hS : shuffle (empty_cells (generate_maze rng width height).1.1)
      (generate_maze rng width height).2 with ⟨empties, rng2⟩
    have hmem : ∀ p : Pos,
        p ∈ empties ↔ p ∈ empty_cells (generate_maze rng width height).1.1 := by
      intro p
      rw [show empties = (shuffle (empty_cells (generate_maze rng width height).1.1)
        (generate_maze rng width height).2).1 from by rw [hS]]
      exact mem_shuffle p _ _
    dsimp only
    rcases hF : findPlayerSpawn empties (generate_maze rng width height).1.2.2.1
        width height with _ | player
    · simp only [true_iff]
      rw [findPlayerSpawn, List.find?_eq_none] at hF
      intro p hp
      have := hF p ((hmem p).mpr hp)
      rw [Bool.and_eq_true, Bool.not_eq_true', Bool.not_eq_true'] at this
      rcases Decidable.not_and_iff_or_not.mp this with hc | hc
      · left
        rcases Bool.eq_false_or_eq_true
          ((generate_maze rng width height).1.2.2.1.contains p) with hb | hb
        · simpa using hb
        · exact absurd hb hc
      · right
        rcases Bool.eq_false_or_eq_true (is_in_pen p width height) with hb | hb
        · exact hb
        · exact absurd hb hc
    · have hmem2 := List.mem_of_find?_eq_some hF
      have hpred := List.find?_some hF
      rw [Bool.and_eq_true, Bool.not_eq_true', Bool.not_eq_true'] at hpred
      constructor
      · intro hc
        exact absurd hc (by simp)
      · intro hall
        exfalso
        rcases hall player ((hmem player).mp hmem2) with hq | hq
        · have hcon : (generate_maze rng width height).1.2.2.1.contains player
              = true := by simpa using hq
          rw [hcon] at hpred
          exact absurd hpred.1 (by simp)
        · rw [hq] at hpred
          exact absurd hpred.2 (by simp)
  · rfl

set_option maxRecDepth 8000 in
/-- C9 counterexample: a 3×21 request — too small to host the minimum 3×3
pen plus border — does *not* abort: `new_game` returns a degraded state. -/
theorem C9_counterexample : (new_game rng0 1 3 21).isSome = true := by
  rfl

/-! ## C1: connectivity of the generated maze -/

/-- One step of the repair flood: strictly interior target, walkable for
the player, in the direction's offset. -/
def floodAdj (grid : Grid) (w h : Nat) (pen : PenBounds) (u v : Pos) : Prop :=
  ∃ dir : Dir, v = step u dir ∧
    0 < Int.ofNat u.x + dir.delta.1 ∧ 0 < Int.ofNat u.y + dir.delta.2 ∧
    Int.ofNat u.x + dir.delta.1 < Int.ofNat w - 1 ∧
    Int.ofNat u.y + dir.delta.2 < Int.ofNat h - 1 ∧
    is_walkable_for_player grid pen v = true

/-- Walks of exactly `n` flood steps. -/
def floodPathN (grid : Grid) (w h : Nat) (pen : PenBounds) (s : Pos) :
    Nat → Pos → Prop
  | 0, t => t = s
  | n + 1, t => ∃ u, floodPathN grid w h pen s n u ∧ floodAdj grid w h pen u t

def floodReach (grid : Grid) (w h : Nat) (pen : PenBounds) (s t : Pos) : Prop :=
  ∃ n, floodPathN grid w h pen s n t

theorem floodPathN_zero {grid w h pen s t} :
    floodPathN grid w h pen s 0 t ↔ t = s := Iff.rfl

theorem floodPathN_succ {grid w h pen s n t} :
    floodPathN grid w h pen s (n + 1) t ↔
      ∃ u, floodPathN grid w h pen s n u ∧ floodAdj grid w h pen u t := Iff.rfl

theorem seenAt_setSeen_self {seen : BoolGrid} {w h : Nat} (hs : shape2 seen w h)
    {p : Pos} (v : Bool) (hx : p.x < w) (hy : p.y < h) :
    seenAt (setSeen seen p v) p = v := by
  rw [seenAt_eq_at2, setSeen_eq_set2]
  exact at2_set2_self _ _ _ hs hx hy

theorem seenAt_setSeen_ne (seen : BoolGrid) {p q : Pos} (v : Bool) (h : q ≠ p) :
    seenAt (setSeen seen p v) q = seenAt seen q := by
  rw [seenAt_eq_at2, setSeen_eq_set2, at2_set2_ne _ _ _ h, seenAt_eq_at2]

/-- Soundness state of the flood: marks are reachable, queue members are
marked, and the mark table keeps its shape. -/
def floodSound (grid : Grid) (w h : Nat) (pen : PenBounds) (start : Pos)
    (seen : BoolGrid) (q : List Pos) : Prop :=
  shape2 seen w h ∧
  (∀ p : Pos, seenAt seen p = true → floodReach grid w h pen start p) ∧
  (∀ p ∈ q, seenAt seen p = true)

theorem floodStepDir_sound {grid : Grid} {w h : Nat} {pen : PenBounds}
    {start pos : Pos} {seen : BoolGrid} {q : List Pos} {dir : Dir}
    (hS : floodSound grid w h pen start seen q)
    (hreach : floodReach grid w h pen start pos) :
    floodSound grid w h pen start
      (floodStepDir grid w h pen pos (seen, q) dir).1
      (floodStepDir grid w h pen pos (seen, q) dir).2 := by
  obtain ⟨hsh, hsound, hq⟩ := hS
  rw [floodStepDir]
  by_cases hc1 : (Int.ofNat pos.x + dir.delta.1 ≤ 0 ∨ Int.ofNat pos.y + dir.delta.2 ≤ 0 ∨
      Int.ofNat pos.x + dir.delta.1 ≥ Int.ofNat w - 1 ∨
      Int.ofNat pos.y + dir.delta.2 ≥ Int.ofNat h - 1)
  · rw [if_pos (by simp only [Bool.or_eq_true, decide_eq_true_eq]; tauto)]
    exact ⟨hsh, hsound, hq⟩
  · rw [if_neg (by simp only [Bool.or_eq_true, decide_eq_true_eq]; tauto)]
    push_neg at hc1
    obtain ⟨ha, hb, hcw, hch⟩ := hc1
    have hnpos : (⟨(Int.ofNat pos.x + dir.delta.1).toNat,
        (Int.ofNat pos.y + dir.delta.2).toNat⟩ : Pos) = step pos dir := rfl
    rw [hnpos]
    dsimp only
    by_cases hseen : seenAt seen (step pos dir) = true
    · rw [if_pos hseen]
      exact ⟨hsh, hsound, hq⟩
    · rw [if_neg hseen]
      by_cases hwalk : is_walkable_for_player grid pen (step pos dir) = true
      · rw [if_neg (by simp [hwalk])]
        have hadj : floodAdj grid w h pen pos (step pos dir) := by
          refine ⟨dir, rfl, ?_, ?_, ?_, ?_, hwalk⟩ <;>
          · simp only [Int.ofNat_eq_natCast] at ha hb hcw hch ⊢
            omega
        have hreach2 : floodReach grid w h pen start (step pos dir) := by
          obtain ⟨n, hn⟩ := hreach
          exact ⟨n + 1, pos, hn, hadj⟩
        have hinx : (step pos dir).x < w := by
          simp only [step_def, Int.ofNat_eq_natCast] at ha hb hcw hch ⊢
          omega
        have hiny : (step pos dir).y < h := by
          simp only [step_def, Int.ofNat_eq_natCast] at ha hb hcw hch ⊢
          omega
        refine ⟨?_, ?_, ?_⟩
        · rw [setSeen_eq_set2]
          exact shape2_set2 _ _ hsh
        · intro p hp
          by_cases hpe : p = step pos dir
          · rw [hpe]
            exact hreach2
          · rw [seenAt_setSeen_ne _ _ hpe] at hp
            exact hsound p hp
        · intro p hp
          rcases List.mem_append.mp hp with hp | hp
          · by_cases hpe : p = step pos dir
            · rw [hpe, seenAt_setSeen_self hsh _ hinx hiny]
            · rw [seenAt_setSeen_ne _ _ hpe]
              exact hq p hp
          · rw [List.mem_singleton.mp hp, seenAt_setSeen_self hsh _ hinx hiny]
      · rw [if_pos (by rw [Bool.not_eq_true] at hwalk; simp [hwalk])]
        exact ⟨hsh, hsound, hq⟩

theorem floodStepPos_sound {grid : Grid} {w h : Nat} {pen : PenBounds}
    {start pos : Pos} {seen : BoolGrid} {q : List Pos}
    (hS : floodSound grid w h pen start seen q)
    (hreach : floodReach grid w h pen start pos) :
    floodSound grid w h pen start
      (floodStepPos grid w h pen pos (seen, q)).1
      (floodStepPos grid w h pen pos (seen, q)).2 := by
  rw [floodStepPos]
  have hgen : ∀ (ds : List Dir) (st : BoolGrid × List Pos),
      floodSound grid w h pen start st.1 st.2 →
      floodSound grid w h pen start
        (ds.foldl (floodStepDir grid w h pen pos) st).1
        (ds.foldl (floodStepDir grid w h pen pos) st).2 := by
    intro ds
    induction ds with
    | nil => intro st hst; exact hst
    | cons d ds ih =>
      intro st hst
      rw [List.foldl_cons]
      exact ih _ (floodStepDir_sound hst hreach)
  exact hgen dirList (seen, q) hS

theorem floodLoop_sound {grid : Grid} {w h : Nat} {pen : PenBounds}
    {start : Pos} :
    ∀ (fuel : Nat) (seen : BoolGrid) (q : List Pos),
      floodSound grid w h pen start seen q →
      ∀ p : Pos, seenAt (floodLoop grid w h pen fuel seen q) p = true →
        floodReach grid w h pen start p
  | 0, seen, q, hS, p, hp => hS.2.1 p hp
  | _ + 1, seen, [], hS, p, hp => hS.2.1 p hp
  | fuel + 1, seen, pos :: rest, hS, p, hp => by
    have hreach : floodReach grid w h pen start pos :=
      hS.2.1 pos (hS.2.2 pos (List.mem_cons_self _ _))
    have hS' : floodSound grid w h pen start seen rest :=
      ⟨hS.1, hS.2.1, fun x hx => hS.2.2 x (List.mem_cons_of_mem _ hx)⟩
    exact floodLoop_sound fuel _ _ (floodStepPos_sound hS' hreach) p hp

/-- Everything the repair flood marks is flood-reachable from its start. -/
theorem flood_sound {grid : Grid} {w h : Nat} {pen : PenBounds} {start : Pos}
    (hx : start.x < w) (hy : start.y < h) :
    ∀ p : Pos, seenAt (flood grid w h pen start) p = true →
      floodReach grid w h pen start p := by
  rw [flood]
  apply floodLoop_sound
  have hshR : shape2 (List.replicate h (List.replicate w false)) w h :=
    shape2_replicate w h false
  refine ⟨?_, ?_, ?_⟩
  · rw [setSeen_eq_set2]
    exact shape2_set2 _ _ hshR
  · intro p hp
    by_cases hps : p = start
    · exact ⟨0, hps⟩
    · rw [seenAt_setSeen_ne _ _ hps] at hp
      rw [seenAt_eq_at2, at2_replicate_same] at hp
      cases hp
  · intro p hp
    rw [List.mem_singleton.mp hp]
    rw [seenAt_setSeen_self hshR _ hx hy]

theorem floodAdj_target {grid : Grid} {w h : Nat} {pen : PenBounds} {u v : Pos}
    (hadj : floodAdj grid w h pen u v) :
    1 ≤ v.x ∧ v.x < w - 1 ∧ 1 ≤ v.y ∧ v.y < h - 1 ∧
      is_walkable_for_player grid pen v = true := by
  obtain ⟨dir, rfl, ha, hb, hcw, hch, hwalk⟩ := hadj
  simp only [Int.ofNat_eq_natCast] at ha hb hcw hch
  refine ⟨?_, ?_, ?_, ?_, hwalk⟩ <;>
  · simp only [step_def, Int.ofNat_eq_natCast]
    omega

theorem floodAdj_symm {grid : Grid} {w h : Nat} {pen : PenBounds} {u v : Pos}
    (hadj : floodAdj grid w h pen u v)
    (hu1 : 1 ≤ u.x) (hu2 : u.x < w - 1) (hu3 : 1 ≤ u.y) (hu4 : u.y < h - 1)
    (huw : is_walkable_for_player grid pen u = true) :
    floodAdj grid w h pen v u := by
  obtain ⟨dir, rfl, ha, hb, hcw, hch, hwalk⟩ := hadj
  have hx0 : 0 ≤ Int.ofNat u.x + dir.delta.1 := le_of_lt ha
  have hy0 : 0 ≤ Int.ofNat u.y + dir.delta.2 := le_of_lt hb
  have hstep : step (step u dir) dir.opp = u := step_opp hx0 hy0
  obtain ⟨hcx, hcy⟩ := step_opp_coords hx0 hy0
  refine ⟨dir.opp, hstep.symm, ?_, ?_, ?_, ?_, ?_⟩
  · rw [hcx]
    simp only [Int.ofNat_eq_natCast]
    omega
  · rw [hcy]
    simp only [Int.ofNat_eq_natCast]
    omega
  · rw [hcx]
    simp only [Int.ofNat_eq_natCast]
    omega
  · rw [hcy]
    simp only [Int.ofNat_eq_natCast]
    omega
  · exact huw

theorem floodPathN_props {grid : Grid} {w h : Nat} {pen : PenBounds} {s : Pos}
    (hs1 : 1 ≤ s.x) (hs2 : s.x < w - 1) (hs3 : 1 ≤ s.y) (hs4 : s.y < h - 1)
    (hsw : is_walkable_for_player grid pen s = true) :
    ∀ {n : Nat} {t : Pos}, floodPathN grid w h pen s n t →
      1 ≤ t.x ∧ t.x < w - 1 ∧ 1 ≤ t.y ∧ t.y < h - 1 ∧
        is_walkable_for_player grid pen t = true := by
  intro n
  cases n with
  | zero =>
    intro t ht
    rw [floodPathN_zero] at ht
    rw [ht]
    exact ⟨hs1, hs2, hs3, hs4, hsw⟩
  | succ n =>
    intro t ht
    rw [floodPathN_succ] at ht
    obtain ⟨u, _, hadj⟩ := ht
    exact floodAdj_target hadj

theorem floodPathN_append {grid : Grid} {w h : Nat} {pen : PenBounds}
    {p u : Pos} {a : Nat} (hpu : floodPathN grid w h pen p a u) :
    ∀ {b : Nat} {t : Pos}, floodPathN grid w h pen u b t →
      floodPathN grid w h pen p (b + a) t := by
  intro b
  induction b with
  | zero =>
    intro t ht
    rw [floodPathN_zero] at ht
    rw [ht]
    simpa using hpu
  | succ b ih =>
    intro t ht
    rw [floodPathN_succ] at ht
    obtain ⟨z, hz, hadj⟩ := ht
    rw [Nat.add_right_comm]
    exact ⟨z, ih hz, hadj⟩

theorem floodPathN_reverse {grid : Grid} {w h : Nat} {pen : PenBounds} {s : Pos}
    (hs1 : 1 ≤ s.x) (hs2 : s.x < w - 1) (hs3 : 1 ≤ s.y) (hs4 : s.y < h - 1)
    (hsw : is_walkable_for_player grid pen s = true) :
    ∀ {n : Nat} {t : Pos}, floodPathN grid w h pen s n t →
      floodPathN grid w h pen t n s := by
  intro n
  induction n with
  | zero =>
    intro t ht
    rw [floodPathN_zero] at ht
    rw [floodPathN_zero, ht]
  | succ n ih =>
    intro t ht
    rw [floodPathN_succ] at ht
    obtain ⟨u, hu, hadj⟩ := ht
    obtain ⟨hu1, hu2, hu3, hu4, huw⟩ := floodPathN_props hs1 hs2 hs3 hs4 hsw hu
    have hrev : floodPathN grid w h pen u n s := ih hu
    have hedge : floodPathN grid w h pen t 1 u :=
      ⟨t, rfl, floodAdj_symm hadj hu1 hu2 hu3 hu4 huw⟩
    simpa using floodPathN_append hedge hrev

theorem is_walkable_iff (grid : Grid) (pen : PenBounds) (p : Pos) :
    is_walkable_for_player grid pen p = true ↔
      is_in_pen_bounds p pen = false ∧ tileAt grid p ≠ Tile.Wall ∧
        tileAt grid p ≠ Tile.Gate := by
  cases hpen : is_in_pen_bounds p pen <;>
    cases htile : tileAt grid p <;>
      simp [is_walkable_for_player, hpen, htile]

theorem floodAdj_to_ghost {grid : Grid} {w h : Nat} {pen : PenBounds} {u v : Pos}
    (hadj : floodAdj grid w h pen u v) : ghostAdj grid w h false u v := by
  obtain ⟨dir, rfl, ha, hb, hcw, hch, hwalk⟩ := hadj
  refine ⟨dir, ?_, rfl⟩
  rw [can_move_ghost_iff]
  obtain ⟨-, hnw, hng⟩ := (is_walkable_iff grid pen (step u dir)).mp hwalk
  refine ⟨le_of_lt ha, le_of_lt hb, ?_, ?_, ?_⟩
  · simp only [step_def, Int.ofNat_eq_natCast] at hcw ⊢
    simp only [Int.ofNat_eq_natCast] at ha
    omega
  · simp only [step_def, Int.ofNat_eq_natCast] at hch ⊢
    simp only [Int.ofNat_eq_natCast] at hb
    omega
  · cases htile : tileAt grid (step u dir)
    case Wall => exact absurd htile hnw
    case Gate => exact absurd htile hng
    all_goals rfl

theorem floodPathN_to_ghost {grid : Grid} {w h : Nat} {pen : PenBounds} {s : Pos} :
    ∀ {n : Nat} {t : Pos}, floodPathN grid w h pen s n t →
      hasPathN grid w h false s n t := by
  intro n
  induction n with
  | zero =>
    intro t ht
    exact ht
  | succ n ih =>
    intro t ht
    obtain ⟨u, hu, hadj⟩ := ht
    exact ⟨u, ih hu, floodAdj_to_ghost hadj⟩

theorem mem_interiorCoords {w h : Nat} {p : Pos} :
    p ∈ interiorCoords w h ↔
      1 ≤ p.x ∧ p.x < w - 1 ∧ 1 ≤ p.y ∧ p.y < h - 1 := by
  cases p with
  | mk px py =>
    simp only [interiorCoords, List.mem_flatMap, List.mem_map, List.mem_range]
    constructor
    · rintro ⟨y, ⟨y0, hy0, rfl⟩, x, ⟨x0, hx0, rfl⟩, hxy⟩
      cases hxy
      refine ⟨by omega, by omega, by omega, by omega⟩
    · rintro ⟨h1, h2, h3, h4⟩
      exact ⟨py, ⟨py - 1, by omega, by omega⟩, px, ⟨px - 1, by omega, by omega⟩, rfl⟩

/-- A distance-table sentinel certifies unreachability. -/
theorem bfs_sentinel_unreachable {grid : Grid} {w h : Nat} {gate : Bool}
    {start p : Pos} (hx : start.x < w) (hy : start.y < h)
    (hs : distAt (bfs_distance grid w h start gate) p = -1) :
    ¬ ghostReach grid w h gate start p := by
  rintro ⟨n, hpath⟩
  exact bfsInv_complete (bfs_distance_inv grid w h gate start hx hy) n p hpath hs

/-- Core connectivity argument: if the repair's final flood covers every
interior walkable non-pen tile, any two such tiles reach each other through
player-passable tiles. -/
theorem repair_flood_connects (grid : Grid) (w h : Nat) (pen : PenBounds)
    (s : Pos) (hfs : find_start grid w h pen = some s)
    (hnu : has_unreachable grid w h pen (flood grid w h pen s) = false)
    (p q : Pos)
    (hp1 : 1 ≤ p.x) (hp2 : p.x < w - 1) (hp3 : 1 ≤ p.y) (hp4 : p.y < h - 1)
    (hq1 : 1 ≤ q.x) (hq2 : q.x < w - 1) (hq3 : 1 ≤ q.y) (hq4 : q.y < h - 1)
    (hpw : is_walkable_for_player grid pen p = true)
    (hqw : is_walkable_for_player grid pen q = true) :
    ghostReach grid w h false p q ∧ ghostReach grid w h false q p := by
  have hsmem := List.mem_of_find?_eq_some hfs
  have hsw := List.find?_some hfs
  obtain ⟨hs1, hs2, hs3, hs4⟩ := mem_interiorCoords.mp hsmem
  have hseen : ∀ x : Pos, x ∈ interiorCoords w h →
      is_walkable_for_player grid pen x = true →
      seenAt (flood grid w h pen s) x = true := by
    intro x hxm hxw
    by_contra hc
    have hfalse : seenAt (flood grid w h pen s) x = false := by
      cases hv : seenAt (flood grid w h pen s) x
      · rfl
      · exact absurd hv hc
    have htrue : has_unreachable grid w h pen (flood grid w h pen s) = true := by
      simp only [has_unreachable, List.any_eq_true]
      exact ⟨x, hxm, by rw [hxw, hfalse]; rfl⟩
    rw [hnu] at htrue
    exact Bool.false_ne_true htrue
  have hreachp : floodReach grid w h pen s p :=
    flood_sound (by omega) (by omega) p
      (hseen p (mem_interiorCoords.mpr ⟨hp1, hp2, hp3, hp4⟩) hpw)
  have hreachq : floodReach grid w h pen s q :=
    flood_sound (by omega) (by omega) q
      (hseen q (mem_interiorCoords.mpr ⟨hq1, hq2, hq3, hq4⟩) hqw)
  obtain ⟨np, hnp⟩ := hreachp
  obtain ⟨nq, hnq⟩ := hreachq
  have hps : floodPathN grid w h pen p np s :=
    floodPathN_reverse hs1 hs2 hs3 hs4 hsw hnp
  have hqs : floodPathN grid w h pen q nq s :=
    floodPathN_reverse hs1 hs2 hs3 hs4 hsw hnq
  constructor
  · exact ⟨nq + np, floodPathN_to_ghost (floodPathN_append hps hnq)⟩
  · exact ⟨np + nq, floodPathN_to_ghost (floodPathN_append hqs hnp)⟩

set_option maxRecDepth 8000 in
/-- C1 (counterexample): width 11, height 9 are odd and host the minimum pen
(9 by 5) plus a one-tile border, yet the generated maze has two player-passable
tiles outside the pen bounds — ⟨1,1⟩ above the pen and ⟨1,7⟩ below it — that
cannot reach each other through player-passable tiles: the pen spans the whole
interior width, its walls may not be carved by the repair pass, and the gate is
not player-passable. -/
theorem C1_counterexample :
    (11 % 2 = 1 ∧ 9 % 2 = 1 ∧ PEN_W + 2 ≤ 11 ∧ PEN_H + 2 ≤ 9) ∧
    is_walkable_for_player (generate_maze rng0 11 9).1.1
      (generate_maze rng0 11 9).1.2.2.2 ⟨1, 1⟩ = true ∧
    is_walkable_for_player (generate_maze rng0 11 9).1.1
      (generate_maze rng0 11 9).1.2.2.2 ⟨1, 7⟩ = true ∧
    ¬ ghostReach (generate_maze rng0 11 9).1.1 11 9 false ⟨1, 1⟩ ⟨1, 7⟩ := by
  refine ⟨by decide, by decide, by decide, ?_⟩
  exact bfs_sentinel_unreachable (by decide) (by decide) (by decide)

/-- C1: amended claim. Whenever the maze produced by `generate_maze` passes
its own reachability check — `find_start` finds a start tile and
`has_unreachable` on the flood from it reports false — every two interior
player-passable tiles are mutually reachable through player-passable tiles
(ghost steps with the gate closed coincide with player steps). The original
universally quantified claim fails at dimensions whose pen spans the whole
interior width, e.g. 11 by 9. -/
theorem C1_maze_connectivity
    (rng : Rng) (width height : Nat) (grid : Grid) (pellets : Nat)
    (spawns : List Pos) (pen : PenBounds) (rng2 : Rng) (s p q : Pos)
    (hgen : generate_maze rng width height = ((grid, pellets, spawns, pen), rng2))
    (hfs : find_start grid width height pen = some s)
    (hnu : has_unreachable grid width height pen
      (flood grid width height pen s) = false)
    (hp : p ∈ interiorCoords width height)
    (hq : q ∈ interiorCoords width height)
    (hpw : is_walkable_for_player grid pen p = true)
    (hqw : is_walkable_for_player grid pen q = true) :
    ghostReach grid width height false p q ∧
      ghostReach grid width height false q p := by
  obtain ⟨hp1, hp2, hp3, hp4⟩ := mem_interiorCoords.mp hp
  obtain ⟨hq1, hq2, hq3, hq4⟩ := mem_interiorCoords.mp hq
  exact repair_flood_connects grid width height pen s hfs hnu p q
    hp1 hp2 hp3 hp4 hq1 hq2 hq3 hq4 hpw hqw

set_option maxRecDepth 8000 in
theorem C1_witness :
    ghostReach (generate_maze rng0 13 9).1.1 13 9 false ⟨1, 1⟩ ⟨11, 7⟩ ∧
    ghostReach (generate_maze rng0 13 9).1.1 13 9 false ⟨11, 7⟩ ⟨1, 1⟩ :=
  C1_maze_connectivity rng0 13 9 (generate_maze rng0 13 9).1.1
    (generate_maze rng0 13 9).1.2.1 (generate_maze rng0 13 9).1.2.2.1
    (generate_maze rng0 13 9).1.2.2.2 (generate_maze rng0 13 9).2
    ⟨1, 1⟩ ⟨1, 1⟩ ⟨11, 7⟩ rfl (by decide) (by decide) (by decide) (by decide)
    (by decide) (by decide)

/-! ## Pellet accounting: counting Pellet and Power tiles -/

/-- Does a tile count toward `pellets_left`? -/
def isPP (t : Tile) : Bool := t == Tile.Pellet || t == Tile.Power

/-- The number of `Pellet`/`Power` tiles of a grid. -/
def countPP (grid : Grid) : Nat :=
  (grid.map (fun row => row.countP isPP)).sum

theorem countP_set_eq {α : Type _} (f : α → Bool) (v d : α) :
    ∀ (l : List α) (i : Nat), i < l.length →
      (l.set i v).countP f + (if f (l.getD i d) then 1 else 0)
        = l.countP f + (if f v then 1 else 0) := by
  intro l
  induction l with
  | nil =>
    intro i hi
    simp at hi
  | cons a t ih =>
    intro i hi
    cases i with
    | zero =>
      simp only [List.set_cons_zero, List.countP_cons, List.getD_cons_zero]
      omega
    | succ n =>
      have hn : n < t.length := by simpa using hi
      have hrec := ih n hn
      simp only [List.set_cons_succ, List.countP_cons, List.getD_cons_succ]
      omega

theorem sum_map_set {α : Type _} (f : α → Nat) (v d : α) :
    ∀ (l : List α) (i : Nat), i < l.length →
      ((l.set i v).map f).sum + f (l.getD i d) = (l.map f).sum + f v := by
  intro l
  induction l with
  | nil =>
    intro i hi
    simp at hi
  | cons a t ih =>
    intro i hi
    cases i with
    | zero =>
      simp only [List.set_cons_zero, List.map_cons, List.sum_cons,
        List.getD_cons_zero]
      omega
    | succ n =>
      have hn : n < t.length := by simpa using hi
      have hrec := ih n hn
      simp only [List.set_cons_succ, List.map_cons, List.sum_cons,
        List.getD_cons_succ]
      omega

theorem tileAt_setTile_ne (g : Grid) {p q : Pos} (t : Tile) (hne : q ≠ p) :
    tileAt (setTile g p t) q = tileAt g q :=
  at2_set2_ne g Tile.Wall t hne

theorem tileAt_setTile_self {g : Grid} {w h : Nat} (hs : shape2 g w h) (p : Pos)
    (t : Tile) (hx : p.x < w) (hy : p.y < h) :
    tileAt (setTile g p t) p = t :=
  at2_set2_self Tile.Wall p t hs hx hy

/-- A write leaves any tile either unchanged or equal to the written value,
with no bounds assumptions. -/
theorem tileAt_setTile_or (g : Grid) (p q : Pos) (t : Tile) :
    tileAt (setTile g p t) q = tileAt g q ∨ tileAt (setTile g p t) q = t := by
  by_cases hq : q = p
  · subst hq
    by_cases hylen : q.y < g.length
    · by_cases hxlen : q.x < (g.getD q.y []).length
      · right
        rw [tileAt, setTile, listGetD_set_self _ _ _ _ hylen,
          listGetD_set_self _ _ _ _ hxlen]
      · left
        rw [tileAt, setTile, listGetD_set_self _ _ _ _ hylen,
          List.set_eq_of_length_le (by omega), tileAt]
    · left
      rw [tileAt, setTile, List.set_eq_of_length_le (by omega), tileAt]
  · left
    exact tileAt_setTile_ne g t hq

/-- Exchange law for the pellet count across a single in-bounds write. -/
theorem countPP_setTile {g : Grid} {w h : Nat} (hs : shape2 g w h) (p : Pos)
    (t : Tile) (hx : p.x < w) (hy : p.y < h) :
    countPP (setTile g p t) + (if isPP (tileAt g p) then 1 else 0)
      = countPP g + (if isPP t then 1 else 0) := by
  obtain ⟨hl, hr⟩ := hs
  have hylen : p.y < g.length := by omega
  have hxlen : p.x < (g.getD p.y []).length := by rw [hr p.y hy]; omega
  have hrow := countP_set_eq isPP t Tile.Wall (g.getD p.y []) p.x hxlen
  have hsum := sum_map_set (fun row => row.countP isPP)
    ((g.getD p.y []).set p.x t) [] g p.y hylen
  dsimp only at hsum
  rw [countPP, setTile, countPP, tileAt]
  omega

/-- No `Pellet`/`Power` tile anywhere. -/
def noPP (g : Grid) : Prop := ∀ p : Pos, isPP (tileAt g p) = false

theorem countPP_eq_zero {g : Grid} (hn : noPP g) : countPP g = 0 := by
  rw [countPP]
  apply List.sum_eq_zero
  intro n hmem
  rw [List.mem_map] at hmem
  obtain ⟨row, hrow, rfl⟩ := hmem
  rw [List.countP_eq_zero]
  intro a ha
  obtain ⟨y, hy, hgy⟩ := List.mem_iff_getElem.mp hrow
  obtain ⟨x, hx, hax⟩ := List.mem_iff_getElem.mp ha
  have hval := hn ⟨x, y⟩
  rw [tileAt] at hval
  have hrowD : g.getD y [] = row := by
    rw [List.getD_eq_getElem?_getD, List.getElem?_eq_getElem hy, hgy]
    rfl
  have haD : row.getD x Tile.Wall = a := by
    rw [List.getD_eq_getElem?_getD, List.getElem?_eq_getElem hx, hax]
    rfl
  rw [hrowD, haD] at hval
  simp [hval]

/-! ## Pen geometry facts -/

theorem pen_bounds_facts {w h : Nat} (hw : 5 ≤ w) (hh : 5 ≤ h) :
    1 ≤ (pen_bounds w h).1 ∧
    (pen_bounds w h).1 + 2 ≤ (pen_bounds w h).2.2.1 ∧
    (pen_bounds w h).2.2.1 ≤ w - 2 ∧
    1 ≤ (pen_bounds w h).2.1 ∧
    (pen_bounds w h).2.1 + 2 ≤ (pen_bounds w h).2.2.2 ∧
    (pen_bounds w h).2.2.2 ≤ h - 2 := by
  simp only [pen_bounds, PEN_W, PEN_H]
  split_ifs <;> omega

theorem mem_penCoords {x0 y0 x1 y1 : Nat} {p : Pos} :
    p ∈ penCoords x0 y0 x1 y1 ↔
      x0 ≤ p.x ∧ p.x ≤ x1 ∧ y0 ≤ p.y ∧ p.y ≤ y1 := by
  cases p with
  | mk px py =>
    simp only [penCoords, List.mem_flatMap, List.mem_map, List.mem_range]
    constructor
    · rintro ⟨y, ⟨y0v, hy0v, rfl⟩, x, ⟨x0v, hx0v, rfl⟩, hxy⟩
      cases hxy
      refine ⟨by omega, by omega, by omega, by omega⟩
    · rintro ⟨h1, h2, h3, h4⟩
      exact ⟨py, ⟨py - y0, by omega, by omega⟩, px, ⟨px - x0, by omega, by omega⟩, rfl⟩

theorem nodup_penCoords (x0 y0 x1 y1 : Nat) : (penCoords x0 y0 x1 y1).Nodup := by
  rw [penCoords, List.nodup_flatMap]
  constructor
  · intro y _
    refine (((List.nodup_range _).map ?_).map ?_)
    · intro a b hab
      dsimp only at hab
      omega
    · intro a b hab
      exact congrArg Pos.x hab
  · refine List.Nodup.pairwise_of_forall_ne ((List.nodup_range _).map ?_) ?_
    · intro a b hab
      dsimp only at hab
      omega
    · intro a _ b _ hab
      intro p hpa hpb
      simp only [Function.onFun, List.mem_map, List.mem_range] at hpa hpb
      obtain ⟨xa, _, rfl⟩ := hpa
      obtain ⟨xb, _, heq⟩ := hpb
      exact hab (congrArg Pos.y heq).symm

theorem nodup_interiorCoords (w h : Nat) : (interiorCoords w h).Nodup := by
  rw [interiorCoords, List.nodup_flatMap]
  constructor
  · intro y _
    refine (((List.nodup_range _).map ?_).map ?_)
    · intro a b hab
      dsimp only at hab
      omega
    · intro a b hab
      exact congrArg Pos.x hab
  · refine List.Nodup.pairwise_of_forall_ne ((List.nodup_range _).map ?_) ?_
    · intro a b hab
      dsimp only at hab
      omega
    · intro a _ b _ hab
      intro p hpa hpb
      simp only [Function.onFun, List.mem_map, List.mem_range] at hpa hpb
      obtain ⟨xa, _, rfl⟩ := hpa
      obtain ⟨xb, _, heq⟩ := hpb
      exact hab (congrArg Pos.y heq).symm

/-! ## Preservation lemmas for the carving passes -/

theorem foldl_pres {α β : Type _} (f : β → α → β) (P : β → Prop)
    (hstep : ∀ b a, P b → P (f b a)) :
    ∀ (l : List α) (b : β), P b → P (l.foldl f b)
  | [], _, hb => hb
  | a :: l, b, hb => foldl_pres f P hstep l (f b a) (hstep b a hb)

theorem mazeLoop_pres {cw ch : Nat} (P : Grid → Prop)
    (hset : ∀ (g : Grid) (p : Pos), P g → P (setTile g p Tile.Empty)) :
    ∀ (fuel : Nat) (g : Grid) (im : BoolGrid) (fr : List (Nat × Nat)) (rng : Rng),
      P g → P (mazeLoop cw ch fuel g im fr rng).1
  | 0, _, _, _, _, hP => hP
  | fuel + 1, g, im, fr, rng, hP => by
    rw [mazeLoop]
    split
    · exact hP
    · rcases hE : rng.genRange0 fr.length with ⟨idx, rng1⟩
      dsimp only
      split
      · exact mazeLoop_pres P hset fuel g im _ rng1 hP
      · split
        · exact mazeLoop_pres P hset fuel g im _ rng1 hP
        · rcases hC : rng1.choose
            (treeNeighbors (fr.getD idx (0, 0)).1 (fr.getD idx (0, 0)).2 cw ch im)
            with ⟨nOpt, rng2⟩
          dsimp only
          exact mazeLoop_pres P hset fuel _ _ _ rng2 (hset _ _ (hset _ _ hP))

theorem braidCell_pres {cw ch : Nat} (P : Grid → Prop)
    (hset : ∀ (g : Grid) (p : Pos), P g → P (setTile g p Tile.Empty))
    (st : Grid × Rng) (c : Nat × Nat) (hP : P st.1) :
    P (braidCell cw ch st c).1 := by
  rcases st with ⟨g, rng⟩
  rw [braidCell]
  dsimp only
  split
  · rcases hE : rng.genBelowPct BRAID_CHANCE_PCT with ⟨draw, rng1⟩
    dsimp only
    split
    · rcases hC : rng1.choose (cell_closed_neighbors g c.1 c.2 cw ch)
        with ⟨dOpt, rng2⟩
      exact hset _ _ (hset _ _ hP)
    · rcases hE2 : rng1.genBelowPct EXTRA_OPENINGS_PCT with ⟨draw2, rng2⟩
      dsimp only
      split
      · rcases hC : rng2.choose (cell_closed_neighbors g c.1 c.2 cw ch)
          with ⟨dOpt, rng3⟩
        exact hset _ _ (hset _ _ hP)
      · exact hP
  · split
    · rcases hE2 : rng.genBelowPct EXTRA_OPENINGS_PCT with ⟨draw2, rng2⟩
      dsimp only
      split
      · rcases hC : rng2.choose (cell_closed_neighbors g c.1 c.2 cw ch)
          with ⟨dOpt, rng3⟩
        exact hset _ _ (hset _ _ hP)
      · exact hP
    · exact hP

theorem braid_maze_pres {cw ch : Nat} (P : Grid → Prop)
    (hset : ∀ (g : Grid) (p : Pos), P g → P (setTile g p Tile.Empty))
    (g : Grid) (rng : Rng) (hP : P g) : P (braid_maze g cw ch rng).1 := by
  rw [braid_maze]
  exact foldl_pres _ (fun st => P st.1)
    (fun st c h => braidCell_pres P hset st c h) _ (g, rng) hP

theorem corridorCarve_pres (x : Nat) (P : Grid → Prop)
    (hset : ∀ (g : Grid) (y : Nat), tileAt g ⟨x, y⟩ = Tile.Wall →
      P g → P (setTile g ⟨x, y⟩ Tile.Empty)) :
    ∀ (ys : Nat) (g : Grid), P g → P (corridorCarve x ys g)
  | 0, _, hP => hP
  | y + 1, g, hP => by
    rw [corridorCarve]
    split
    · exact hP
    · rename_i hcond
      have hw : tileAt g ⟨x, y + 1⟩ = Tile.Wall := by
        simpa using hcond
      exact corridorCarve_pres x P hset y _ (hset g (y + 1) hw hP)

theorem ensureLoop_pres {w h : Nat} {pen : PenBounds} {start : Pos}
    (P : Grid → Prop)
    (hset : ∀ (g : Grid) (p : Pos), tileAt g p = Tile.Wall →
      is_pen_wall p pen = false → P g → P (setTile g p Tile.Empty)) :
    ∀ (fuel : Nat) (g : Grid) (reach : BoolGrid),
      P g → P (ensureLoop w h pen start fuel g reach)
  | 0, _, _, hP => hP
  | fuel + 1, g, reach, hP => by
    rw [ensureLoop]
    split
    · rcases hR : repairScan g w h pen reach with _ | p
      · exact hP
      · have hpred := List.find?_some hR
        simp only [Bool.and_eq_true, decide_eq_true_eq, Bool.not_eq_true'] at hpred
        exact ensureLoop_pres P hset fuel _ _
          (hset g p hpred.1.1.1 hpred.1.1.2 hP)
    · exact hP

theorem ensure_connected_pres {w h : Nat} {pen : PenBounds} (P : Grid → Prop)
    (hset : ∀ (g : Grid) (p : Pos), tileAt g p = Tile.Wall →
      is_pen_wall p pen = false → P g → P (setTile g p Tile.Empty))
    (g : Grid) (hP : P g) : P (ensure_connected g w h pen) := by
  rw [ensure_connected]
  rcases hF : find_start g w h pen with _ | s
  · exact hP
  · exact ensureLoop_pres P hset _ _ _ hP

theorem noPP_setTile {g : Grid} (hn : noPP g) (p : Pos) {t : Tile}
    (ht : isPP t = false) : noPP (setTile g p t) := by
  intro q
  rcases tileAt_setTile_or g p q t with h2 | h2
  · rw [h2]
    exact hn q
  · rw [h2]
    exact ht

theorem penStep_grid (x0 y0 x1 y1 : Nat) (st : Grid × List Pos × List Pos)
    (p : Pos) :
    (penStep x0 y0 x1 y1 st p).1 =
      setTile st.1 p
        (if p.y = y0 ∨ p.y = y1 ∨ p.x = x0 ∨ p.x = x1 then Tile.Wall
         else Tile.Empty) := by
  rw [penStep]
  split
  · rename_i hcond
    simp only [Bool.or_eq_true, decide_eq_true_eq] at hcond
    rw [if_pos (by tauto)]
  · rename_i hcond
    simp only [Bool.or_eq_true, decide_eq_true_eq] at hcond
    rw [if_neg (by tauto)]

/-- Where each tile of the pen rectangle pass ends up: processed coordinates
get `Wall` on the ring and `Empty` inside, all others keep their tile. -/
theorem penFold_tile {x0 y0 x1 y1 w h : Nat} :
    ∀ (L : List Pos) (st : Grid × List Pos × List Pos),
      (∀ r ∈ L, r.x < w ∧ r.y < h) → shape2 st.1 w h →
      shape2 (L.foldl (penStep x0 y0 x1 y1) st).1 w h ∧
      ∀ q : Pos,
        tileAt (L.foldl (penStep x0 y0 x1 y1) st).1 q =
          if q ∈ L then
            (if q.y = y0 ∨ q.y = y1 ∨ q.x = x0 ∨ q.x = x1 then Tile.Wall
             else Tile.Empty)
          else tileAt st.1 q
  | [], st, _, hs => ⟨hs, by intro q; simp⟩
  | p :: L, st, hb, hs => by
    have hpb := hb p (List.mem_cons_self _ _)
    have hb2 : ∀ r ∈ L, r.x < w ∧ r.y < h :=
      fun r hr => hb r (List.mem_cons_of_mem _ hr)
    have hs2 : shape2 (penStep x0 y0 x1 y1 st p).1 w h := by
      rw [penStep_grid]
      exact shape2_set2 _ _ hs
    obtain ⟨hsO, hIH⟩ := penFold_tile L (penStep x0 y0 x1 y1 st p) hb2 hs2
    rw [List.foldl_cons]
    refine ⟨hsO, ?_⟩
    intro q
    rw [hIH q]
    by_cases hqL : q ∈ L
    · rw [if_pos hqL, if_pos (List.mem_cons_of_mem _ hqL)]
    · rw [if_neg hqL, penStep_grid]
      by_cases hqp : q = p
      · subst hqp
        rw [tileAt_setTile_self hs _ _ hpb.1 hpb.2,
          if_pos (List.mem_cons_self _ _)]
      · rw [tileAt_setTile_ne _ _ hqp,
          if_neg (by simp only [List.mem_cons]; tauto)]

/-- The `pen_all` accumulator collects exactly the processed non-ring
coordinates, in order. -/
theorem penFold_snd (x0 y0 x1 y1 : Nat) :
    ∀ (L : List Pos) (st : Grid × List Pos × List Pos),
      (L.foldl (penStep x0 y0 x1 y1) st).2.1 =
        st.2.1 ++ L.filter
          (fun p => !(decide (p.y = y0) || decide (p.y = y1) ||
            decide (p.x = x0) || decide (p.x = x1)))
  | [], st => by simp
  | p :: L, st => by
    rw [List.foldl_cons, penFold_snd x0 y0 x1 y1 L]
    rw [penStep]
    split
    · rename_i hcond
      rw [List.filter_cons_of_neg (by simp [hcond])]
    · rename_i hcond
      rw [List.filter_cons_of_pos
        (by simp only [Bool.not_eq_true] at hcond; simp [hcond])]
      simp

theorem corridorCarve_pres_le (x : Nat) (P : Grid → Prop) :
    ∀ (ys : Nat),
      (∀ (g : Grid) (y : Nat), 1 ≤ y → y ≤ ys → tileAt g ⟨x, y⟩ = Tile.Wall →
        P g → P (setTile g ⟨x, y⟩ Tile.Empty)) →
      ∀ (g : Grid), P g → P (corridorCarve x ys g)
  | 0, _, _, hP => hP
  | y + 1, hset, g, hP => by
    rw [corridorCarve]
    split
    · exact hP
    · rename_i hcond
      have hw2 : tileAt g ⟨x, y + 1⟩ = Tile.Wall := by simpa using hcond
      exact corridorCarve_pres_le x P y
        (fun g2 y2 h1 h2 hw3 hP2 => hset g2 y2 h1 (by omega) hw3 hP2)
        _ (hset g (y + 1) (by omega) (le_refl _) hw2 hP)

/-- Everything the pellet accounting needs to know about `carve_ghost_pen`:
shape, the returned bounds, the gate tile, ring walls, the emptied interior,
absence of pellet creation, gates only at the door, the untouched-or-carved
outside, and the contents of `pen_all`. -/
theorem carve_ghost_pen_spec {g : Grid} {w h x0 y0 x1 y1 : Nat}
    (hs : shape2 g w h) (hw : 5 ≤ w) (hh : 5 ≤ h)
    (hb : pen_bounds w h = (x0, y0, x1, y1)) :
    shape2 (carve_ghost_pen g w h).1 w h ∧
    (carve_ghost_pen g w h).2.2.2.2 = ⟨x0, y0, x1, y1⟩ ∧
    (carve_ghost_pen g w h).2.2.1 = ⟨(x0 + x1) / 2, y0⟩ ∧
    tileAt (carve_ghost_pen g w h).1 ⟨(x0 + x1) / 2, y0⟩ = Tile.Gate ∧
    (∀ q : Pos, q ≠ ⟨(x0 + x1) / 2, y0⟩ →
      x0 ≤ q.x → q.x ≤ x1 → y0 ≤ q.y → q.y ≤ y1 →
      (q.y = y0 ∨ q.y = y1 ∨ q.x = x0 ∨ q.x = x1) →
      tileAt (carve_ghost_pen g w h).1 q = Tile.Wall) ∧
    (∀ q : Pos, x0 < q.x → q.x < x1 → y0 < q.y → q.y < y1 →
      tileAt (carve_ghost_pen g w h).1 q = Tile.Empty) ∧
    (noPP g → noPP (carve_ghost_pen g w h).1) ∧
    (∀ q : Pos, q ≠ ⟨(x0 + x1) / 2, y0⟩ → tileAt g q ≠ Tile.Gate →
      tileAt (carve_ghost_pen g w h).1 q ≠ Tile.Gate) ∧
    (∀ q : Pos, ¬(x0 ≤ q.x ∧ q.x ≤ x1 ∧ y0 ≤ q.y ∧ q.y ≤ y1) →
      tileAt (carve_ghost_pen g w h).1 q = tileAt g q ∨
        tileAt (carve_ghost_pen g w h).1 q = Tile.Empty) ∧
    (∀ r : Pos, r ∈ (carve_ghost_pen g w h).2.1 ↔
      ((x0 < r.x ∧ r.x < x1 ∧ y0 < r.y ∧ r.y < y1) ∨
        r = ⟨(x0 + x1) / 2, y0⟩)) := by
  have hf := pen_bounds_facts hw hh
  rw [hb] at hf
  dsimp only at hf
  obtain ⟨hx0, hx01, hx1, hy0, hy01, hy1⟩ := hf
  have he : carve_ghost_pen g w h =
      (corridorCarve ((x0 + x1) / 2) (y0 - 1)
         (setTile ((penCoords x0 y0 x1 y1).foldl (penStep x0 y0 x1 y1)
            (g, [], [])).1 ⟨(x0 + x1) / 2, y0⟩ Tile.Gate),
       ((penCoords x0 y0 x1 y1).foldl (penStep x0 y0 x1 y1) (g, [], [])).2.1
         ++ [⟨(x0 + x1) / 2, y0⟩],
       (⟨(x0 + x1) / 2, y0⟩ : Pos),
       ((penCoords x0 y0 x1 y1).foldl (penStep x0 y0 x1 y1) (g, [], [])).2.2,
       (⟨x0, y0, x1, y1⟩ : PenBounds)) := by
    rw [carve_ghost_pen, hb]
  have hbounds : ∀ r ∈ penCoords x0 y0 x1 y1, r.x < w ∧ r.y < h := by
    intro r hr
    rw [mem_penCoords] at hr
    omega
  obtain ⟨hshF, htF⟩ :=
    @penFold_tile x0 y0 x1 y1 w h
      (penCoords x0 y0 x1 y1) (g, [], []) hbounds hs
  have hdx1 : x0 + 1 ≤ (x0 + x1) / 2 := by omega
  have hdx2 : (x0 + x1) / 2 ≤ x1 - 1 := by omega
  have hshG : shape2 (setTile ((penCoords x0 y0 x1 y1).foldl
      (penStep x0 y0 x1 y1) (g, [], [])).1 ⟨(x0 + x1) / 2, y0⟩ Tile.Gate) w h :=
    shape2_set2 _ _ hshF
  have hgate : tileAt (setTile ((penCoords x0 y0 x1 y1).foldl
      (penStep x0 y0 x1 y1) (g, [], [])).1 ⟨(x0 + x1) / 2, y0⟩ Tile.Gate)
      ⟨(x0 + x1) / 2, y0⟩ = Tile.Gate :=
    tileAt_setTile_self hshF _ _ (by dsimp only; omega) (by dsimp only; omega)
  rw [he]
  dsimp only
  refine ⟨?_, rfl, rfl, ?_, ?_, ?_, ?_, ?_, ?_, ?_⟩
  · exact corridorCarve_pres _ (fun g2 => shape2 g2 w h)
      (fun g2 y hw2 hP2 => shape2_set2 _ _ hP2) _ _ hshG
  · refine corridorCarve_pres _
      (fun g2 => tileAt g2 ⟨(x0 + x1) / 2, y0⟩ = Tile.Gate) ?_ _ _ hgate
    intro g2 y hw2 hP2
    have hne : (⟨(x0 + x1) / 2, y0⟩ : Pos) ≠ ⟨(x0 + x1) / 2, y⟩ := by
      intro hc
      rw [hc] at hP2
      rw [hP2] at hw2
      cases hw2
    rw [tileAt_setTile_ne _ _ hne]
    exact hP2
  · intro q hqd hq1 hq2 hq3 hq4 hring
    have hbase : tileAt (setTile ((penCoords x0 y0 x1 y1).foldl
        (penStep x0 y0 x1 y1) (g, [], [])).1 ⟨(x0 + x1) / 2, y0⟩ Tile.Gate) q
        = Tile.Wall := by
      rw [tileAt_setTile_ne _ _ hqd, htF q,
        if_pos (mem_penCoords.mpr ⟨hq1, hq2, hq3, hq4⟩), if_pos hring]
    refine corridorCarve_pres_le _ (fun g2 => tileAt g2 q = Tile.Wall) _ ?_ _ hbase
    intro g2 y h1 h2 hw2 hP2
    have hne : q ≠ ⟨(x0 + x1) / 2, y⟩ := by
      intro hc
      have : q.y = y := by rw [hc]
      omega
    rw [tileAt_setTile_ne _ _ hne]
    exact hP2
  · intro q hq1 hq2 hq3 hq4
    have hqd : q ≠ ⟨(x0 + x1) / 2, y0⟩ := by
      intro hc
      have : q.y = y0 := by rw [hc]
      omega
    have hbase : tileAt (setTile ((penCoords x0 y0 x1 y1).foldl
        (penStep x0 y0 x1 y1) (g, [], [])).1 ⟨(x0 + x1) / 2, y0⟩ Tile.Gate) q
        = Tile.Empty := by
      rw [tileAt_setTile_ne _ _ hqd, htF q,
        if_pos (mem_penCoords.mpr ⟨by omega, by omega, by omega, by omega⟩),
        if_neg (by omega)]
    refine corridorCarve_pres _ (fun g2 => tileAt g2 q = Tile.Empty) ?_ _ _ hbase
    intro g2 y hw2 hP2
    have hne : q ≠ ⟨(x0 + x1) / 2, y⟩ := by
      intro hc
      rw [← hc] at hw2
      rw [hP2] at hw2
      cases hw2
    rw [tileAt_setTile_ne _ _ hne]
    exact hP2
  · intro hnp
    have hfoldPP : noPP ((penCoords x0 y0 x1 y1).foldl
        (penStep x0 y0 x1 y1) (g, [], [])).1 := by
      refine foldl_pres (penStep x0 y0 x1 y1)
        (fun st => noPP st.1) ?_ _ _ hnp
      intro st p hPP
      rw [penStep_grid]
      refine noPP_setTile hPP _ ?_
      split <;> rfl
    have hgatePP : noPP (setTile ((penCoords x0 y0 x1 y1).foldl
        (penStep x0 y0 x1 y1) (g, [], [])).1 ⟨(x0 + x1) / 2, y0⟩ Tile.Gate) :=
      noPP_setTile hfoldPP _ rfl
    exact corridorCarve_pres _ noPP
      (fun g2 y hw2 hP2 => noPP_setTile hP2 _ rfl) _ _ hgatePP
  · intro q hqd hqg
    have hbase : tileAt (setTile ((penCoords x0 y0 x1 y1).foldl
        (penStep x0 y0 x1 y1) (g, [], [])).1 ⟨(x0 + x1) / 2, y0⟩ Tile.Gate) q
        ≠ Tile.Gate := by
      rw [tileAt_setTile_ne _ _ hqd, htF q]
      split
      · split <;> intro hc <;> cases hc
      · exact hqg
    refine corridorCarve_pres _ (fun g2 => tileAt g2 q ≠ Tile.Gate) ?_ _ _ hbase
    intro g2 y hw2 hP2
    rcases tileAt_setTile_or g2 ⟨(x0 + x1) / 2, y⟩ q Tile.Empty with h2 | h2
    · rw [h2]
      exact hP2
    · rw [h2]
      intro hc
      cases hc
  · intro q hqout
    have hqd : q ≠ ⟨(x0 + x1) / 2, y0⟩ := by
      intro hc
      refine hqout ?_
      rw [hc]
      refine ⟨by dsimp only; omega, by dsimp only; omega, le_refl _, ?_⟩
      dsimp only
      omega
    have hbase : tileAt (setTile ((penCoords x0 y0 x1 y1).foldl
        (penStep x0 y0 x1 y1) (g, [], [])).1 ⟨(x0 + x1) / 2, y0⟩ Tile.Gate) q
        = tileAt g q := by
      rw [tileAt_setTile_ne _ _ hqd, htF q,
        if_neg (fun hc => hqout (by
          have := mem_penCoords.mp hc
          exact ⟨this.1, this.2.1, this.2.2.1, this.2.2.2⟩))]
    refine corridorCarve_pres _
      (fun g2 => tileAt g2 q = tileAt g q ∨ tileAt g2 q = Tile.Empty) ?_ _ _
      (Or.inl hbase)
    intro g2 y hw2 hP2
    rcases tileAt_setTile_or g2 ⟨(x0 + x1) / 2, y⟩ q Tile.Empty with h2 | h2
    · rw [h2]
      exact hP2
    · exact Or.inr h2
  · intro r
    rw [List.mem_append, List.mem_singleton,
      penFold_snd x0 y0 x1 y1 (penCoords x0 y0 x1 y1) (g, [], [])]
    simp only [List.nil_append, List.mem_filter, mem_penCoords,
      Bool.not_eq_eq_eq_not, Bool.not_true, Bool.or_eq_false_iff,
      decide_eq_false_iff_not]
    constructor
    · rintro (⟨⟨hb1, hb2, hb3, hb4⟩, hnr⟩ | hdoor)
      · left
        omega
      · right
        exact hdoor
    · rintro (⟨h1, h2, h3, h4⟩ | hdoor)
      · left
        exact ⟨⟨by omega, by omega, by omega, by omega⟩,
          ⟨⟨⟨by omega, by omega⟩, by omega⟩, by omega⟩⟩
      · right
        exact hdoor

/-- Shape and counter bookkeeping of the pellet placement loop: the counter
advances exactly once per tile it turns into a `Pellet`. -/
theorem pelletFold_count {w h : Nat} (pen_all : List Pos) :
    ∀ (L : List Pos) (st : Grid × Nat),
      (∀ r ∈ L, r.x < w ∧ r.y < h) → shape2 st.1 w h →
      shape2 (L.foldl (pelletStep pen_all) st).1 w h ∧
      countPP (L.foldl (pelletStep pen_all) st).1 + st.2
        = countPP st.1 + (L.foldl (pelletStep pen_all) st).2
  | [], _, _, hs => ⟨hs, rfl⟩
  | p :: L, st, hb, hs => by
    have hpb := hb p (List.mem_cons_self _ _)
    have hb2 : ∀ r ∈ L, r.x < w ∧ r.y < h :=
      fun r hr => hb r (List.mem_cons_of_mem _ hr)
    rw [List.foldl_cons, pelletStep]
    split
    · rename_i hcond
      simp only [Bool.and_eq_true, decide_eq_true_eq, Bool.not_eq_true'] at hcond
      have hsset : shape2 (setTile st.1 p Tile.Pellet) w h := shape2_set2 _ _ hs
      obtain ⟨hshO, hcnt⟩ := pelletFold_count pen_all L
        (setTile st.1 p Tile.Pellet, st.2 + 1) hb2 hsset
      refine ⟨hshO, ?_⟩
      have hx := countPP_setTile hs p Tile.Pellet hpb.1 hpb.2
      rw [hcond.1] at hx
      simp only [isPP] at hx hcnt ⊢
      simp at hx
      omega
    · exact pelletFold_count pen_all L st hb2 hs

/-- Per-tile effect of the pellet placement loop. -/
theorem pelletFold_tile {w h : Nat} (pen_all : List Pos) :
    ∀ (L : List Pos) (st : Grid × Nat), L.Nodup →
      (∀ r ∈ L, r.x < w ∧ r.y < h) → shape2 st.1 w h →
      ∀ q : Pos,
        tileAt (L.foldl (pelletStep pen_all) st).1 q =
          if q ∈ L ∧ tileAt st.1 q = Tile.Empty ∧ pen_all.contains q = false
          then Tile.Pellet else tileAt st.1 q
  | [], _, _, _, _, q => by simp
  | p :: L, st, hnd, hb, hs, q => by
    have hpb := hb p (List.mem_cons_self _ _)
    have hb2 : ∀ r ∈ L, r.x < w ∧ r.y < h :=
      fun r hr => hb r (List.mem_cons_of_mem _ hr)
    have hnd2 := (List.nodup_cons.mp hnd).2
    have hpL := (List.nodup_cons.mp hnd).1
    rw [List.foldl_cons, pelletStep]
    split
    · rename_i hcond
      simp only [Bool.and_eq_true, decide_eq_true_eq, Bool.not_eq_true'] at hcond
      have hsset : shape2 (setTile st.1 p Tile.Pellet) w h := shape2_set2 _ _ hs
      have hIH := pelletFold_tile pen_all L
        (setTile st.1 p Tile.Pellet, st.2 + 1) hnd2 hb2 hsset q
      rw [hIH]
      by_cases hqp : q = p
      · subst hqp
        rw [tileAt_setTile_self hs _ _ hpb.1 hpb.2]
        rw [if_neg (by rintro ⟨-, hc, -⟩; cases hc),
          if_pos ⟨List.mem_cons_self _ _, hcond.1, hcond.2⟩]
      · rw [tileAt_setTile_ne _ _ hqp]
        by_cases hqL : q ∈ L ∧ tileAt st.1 q = Tile.Empty ∧
            pen_all.contains q = false
        · rw [if_pos hqL, if_pos ⟨List.mem_cons_of_mem _ hqL.1, hqL.2⟩]
        · rw [if_neg hqL, if_neg (by
            rintro ⟨hm, h2, h3⟩
            rcases List.mem_cons.mp hm with hc | hm2
            · exact hqp hc
            · exact hqL ⟨hm2, h2, h3⟩)]
    · rename_i hcond
      have hIH := pelletFold_tile pen_all L st hnd2 hb2 hs q
      rw [hIH]
      by_cases hqL : q ∈ L ∧ tileAt st.1 q = Tile.Empty ∧
          pen_all.contains q = false
      · rw [if_pos hqL, if_pos ⟨List.mem_cons_of_mem _ hqL.1, hqL.2⟩]
      · rw [if_neg hqL, if_neg (by
          rintro ⟨hm, h2, h3⟩
          rcases List.mem_cons.mp hm with hc | hm2
          · refine hcond ?_
            subst hc
            simp only [Bool.and_eq_true, decide_eq_true_eq, Bool.not_eq_true']
            exact ⟨h2, h3⟩
          · exact hqL ⟨hm2, h2, h3⟩)]

/-- The power-pellet pass keeps the pellet count provided every spot is
already counted or is a wall; tiles off the spot list are untouched. -/
theorem powerFold_count {w h : Nat} :
    ∀ (L : List Pos) (g : Grid),
      (∀ s ∈ L, s.x < w ∧ s.y < h) → shape2 g w h →
      (∀ s ∈ L, isPP (tileAt g s) = true ∨ tileAt g s = Tile.Wall) →
      shape2 (L.foldl powerStep g) w h ∧
      countPP (L.foldl powerStep g) = countPP g ∧
      (∀ q : Pos, q ∉ L → tileAt (L.foldl powerStep g) q = tileAt g q)
  | [], _, _, hs, _ => ⟨hs, rfl, fun _ _ => rfl⟩
  | p :: L, g, hb, hs, hspots => by
    have hpb := hb p (List.mem_cons_self _ _)
    have hb2 : ∀ s ∈ L, s.x < w ∧ s.y < h :=
      fun s hsm => hb s (List.mem_cons_of_mem _ hsm)
    rw [List.foldl_cons, powerStep]
    split
    · rename_i hcond
      simp only [bne_iff_ne, ne_eq] at hcond
      have hPP : isPP (tileAt g p) = true := by
        rcases hspots p (List.mem_cons_self _ _) with hy | hy
        · exact hy
        · exact absurd hy hcond
      have hsset : shape2 (setTile g p Tile.Power) w h := shape2_set2 _ _ hs
      have hcnt : countPP (setTile g p Tile.Power) = countPP g := by
        have hx := countPP_setTile hs p Tile.Power hpb.1 hpb.2
        rw [hPP] at hx
        simp only [isPP] at hx
        simp at hx
        omega
      have hspots2 : ∀ s ∈ L, isPP (tileAt (setTile g p Tile.Power) s) = true ∨
          tileAt (setTile g p Tile.Power) s = Tile.Wall := by
        intro s hsm
        rcases tileAt_setTile_or g p s Tile.Power with h2 | h2
        · rw [h2]
          exact hspots s (List.mem_cons_of_mem _ hsm)
        · rw [h2]
          left
          rfl
      obtain ⟨hshO, hcntO, hfr⟩ := powerFold_count L _ hb2 hsset hspots2
      refine ⟨hshO, by rw [hcntO, hcnt], ?_⟩
      intro q hq
      rw [hfr q (fun hc => hq (List.mem_cons_of_mem _ hc)),
        tileAt_setTile_ne _ _
          (fun hc => hq (by rw [hc]; exact List.mem_cons_self _ _))]
    · have hspots2 : ∀ s ∈ L, isPP (tileAt g s) = true ∨ tileAt g s = Tile.Wall :=
        fun s hsm => hspots s (List.mem_cons_of_mem _ hsm)
      obtain ⟨hshO, hcntO, hfr⟩ := powerFold_count L g hb2 hs hspots2
      exact ⟨hshO, hcntO, fun q hq => hfr q (fun hc => hq (List.mem_cons_of_mem _ hc))⟩

/-- The final pen re-clearing pass keeps the pellet count as long as the pen
cells hold no pellets. -/
theorem penClearFold_count {w h : Nat} :
    ∀ (L : List Pos) (g : Grid),
      (∀ r ∈ L, r.x < w ∧ r.y < h) → shape2 g w h →
      (∀ r ∈ L, tileAt g r = Tile.Wall ∨ tileAt g r = Tile.Empty ∨
        tileAt g r = Tile.Gate) →
      shape2 (L.foldl penClearStep g) w h ∧
      countPP (L.foldl penClearStep g) = countPP g
  | [], _, _, hs, _ => ⟨hs, rfl⟩
  | p :: L, g, hb, hs, halpha => by
    have hpb := hb p (List.mem_cons_self _ _)
    have hb2 : ∀ r ∈ L, r.x < w ∧ r.y < h :=
      fun r hr => hb r (List.mem_cons_of_mem _ hr)
    rw [List.foldl_cons, penClearStep]
    split
    · exact penClearFold_count L g hb2 hs
        (fun r hr => halpha r (List.mem_cons_of_mem _ hr))
    · rename_i hgate
      split
      · rename_i hcond
        simp only [bne_iff_ne, ne_eq] at hcond
        have hemp : tileAt g p = Tile.Empty := by
          rcases halpha p (List.mem_cons_self _ _) with hy | hy | hy
          · exact absurd hy hcond
          · exact hy
          · exact absurd hy hgate
        have hsset : shape2 (setTile g p Tile.Empty) w h := shape2_set2 _ _ hs
        have hcnt : countPP (setTile g p Tile.Empty) = countPP g := by
          have hx := countPP_setTile hs p Tile.Empty hpb.1 hpb.2
          rw [hemp] at hx
          simp only [isPP] at hx
          simp at hx
          omega
        have halpha2 : ∀ r ∈ L, tileAt (setTile g p Tile.Empty) r = Tile.Wall ∨
            tileAt (setTile g p Tile.Empty) r = Tile.Empty ∨
            tileAt (setTile g p Tile.Empty) r = Tile.Gate := by
          intro r hr
          rcases tileAt_setTile_or g p r Tile.Empty with h2 | h2
          · rw [h2]
            exact halpha r (List.mem_cons_of_mem _ hr)
          · rw [h2]
            right
            left
            rfl
        obtain ⟨hshO, hcntO⟩ := penClearFold_count L _ hb2 hsset halpha2
        exact ⟨hshO, by rw [hcntO, hcnt]⟩
      · exact penClearFold_count L g hb2 hs
          (fun r hr => halpha r (List.mem_cons_of_mem _ hr))

/-- Before the pen pass every tile is a wall or empty. -/
def alphabet2 (g : Grid) : Prop :=
  ∀ q : Pos, tileAt g q = Tile.Wall ∨ tileAt g q = Tile.Empty

theorem alphabet2_setTile {g : Grid} (h2 : alphabet2 g) (p : Pos) :
    alphabet2 (setTile g p Tile.Empty) := by
  intro q
  rcases tileAt_setTile_or g p q Tile.Empty with hx | hx
  · rw [hx]
    exact h2 q
  · rw [hx]
    right
    rfl

theorem noPP_of_alphabet2 {g : Grid} (h2 : alphabet2 g) : noPP g := by
  intro q
  rcases h2 q with hx | hx <;> rw [hx] <;> rfl

theorem alphabet2_replicate (w h : Nat) :
    alphabet2 (List.replicate h (List.replicate w Tile.Wall)) :=
  fun q => Or.inl (at2_replicate_same w h Tile.Wall q)

theorem listContains_iff (l : List Pos) (a : Pos) :
    l.contains a = true ↔ a ∈ l := by
  simp

theorem listContains_eq_false {l : List Pos} {a : Pos} (hn : a ∉ l) :
    l.contains a = false := by
  cases hc : l.contains a
  · rfl
  · exact absurd ((listContains_iff l a).mp hc) hn

theorem mem_powerSpots {w h : Nat} {s : Pos} :
    s ∈ powerSpots w h ↔ (s.x = 1 ∨ s.x = w - 2) ∧ (s.y = 1 ∨ s.y = h - 2) := by
  cases s with
  | mk sx sy =>
    simp only [powerSpots, List.mem_cons, List.not_mem_nil, or_false,
      Pos.mk.injEq]
    constructor
    · rintro (⟨rfl, rfl⟩ | ⟨rfl, rfl⟩ | ⟨rfl, rfl⟩ | ⟨rfl, rfl⟩) <;> simp
    · rintro ⟨(rfl | rfl), (rfl | rfl)⟩ <;> simp

theorem is_pen_wall_true {q : Pos} {x0 y0 x1 y1 : Nat}
    (h1 : x0 ≤ q.x) (h2 : q.x ≤ x1) (h3 : y0 ≤ q.y) (h4 : q.y ≤ y1)
    (hr : q.y = y0 ∨ q.y = y1 ∨ q.x = x0 ∨ q.x = x1) :
    is_pen_wall q ⟨x0, y0, x1, y1⟩ = true := by
  simp only [is_pen_wall, Bool.or_eq_true, Bool.and_eq_true, decide_eq_true_eq]
  omega

/-- `mazePost` keeps the grid shape and returns a pellet counter equal to the
number of `Pellet`/`Power` tiles of the grid it returns, for any post-braid
grid of walls and empty tiles. -/
theorem mazePost_spec {w h x0 y0 x1 y1 : Nat} (hw : 5 ≤ w) (hh : 5 ≤ h)
    (hpb : pen_bounds w h = (x0, y0, x1, y1)) (gridB : Grid)
    (hshB : shape2 gridB w h) (halB : alphabet2 gridB) :
    shape2 (mazePost gridB w h).1 w h ∧
    (mazePost gridB w h).2.1 = countPP (mazePost gridB w h).1 := by
  have hf := pen_bounds_facts hw hh
  rw [hpb] at hf
  dsimp only at hf
  obtain ⟨hx0, hx01, hx1, hy0, hy01, hy1⟩ := hf
  have hdx1 : x0 + 1 ≤ (x0 + x1) / 2 := by omega
  have hdx2 : (x0 + x1) / 2 ≤ x1 - 1 := by omega
  obtain ⟨hshP, hpenB, hdoorEq, hgateP, hringP, hintP, hnoPPf, hgonly, houtP,
    hpallIff⟩ := carve_ghost_pen_spec hshB hw hh hpb
  have hnoPPP : noPP (carve_ghost_pen gridB w h).1 :=
    hnoPPf (noPP_of_alphabet2 halB)
  simp only [mazePost, pelletPass]
  rw [hpenB]
  have hshE : shape2 (ensure_connected (carve_ghost_pen gridB w h).1 w h
      ⟨x0, y0, x1, y1⟩) w h :=
    ensure_connected_pres (fun g2 => shape2 g2 w h)
      (fun g2 p _ _ hs2 => shape2_set2 _ _ hs2) _ hshP
  have hnoE : noPP (ensure_connected (carve_ghost_pen gridB w h).1 w h
      ⟨x0, y0, x1, y1⟩) :=
    ensure_connected_pres noPP
      (fun g2 p _ _ hn => noPP_setTile hn _ rfl) _ hnoPPP
  have hgateE : tileAt (ensure_connected (carve_ghost_pen gridB w h).1 w h
      ⟨x0, y0, x1, y1⟩) ⟨(x0 + x1) / 2, y0⟩ = Tile.Gate := by
    refine ensure_connected_pres
      (fun g2 => tileAt g2 ⟨(x0 + x1) / 2, y0⟩ = Tile.Gate) ?_ _ hgateP
    intro g2 p hwall hpw hP
    have hne : (⟨(x0 + x1) / 2, y0⟩ : Pos) ≠ p := by
      intro hc
      rw [← hc] at hwall
      rw [hP] at hwall
      cases hwall
    rw [tileAt_setTile_ne _ _ hne]
    exact hP
  have hringE : ∀ q : Pos, q ≠ ⟨(x0 + x1) / 2, y0⟩ →
      x0 ≤ q.x → q.x ≤ x1 → y0 ≤ q.y → q.y ≤ y1 →
      (q.y = y0 ∨ q.y = y1 ∨ q.x = x0 ∨ q.x = x1) →
      tileAt (ensure_connected (carve_ghost_pen gridB w h).1 w h
        ⟨x0, y0, x1, y1⟩) q = Tile.Wall := by
    refine ensure_connected_pres
      (fun g2 => ∀ q : Pos, q ≠ ⟨(x0 + x1) / 2, y0⟩ →
        x0 ≤ q.x → q.x ≤ x1 → y0 ≤ q.y → q.y ≤ y1 →
        (q.y = y0 ∨ q.y = y1 ∨ q.x = x0 ∨ q.x = x1) →
        tileAt g2 q = Tile.Wall) ?_ _ hringP
    intro g2 p hwall hpw hP q hqd h1 h2 h3 h4 hr
    have hne : q ≠ p := by
      intro hc
      rw [← hc] at hpw
      rw [is_pen_wall_true h1 h2 h3 h4 hr] at hpw
      cases hpw
    rw [tileAt_setTile_ne _ _ hne]
    exact hP q hqd h1 h2 h3 h4 hr
  have hintE : ∀ r : Pos, x0 < r.x → r.x < x1 → y0 < r.y → r.y < y1 →
      tileAt (ensure_connected (carve_ghost_pen gridB w h).1 w h
        ⟨x0, y0, x1, y1⟩) r = Tile.Empty := by
    refine ensure_connected_pres
      (fun g2 => ∀ r : Pos, x0 < r.x → r.x < x1 → y0 < r.y → r.y < y1 →
        tileAt g2 r = Tile.Empty) ?_ _ hintP
    intro g2 p hwall hpw hP r h1 h2 h3 h4
    have hne : r ≠ p := by
      intro hc
      rw [← hc] at hwall
      rw [hP r h1 h2 h3 h4] at hwall
      cases hwall
    rw [tileAt_setTile_ne _ _ hne]
    exact hP r h1 h2 h3 h4
  have houtE : ∀ q : Pos, ¬(x0 ≤ q.x ∧ q.x ≤ x1 ∧ y0 ≤ q.y ∧ q.y ≤ y1) →
      tileAt (ensure_connected (carve_ghost_pen gridB w h).1 w h
        ⟨x0, y0, x1, y1⟩) q = tileAt gridB q ∨
      tileAt (ensure_connected (carve_ghost_pen gridB w h).1 w h
        ⟨x0, y0, x1, y1⟩) q = Tile.Empty := by
    refine ensure_connected_pres
      (fun g2 => ∀ q : Pos, ¬(x0 ≤ q.x ∧ q.x ≤ x1 ∧ y0 ≤ q.y ∧ q.y ≤ y1) →
        tileAt g2 q = tileAt gridB q ∨ tileAt g2 q = Tile.Empty) ?_ _ houtP
    intro g2 p hwall hpw hP q hqout
    rcases tileAt_setTile_or g2 p q Tile.Empty with h2 | h2
    · rw [h2]
      exact hP q hqout
    · exact Or.inr h2
  have hbIC : ∀ r ∈ interiorCoords w h, r.x < w ∧ r.y < h := by
    intro r hr
    rw [mem_interiorCoords] at hr
    omega
  obtain ⟨hshPP, hcntPP⟩ := pelletFold_count (carve_ghost_pen gridB w h).2.1
    (interiorCoords w h)
    (ensure_connected (carve_ghost_pen gridB w h).1 w h ⟨x0, y0, x1, y1⟩, 0)
    hbIC hshE
  dsimp only at hcntPP
  have htile := pelletFold_tile (carve_ghost_pen gridB w h).2.1
    (interiorCoords w h)
    (ensure_connected (carve_ghost_pen gridB w h).1 w h ⟨x0, y0, x1, y1⟩, 0)
    (nodup_interiorCoords w h) hbIC hshE
  have hspotFact : ∀ s ∈ powerSpots w h,
      isPP (tileAt ((interiorCoords w h).foldl
        (pelletStep (carve_ghost_pen gridB w h).2.1)
        (ensure_connected (carve_ghost_pen gridB w h).1 w h
          ⟨x0, y0, x1, y1⟩, 0)).1 s) = true ∨
      tileAt ((interiorCoords w h).foldl
        (pelletStep (carve_ghost_pen gridB w h).2.1)
        (ensure_connected (carve_ghost_pen gridB w h).1 w h
          ⟨x0, y0, x1, y1⟩, 0)).1 s = Tile.Wall := by
    intro s hsm
    rw [mem_powerSpots] at hsm
    obtain ⟨hsx, hsy⟩ := hsm
    by_cases hbox : x0 ≤ s.x ∧ s.x ≤ x1 ∧ y0 ≤ s.y ∧ s.y ≤ y1
    · have hring : s.y = y0 ∨ s.y = y1 ∨ s.x = x0 ∨ s.x = x1 := by omega
      have hsd : s ≠ ⟨(x0 + x1) / 2, y0⟩ := by
        intro hc
        have hceq : s.x = (x0 + x1) / 2 := congrArg Pos.x hc
        omega
      have hwall := hringE s hsd hbox.1 hbox.2.1 hbox.2.2.1 hbox.2.2.2 hring
      right
      rw [htile s, if_neg (by rintro ⟨-, hc, -⟩; rw [hwall] at hc; cases hc)]
      exact hwall
    · have hmem : s ∈ interiorCoords w h := mem_interiorCoords.mpr (by omega)
      have hnp : s ∉ (carve_ghost_pen gridB w h).2.1 := by
        rw [hpallIff]
        rintro (hin | hdoor)
        · exact hbox (by omega)
        · have hceq : s.x = (x0 + x1) / 2 := congrArg Pos.x hdoor
          omega
      have hcont : ((carve_ghost_pen gridB w h).2.1).contains s = false :=
        listContains_eq_false hnp
      rcases houtE s hbox with hkeep | hemp
      · rcases halB s with hwB | heB
        · right
          rw [htile s,
            if_neg (by rintro ⟨-, hc, -⟩; rw [hkeep, hwB] at hc; cases hc),
            hkeep]
          exact hwB
        · left
          rw [htile s, if_pos ⟨hmem, by rw [hkeep]; exact heB, hcont⟩]
          rfl
      · left
        rw [htile s, if_pos ⟨hmem, hemp, hcont⟩]
        rfl
  have hspotBounds : ∀ s ∈ powerSpots w h, s.x < w ∧ s.y < h := by
    intro s hsm
    rw [mem_powerSpots] at hsm
    omega
  obtain ⟨hsh3, hcnt3, hfr3⟩ := powerFold_count (powerSpots w h) _
    hspotBounds hshPP hspotFact
  have hpenBounds : ∀ r ∈ (carve_ghost_pen gridB w h).2.1,
      r.x < w ∧ r.y < h := by
    intro r hr
    rcases (hpallIff r).mp hr with hin | hdoor
    · omega
    · have hceq : r.x = (x0 + x1) / 2 := congrArg Pos.x hdoor
      have hceqy : r.y = y0 := congrArg Pos.y hdoor
      omega
  have hpenAlpha : ∀ r ∈ (carve_ghost_pen gridB w h).2.1,
      tileAt ((powerSpots w h).foldl powerStep
        ((interiorCoords w h).foldl
          (pelletStep (carve_ghost_pen gridB w h).2.1)
          (ensure_connected (carve_ghost_pen gridB w h).1 w h
            ⟨x0, y0, x1, y1⟩, 0)).1) r = Tile.Wall ∨
      tileAt ((powerSpots w h).foldl powerStep
        ((interiorCoords w h).foldl
          (pelletStep (carve_ghost_pen gridB w h).2.1)
          (ensure_connected (carve_ghost_pen gridB w h).1 w h
            ⟨x0, y0, x1, y1⟩, 0)).1) r = Tile.Empty ∨
      tileAt ((powerSpots w h).foldl powerStep
        ((interiorCoords w h).foldl
          (pelletStep (carve_ghost_pen gridB w h).2.1)
          (ensure_connected (carve_ghost_pen gridB w h).1 w h
            ⟨x0, y0, x1, y1⟩, 0)).1) r = Tile.Gate := by
    intro r hr
    have hrc : ((carve_ghost_pen gridB w h).2.1).contains r = true :=
      (listContains_iff _ _).mpr hr
    rcases (hpallIff r).mp hr with hin | hdoor
    · have hnotspot : r ∉ powerSpots w h := by
        intro hc
        rw [mem_powerSpots] at hc
        omega
      rw [hfr3 r hnotspot, htile r,
        if_neg (by rintro ⟨-, -, hc⟩; rw [hrc] at hc; cases hc)]
      right
      left
      exact hintE r hin.1 hin.2.1 hin.2.2.1 hin.2.2.2
    · subst hdoor
      have hnotspot : (⟨(x0 + x1) / 2, y0⟩ : Pos) ∉ powerSpots w h := by
        intro hc
        rw [mem_powerSpots] at hc
        obtain ⟨hc1, hc2⟩ := hc
        have hc1' : (x0 + x1) / 2 = 1 ∨ (x0 + x1) / 2 = w - 2 := hc1
        omega
      rw [hfr3 _ hnotspot, htile _,
        if_neg (by rintro ⟨-, hc, -⟩; rw [hgateE] at hc; cases hc)]
      right
      right
      exact hgateE
  obtain ⟨hsh4, hcnt4⟩ := penClearFold_count (carve_ghost_pen gridB w h).2.1 _
    hpenBounds hsh3 hpenAlpha
  refine ⟨hsh4, ?_⟩
  rw [hcnt4, hcnt3]
  have hzero : countPP (ensure_connected (carve_ghost_pen gridB w h).1 w h
      ⟨x0, y0, x1, y1⟩) = 0 := countPP_eq_zero hnoE
  omega

/-- The grid returned by `generate_maze` keeps its shape and its pellet
counter equals the number of `Pellet`/`Power` tiles in it. -/
theorem generate_maze_pellets (rng : Rng) (w h : Nat) (hw : 5 ≤ w)
    (hh : 5 ≤ h) :
    shape2 (generate_maze rng w h).1.1 w h ∧
    (generate_maze rng w h).1.2.1 = countPP (generate_maze rng w h).1.1 := by
  rcases hpb : pen_bounds w h with ⟨x0, y0, x1, y1⟩
  rw [generate_maze]
  dsimp only
  refine mazePost_spec hw hh hpb _ ?_ ?_
  · refine braid_maze_pres (fun g => shape2 g w h)
      (fun g p hs => shape2_set2 _ _ hs) _ _ ?_
    refine mazeLoop_pres (fun g => shape2 g w h)
      (fun g p hs => shape2_set2 _ _ hs) _ _ _ _ _ ?_
    exact shape2_set2 _ _ (shape2_replicate w h Tile.Wall)
  · refine braid_maze_pres alphabet2
      (fun g p hs => alphabet2_setTile hs p) _ _ ?_
    refine mazeLoop_pres alphabet2
      (fun g p hs => alphabet2_setTile hs p) _ _ _ _ _ ?_
    exact alphabet2_setTile (alphabet2_replicate w h) _

/-! ## The pellet-count game invariant -/

/-- Inductive invariant of the orchestrator: sane dimensions, a well-shaped
grid, in-bounds player and player spawn, and a pellet counter equal to the
number of `Pellet`/`Power` tiles in the grid. -/
def pinv (g : Game) : Prop :=
  5 ≤ g.width ∧ 5 ≤ g.height ∧ shape2 g.grid g.width g.height ∧
  g.player.x < g.width ∧ g.player.y < g.height ∧
  g.player_spawn.x < g.width ∧ g.player_spawn.y < g.height ∧
  g.pellets_left = countPP g.grid

theorem can_move_player_lt {grid : Grid} {w h : Nat} {p : Pos} {d : Dir}
    (hc : can_move_player grid w h p d = true) :
    (step p d).x < w ∧ (step p d).y < h := by
  rw [can_move_player] at hc
  dsimp only at hc
  split at hc
  · cases hc
  · split at hc
    · cases hc
    · rename_i h2
      simp only [Bool.or_eq_true, not_or, decide_eq_true_eq, not_le] at h2
      simp only [step_def]
      exact h2

theorem mem_empty_cells {grid : Grid} {p : Pos} (hm : p ∈ empty_cells grid) :
    p.y < grid.length ∧ p.x < (grid.getD p.y []).length := by
  simp only [empty_cells, List.mem_flatMap, List.mem_map, List.mem_filter,
    List.mem_range] at hm
  obtain ⟨y, hy, x, ⟨hx, _⟩, hxy⟩ := hm
  cases hxy
  exact ⟨hy, hx⟩

theorem findPlayerSpawn_bounds {grid : Grid} {w h : Nat} {gs : List Pos}
    {rng : Rng} {empties : List Pos} {rng2 : Rng} {p : Pos}
    (hS : shuffle (empty_cells grid) rng = (empties, rng2))
    (hF : findPlayerSpawn empties gs w h = some p)
    (hsh : shape2 grid w h) : p.x < w ∧ p.y < h := by
  have hmem : p ∈ empties := List.mem_of_find?_eq_some hF
  have hmem2 : p ∈ empty_cells grid := by
    have hiff := mem_shuffle p (empty_cells grid) rng
    rw [hS] at hiff
    exact hiff.mp hmem
  obtain ⟨hy, hx⟩ := mem_empty_cells hmem2
  obtain ⟨hl, hr⟩ := hsh
  rw [hl] at hy
  rw [hr p.y hy] at hx
  exact ⟨hx, hy⟩

theorem apply_input_pinv (g : Game) (d : Option Dir) (a : Bool) (hp : pinv g) :
    pinv (g.apply_input d a) := by
  obtain ⟨f1, f2, f3, f4, f5, f6, -, -⟩ := apply_input_frame g d a
  simp only [pinv]
  rw [f1, f2, f3, f4, f5, f6]
  exact hp

theorem move_player_pinv (g : Game) (hp : pinv g) : pinv g.move_player := by
  rw [Game.move_player]
  rcases g.dir with _ | dd
  · exact hp
  · dsimp only
    split
    · rename_i hcan
      obtain ⟨hb1, hb2⟩ := can_move_player_lt hcan
      exact ⟨hp.1, hp.2.1, hp.2.2.1, hb1, hb2, hp.2.2.2.2.2.1,
        hp.2.2.2.2.2.2.1, hp.2.2.2.2.2.2.2⟩
    · exact ⟨hp.1, hp.2.1, hp.2.2.1, hp.2.2.2.1, hp.2.2.2.2.1,
        hp.2.2.2.2.2.1, hp.2.2.2.2.2.2.1, hp.2.2.2.2.2.2.2⟩

theorem consume_tile_pinv (g : Game) (hp : pinv g) : pinv g.consume_tile := by
  obtain ⟨hw, hh, hsh, hpx, hpy, hsx, hsy, hcnt⟩ := hp
  rcases consume_tile_cases g with ⟨ht, he⟩ | ⟨ht, he⟩ | ⟨-, -, he⟩
  · rw [he]
    have hx := countPP_setTile hsh g.player Tile.Empty hpx hpy
    rw [ht] at hx
    simp only [isPP] at hx
    simp at hx
    exact ⟨hw, hh, shape2_set2 _ _ hsh, hpx, hpy, hsx, hsy,
      by dsimp only; omega⟩
  · rw [he]
    have hx := countPP_setTile hsh g.player Tile.Empty hpx hpy
    rw [ht] at hx
    simp only [isPP] at hx
    simp at hx
    exact ⟨hw, hh, shape2_set2 _ _ hsh, hpx, hpy, hsx, hsy,
      by dsimp only; omega⟩
  · rw [he]
    exact ⟨hw, hh, hsh, hpx, hpy, hsx, hsy, hcnt⟩

theorem try_collect_bonus_pinv (g : Game) (rng : Rng) (hp : pinv g) :
    pinv (g.try_collect_bonus rng).1 := by
  obtain ⟨f1, f2, f3, f4, f5, f6, -⟩ := try_collect_bonus_frame g rng
  simp only [pinv]
  rw [f1, f2, f3, f4, f5, f6]
  exact hp

theorem update_bonus_pinv (g : Game) (rng : Rng) (hp : pinv g) :
    pinv (g.update_bonus rng).1 := by
  obtain ⟨f1, f2, f3, f4, f5, f6, -⟩ := update_bonus_frame g rng
  simp only [pinv]
  rw [f1, f2, f3, f4, f5, f6]
  exact hp

theorem update_ghosts_pinv (g : Game) (rng : Rng) (hp : pinv g) :
    pinv (g.update_ghosts rng).1 := by
  obtain ⟨f1, f2, f3, f4, f5, f6, -⟩ := update_ghosts_frame g rng
  simp only [pinv]
  rw [f1, f2, f3, f4, f5, f6]
  exact hp

theorem tick_power_timer_pinv (g : Game) (hp : pinv g) :
    pinv g.tick_power_timer := by
  obtain ⟨f1, f2, f3, f4, f5, f6⟩ := tick_power_timer_frame g
  simp only [pinv]
  rw [f1, f2, f3, f4, f5, f6]
  exact hp

theorem handle_collisions_pinv (g : Game) (rng : Rng) (hp : pinv g) :
    pinv (g.handle_collisions rng).1 := by
  obtain ⟨f1, f2, f3, f4, f5, f6, -⟩ := handle_collisions_frame g rng
  obtain ⟨hw, hh, hsh, hpx, hpy, hsx, hsy, hcnt⟩ := hp
  refine ⟨?_, ?_, ?_, ?_, ?_, ?_, ?_, ?_⟩
  · rw [f5]
    exact hw
  · rw [f6]
    exact hh
  · rw [f1, f5, f6]
    exact hsh
  · rcases f3 with hpl | hpl
    · rw [hpl, f5]
      exact hpx
    · rw [hpl, f5]
      exact hsx
  · rcases f3 with hpl | hpl
    · rw [hpl, f6]
      exact hpy
    · rw [hpl, f6]
      exact hsy
  · rw [f4, f5]
    exact hsx
  · rw [f4, f6]
    exact hsy
  · rw [f2, f1]
    exact hcnt

theorem next_level_pinv {g : Game} {rng : Rng} {g2 : Game} {rng2 : Rng}
    (hn : next_level g rng = some (g2, rng2)) (hw : 5 ≤ g.width)
    (hh : 5 ≤ g.height) : pinv g2 := by
  obtain ⟨hshG, hcntG⟩ := generate_maze_pellets rng g.width g.height hw hh
  rw [next_level] at hn
  dsimp only at hn
  rcases hS : shuffle (empty_cells (generate_maze rng g.width g.height).1.1)
      (generate_maze rng g.width g.height).2 with ⟨empties, rngS⟩
  rw [hS] at hn
  dsimp only at hn
  rcases hF : findPlayerSpawn empties
      (generate_maze rng g.width g.height).1.2.2.1 g.width g.height
      with _ | player
  · rw [hF] at hn
    exact Option.noConfusion hn
  · rw [hF] at hn
    dsimp only [Rng.genRangeIncl] at hn
    rw [Option.some_inj] at hn
    have hg2 : g2 = _ := (congrArg Prod.fst hn).symm
    obtain ⟨hbx, hby⟩ := findPlayerSpawn_bounds hS hF hshG
    rw [hg2]
    exact ⟨hw, hh, hshG, hbx, hby, hbx, hby, hcntG⟩

theorem new_game_pinv {rng : Rng} {level w h : Nat} {g2 : Game} {rng2 : Rng}
    (hn : new_game rng level w h = some (g2, rng2)) (hw : 5 ≤ w)
    (hh : 5 ≤ h) : pinv g2 := by
  obtain ⟨hshG, hcntG⟩ := generate_maze_pellets rng w h hw hh
  rw [new_game] at hn
  dsimp only at hn
  rcases hS : shuffle (empty_cells (generate_maze rng w h).1.1)
      (generate_maze rng w h).2 with ⟨empties, rngS⟩
  rw [hS] at hn
  dsimp only at hn
  rcases hF : findPlayerSpawn empties (generate_maze rng w h).1.2.2.1 w h
      with _ | player
  · rw [hF] at hn
    exact Option.noConfusion hn
  · rw [hF] at hn
    dsimp only [Rng.genRangeIncl] at hn
    rw [Option.some_inj] at hn
    have hg2 : g2 = _ := (congrArg Prod.fst hn).symm
    obtain ⟨hbx, hby⟩ := findPlayerSpawn_bounds hS hF hshG
    rw [hg2]
    exact ⟨hw, hh, hshG, hbx, hby, hbx, hby, hcntG⟩

theorem tick_pinv {g : Game} {rng : Rng} {d : Option Dir} {a : Bool}
    {g2 : Game} {rng2 : Rng} (htick : tick g rng d a = some (g2, rng2))
    (hp : pinv g) : pinv g2 := by
  rw [tick_eq] at htick
  dsimp only at htick
  have hp3 : pinv (((g.apply_input d a).move_player).consume_tile) :=
    consume_tile_pinv _ (move_player_pinv _ (apply_input_pinv g d a hp))
  rcases hT : Game.try_collect_bonus (((g.apply_input d a).move_player).consume_tile)
      rng with ⟨gT, rngT⟩
  rw [hT] at htick
  dsimp only at htick
  have hp4 : pinv gT := by
    have hx := try_collect_bonus_pinv (((g.apply_input d a).move_player).consume_tile)
      rng hp3
    rw [hT] at hx
    exact hx
  split at htick
  · exact next_level_pinv htick hp4.1 hp4.2.1
  · rcases hB : gT.update_bonus rngT with ⟨gB, rngB⟩
    rw [hB] at htick
    dsimp only at htick
    have hp5 : pinv gB := by
      have hx := update_bonus_pinv gT rngT hp4
      rw [hB] at hx
      exact hx
    rcases hG : gB.update_ghosts rngB with ⟨gG, rngG⟩
    rw [hG] at htick
    dsimp only at htick
    have hp6 : pinv gG := by
      have hx := update_ghosts_pinv gB rngB hp5
      rw [hG] at hx
      exact hx
    have hp7 : pinv gG.tick_power_timer := tick_power_timer_pinv gG hp6
    rw [Option.some_inj] at htick
    have hg2 : g2 = (gG.tick_power_timer.handle_collisions rngG).1 :=
      (congrArg Prod.fst htick).symm
    rw [hg2]
    exact handle_collisions_pinv _ _ hp7

/-- C7: the pellet accounting claim. (a) For sane dimensions (at least 5 in
each direction, enough to host a pen), `generate_maze` returns a
`pellets_left` equal to the number of `Pellet`/`Power` tiles of the grid it
returns. (b) The equality `pellets_left = countPP grid` — packaged in the
inductive invariant `pinv` together with the shape and bounds facts needed
to push it through a step — holds for every state `new_game` produces and is
preserved by every `tick` that returns a state, hence holds on every
reachable game state. -/
theorem C7_pellets_invariant :
    (∀ (rng : Rng) (w h : Nat), 5 ≤ w → 5 ≤ h →
      (generate_maze rng w h).1.2.1 = countPP (generate_maze rng w h).1.1) ∧
    (∀ (rng : Rng) (level w h : Nat) (g : Game) (rng2 : Rng), 5 ≤ w → 5 ≤ h →
      new_game rng level w h = some (g, rng2) → pinv g) ∧
    (∀ (g : Game) (rng : Rng) (d : Option Dir) (a : Bool) (g2 : Game)
      (rng2 : Rng), tick g rng d a = some (g2, rng2) → pinv g → pinv g2) :=
  ⟨fun rng w h hw hh => (generate_maze_pellets rng w h hw hh).2,
   fun _ _ _ _ _ _ hw hh hn => new_game_pinv hn hw hh,
   fun _ _ _ _ _ _ ht hp => tick_pinv ht hp⟩

/-- A 5×5 room with a single pellet, used to witness the tick invariant. -/
def pelletRow5 : List Tile :=
  [Tile.Wall, Tile.Empty, Tile.Pellet, Tile.Empty, Tile.Wall]

def sampleGame2 : Game :=
  { sampleGame with
      grid := [wallRow5, pelletRow5, openRow5, openRow5, wallRow5]
      pellets_left := 1 }

set_option maxRecDepth 8000 in
theorem C7_witness :
    (generate_maze rng0 13 9).1.2.1 = countPP (generate_maze rng0 13 9).1.1 ∧
    (tick sampleGame2 rng0 none false).isSome = true ∧
    pinv ((tick sampleGame2 rng0 none false).getD (sampleGame2, rng0)).1 := by
  have hE : (tick sampleGame2 rng0 none false).isSome = true := by decide
  have hpinv : pinv sampleGame2 :=
    ⟨by decide, by decide, ⟨by decide, by decide⟩, by decide, by decide,
     by decide, by decide, by decide⟩
  obtain ⟨gr, hgr⟩ := Option.isSome_iff_exists.mp hE
  refine ⟨C7_pellets_invariant.1 rng0 13 9 (by decide) (by decide), hE, ?_⟩
  rw [hgr]
  exact C7_pellets_invariant.2.2 sampleGame2 rng0 none false gr.1 gr.2
    (by rw [hgr]) hpinv

end Pacman
